import Mathlib

/-!
# gzipx: a seekable, block-addressable gzip container

Shallow embedding of `shared.go`, `writer.go` and `reader.go`.

* Bytes are `UInt8`; byte slices and buffers are `List UInt8`.
* Go's `int`/`int64` values are `Int`; `uint16`/`uint64` values are `Nat`
  reduced `% 2 ^ 16` / `% 2 ^ 64` at every place where the source converts
  or can wrap.
* Fallible operations return the Go error as an `Option Err`/`Except Err`.
* The gzip codec (`compress/gzip`, pooled by `nfam/pool/gzip`) is a black
  box: a `Codec` value gives the bytes a frame compresses to and what a
  byte section decompresses to.
-/

namespace Gzipx

/-! # Definitions -/

abbrev Byte := UInt8

/-- The error values the package returns or propagates. -/
inductive Err where
  /-- `fs.ErrClosed` -/
  | closed
  /-- `fs.ErrNotExist` -/
  | notExist
  /-- `errSeekable`: "gzip: invalid seekable frame" -/
  | seekable
  /-- `io.EOF` -/
  | eof
  /-- `io.ErrUnexpectedEOF` -/
  | unexpectedEOF
  /-- the overflow error of `encoding/binary` -/
  | overflow
  /-- a failure of the underlying sink, source or codec -/
  | io
  /-- a run-time panic: the call aborts instead of returning -/
  | abort
  deriving DecidableEq, Repr

deriving instance DecidableEq for Except

/-! ## shared.go -/

/-- `blockEntry` of shared.go. -/
structure blockEntry where
  Frame : Int
  Offset : Int
  Length : Int
  deriving DecidableEq, Repr

def empty_gzip_prefix : List Byte :=
  [0x1f, 0x8b, 0x08, 0x04, 0x00, 0x00, 0x00, 0x00, 0x00, 0xff]

def empty_gzip_prefix_len : Nat := empty_gzip_prefix.length

def empty_gzip_suffix : List Byte :=
  [0x01, 0x00, 0x00, 0xff, 0xff, 0x00, 0x00, 0x00, 0x00, 0x00, 0x00, 0x00, 0x00]

def empty_gzip_suffix_len : Nat := empty_gzip_suffix.length

/-- 65535 - 6 -/
def empty_gzip_extra_max : Nat := 65529

def empty_gzip_extra_sub : List Byte := [0x00, 0x00]

def empty_gzip_size_min : Int := (empty_gzip_prefix_len + empty_gzip_suffix_len : Nat)

/-! ## Little-endian 16-bit fields (`encoding/binary`) -/

/-- `binary.Write(b, binary.LittleEndian, v)` for a `uint16` value `v`:
low byte first. -/
def putUint16 (v : Nat) : List Byte :=
  [(v % 256).toUInt8, (v / 256 % 256).toUInt8]

/-- `binary.Decode(p, binary.LittleEndian, &x)` for a `uint16` destination:
`uint16(p[0]) | uint16(p[1])<<8`. -/
def getUint16 (b0 b1 : Byte) : Nat :=
  b0.toNat ||| (b1.toNat <<< 8)

/-! ## The sink (`io.Writer`) -/

/-- An `io.Writer` that records what it received.  `room = none` is a sink
that accepts every byte; `room = some k` accepts `k` more bytes and then
fails. -/
structure Sink where
  data : List Byte
  room : Option Nat
  deriving DecidableEq, Repr

/-- `Write(p)`: the sink after the call, the count `n` of bytes taken and
the error (non-nil exactly when `n < len(p)`). -/
def Sink.Write (s : Sink) (p : List Byte) : Sink × Nat × Option Err :=
  match s.room with
  | none => ({ s with data := s.data ++ p }, p.length, none)
  | some k =>
    if p.length ≤ k then
      ({ data := s.data ++ p, room := some (k - p.length) }, p.length, none)
    else
      ({ data := s.data ++ p.take k, room := some 0 }, k, some Err.io)

/-! ## writer.go: `seekStat.write` -/

/-- The body of the first loop of `seekStat.write` for one chunk `p`: the
bytes written into the fresh buffer `b`. -/
def segment (p : List Byte) : List Byte :=
  let size := p.length % 2 ^ 16
  empty_gzip_prefix
    ++ putUint16 ((size + 6) % 2 ^ 16)
    ++ empty_gzip_extra_sub
    ++ putUint16 size
    ++ p
    ++ putUint16 size
    ++ empty_gzip_suffix

/-- The first loop of `seekStat.write`, `for len(data) > 0`: cuts `data`
into chunks and appends one segment buffer per chunk to `buf`.  Every
round removes at least one byte, so `fuel = len(data)` rounds suffice. -/
def seekStat.build : Nat → List Byte → List (List Byte) → List (List Byte)
  | 0, _, buf => buf
  | fuel + 1, data, buf =>
    if data.length > 0 then
      let p := data.take (min data.length empty_gzip_extra_max)
      let data := data.drop p.length
      seekStat.build fuel data (buf ++ [segment p])
    else buf

/-- The second loop of `seekStat.write` over the buffers in the order it
visits them (`i = len(buf)-1` down to `0`): stops at the first failed
write. -/
def seekStat.emit : List (List Byte) → Sink → Sink × Option Err
  | [], w => (w, none)
  | b :: rest, w =>
    match w.Write b with
    | (w1, _, some e) => (w1, some e)
    | (w1, _, none) => seekStat.emit rest w1

/-- `seekStat.write(w)` on the buffered bytes `data = s.b.Bytes()`. -/
def seekStat.write (data : List Byte) (w : Sink) : Sink × Option Err :=
  let buf := seekStat.build data.length data []
  seekStat.emit buf.reverse w

/-! ## reader.go: the backward scan of `Reader.init` -/

/-- `rat.ReadAt(p[:k], off)` on a source holding the bytes `rat`: the `k`
bytes at `off`, or an error when the offset is negative or fewer than `k`
bytes stand there. -/
def ReadAt (rat : List Byte) (k : Nat) (off : Int) : Except Err (List Byte) :=
  if off < 0 then .error Err.io
  else if off.toNat + k ≤ rat.length then .ok ((rat.drop off.toNat).take k)
  else .error Err.eof

/-- The bytes `io.NewSectionReader(rat, off, n)` delivers (for `off ≥ 0`):
the section `[off, off+n)` cut at the end of the source. -/
def SectionReader (rat : List Byte) (off : Int) (n : Int) : List Byte :=
  (rat.drop off.toNat).take n.toNat

/-- The loop `for off > empty_gzip_size_min` of `Reader.init`.  The
accumulator `b` lists the reads appended to the buffer, oldest first; the
buffer holds `b.flatten`.  `break` and the loop exit return the
accumulator, `return err` is `.error`.  Every round lowers `off` by at
least 31 and needs `off > 23`, so with `off ≤ fuel` the `0` case is the loop
exit. -/
def Reader.scan : Nat → List Byte → Int → List (List Byte) → Except Err (List (List Byte))
  | 0, _, _, b => .ok b
  | fuel + 1, rat, off, b =>
    if off > empty_gzip_size_min then
      let off := off - ((empty_gzip_suffix_len + 2 : Nat) : Int)
      match ReadAt rat (empty_gzip_suffix_len + 2) off with
      | .error e => .error e
      | .ok p =>
        if (p.drop 2).take empty_gzip_suffix_len ≠ empty_gzip_suffix then .ok b
        else
          let sub_len := getUint16 (p.getD 0 0) (p.getD 1 0)
          let off := off - (sub_len : Int)
          if off < 0 then .error Err.seekable
          else
            let b := b ++ [SectionReader rat off sub_len]
            let off := off - ((empty_gzip_prefix_len + 6 : Nat) : Int)
            if off < 0 then .error Err.seekable
            else
              match ReadAt rat (empty_gzip_prefix_len + 6) off with
              | .error e => .error e
              | .ok p =>
                if p.take empty_gzip_prefix_len ≠ empty_gzip_prefix then .ok b
                else
                  let extra_len := getUint16 (p.getD empty_gzip_prefix_len 0)
                    (p.getD (empty_gzip_prefix_len + 1) 0)
                  if extra_len ≠ (sub_len + 6) % 2 ^ 16 then .error Err.seekable
                  else Reader.scan fuel rat off b
    else .ok b

/-- The first block of `Reader.init` ("Read seek_table from extra of empty
gzip"): the bytes left in the buffer `b`. -/
def Reader.readSeekTable (rat : List Byte) (size : Int) : Except Err (List Byte) :=
  match Reader.scan size.toNat rat size [] with
  | .error e => .error e
  | .ok b => .ok b.flatten

/-! ## Varints (`encoding/binary` of the Go standard library)
The package calls `binary.AppendVarint` and `binary.ReadVarint`; these
definitions follow the library's source. -/

/-- `binary.AppendUvarint(nil, x)` for a `uint64` value `x`:
`for x >= 0x80 { append(byte(x)|0x80); x >>= 7 }; append(byte(x))`.
A `uint64` needs at most 9 rounds of the loop. -/
def AppendUvarint : Nat → Nat → List Byte
  | 0, x => [x.toUInt8]
  | fuel + 1, x =>
    if x ≥ 0x80 then (x.toUInt8 ||| 0x80) :: AppendUvarint fuel (x >>> 7)
    else [x.toUInt8]

/-- `binary.AppendVarint(nil, x)` for an `int64` value `x`:
`ux := uint64(x) << 1; if x < 0 { ux = ^ux }`. -/
def AppendVarint (x : Int) : List Byte :=
  let ux := ((x % 2 ^ 64).toNat <<< 1) % 2 ^ 64
  let ux := if x < 0 then 2 ^ 64 - 1 - ux else ux
  AppendUvarint 9 ux

/-- The loop of `binary.ReadUvarint` with `k` rounds left, at round `i`,
over the unread bytes of the buffer: the value and the bytes left. -/
def ReadUvarint.loop : Nat → Nat → Nat → Nat → List Byte → Except Err (Nat × List Byte)
  | 0, _, _, _, _ => .error Err.overflow
  | k + 1, i, x, s, buf =>
    match buf with
    | [] => .error (if i > 0 then Err.unexpectedEOF else Err.eof)
    | b :: rest =>
      if b.toNat < 0x80 then
        if i = 9 ∧ b.toNat > 1 then .error Err.overflow
        else .ok (x ||| (b.toNat <<< s) % 2 ^ 64, rest)
      else
        ReadUvarint.loop k (i + 1) (x ||| ((b &&& 0x7f).toNat <<< s) % 2 ^ 64) (s + 7) rest

/-- `binary.ReadUvarint(b)`: `MaxVarintLen64 = 10` rounds. -/
def ReadUvarint (buf : List Byte) : Except Err (Nat × List Byte) :=
  ReadUvarint.loop 10 0 0 0 buf

/-- `binary.ReadVarint(b)`: `x := int64(ux >> 1); if ux&1 != 0 { x = ^x }`. -/
def ReadVarint (buf : List Byte) : Except Err (Int × List Byte) :=
  match ReadUvarint buf with
  | .error e => .error e
  | .ok (ux, rest) =>
    let x : Int := ((ux >>> 1 : Nat) : Int)
    .ok (if ux &&& 1 ≠ 0 then -x - 1 else x, rest)

/-! ## writer.go: the index `Writer.Close` serialises -/

/-- `seekStat.append(n)`: the buffer after the call. -/
def seekStat.append (b : List Byte) (n : Int) : List Byte :=
  b ++ AppendVarint n

/-- The buffer `Writer.Close` fills before `s.write`: the frame count, the
frame lengths, the block count, then frame, offset and length per block. -/
def indexBlob (frameTable : List Int) (blockTable : List blockEntry) : List Byte :=
  let b := seekStat.append [] (frameTable.length : Int)
  let b := frameTable.foldl seekStat.append b
  let b := seekStat.append b (blockTable.length : Int)
  blockTable.foldl
    (fun b e => seekStat.append (seekStat.append (seekStat.append b e.Frame) e.Offset) e.Length) b

/-! ## reader.go: the index parser of `Reader.init` -/

/-- The loop `for i := 0; i < count; i++ { r.frameTable[i], err = binary.ReadVarint(b) ... }`. -/
def readFrameTable : Nat → List Byte → Except Err (List Int × List Byte)
  | 0, b => .ok ([], b)
  | count + 1, b =>
    match ReadVarint b with
    | .error _ => .error Err.seekable
    | .ok (v, b) =>
      match readFrameTable count b with
      | .error e => .error e
      | .ok (vs, b) => .ok (v :: vs, b)

/-- The loop that fills `r.blockTable[i].Frame`, `.Offset` and `.Length`. -/
def readBlockTable : Nat → List Byte → Except Err (List blockEntry × List Byte)
  | 0, b => .ok ([], b)
  | count + 1, b =>
    match ReadVarint b with
    | .error _ => .error Err.seekable
    | .ok (frame, b) =>
      match ReadVarint b with
      | .error _ => .error Err.seekable
      | .ok (offset, b) =>
        match ReadVarint b with
        | .error _ => .error Err.seekable
        | .ok (length, b) =>
          match readBlockTable count b with
          | .error e => .error e
          | .ok (es, b) => .ok (⟨frame, offset, length⟩ :: es, b)

/-- `runtime.maxAlloc` of the Go runtime on a 64-bit platform: the largest
number of bytes one allocation may have. -/
def maxAlloc : Nat := 2 ^ 48

/-- Whether `make([]T, count)` panics, for elements of `elemSize` bytes:
`runtime.makeslice` panics ("len out of range") for a negative `count` and
for more than `maxAlloc` bytes.  An allocation within `maxAlloc` is taken to
succeed. -/
def makePanics (elemSize : Nat) (count : Int) : Bool :=
  decide (count < 0 ∨ elemSize * count.toNat > maxAlloc)

/-- The second block of `Reader.init` ("Parse seek_table") over the buffer
`b`.  Both tables are allocated with `make([]T, count)` before their entries
are read: 8 bytes for an `int64`, 24 bytes for a `blockEntry`. -/
def parseSeekTable (b : List Byte) : Except Err (List Int × List blockEntry) :=
  match ReadVarint b with
  | .error _ => .error Err.seekable
  | .ok (i64, b) =>
    if makePanics 8 i64 then .error Err.abort
    else
      match readFrameTable i64.toNat b with
      | .error e => .error e
      | .ok (frameTable, b) =>
        match ReadVarint b with
        | .error _ => .error Err.seekable
        | .ok (i64, b) =>
          if makePanics 24 i64 then .error Err.abort
          else
            match readBlockTable i64.toNat b with
            | .error e => .error e
            | .ok (blockTable, _) => .ok (frameTable, blockTable)

/-- A `Reader`: the source and the two tables. -/
structure Reader where
  rat : List Byte
  frameTable : List Int
  blockTable : List blockEntry
  deriving DecidableEq, Repr

/-- `Reader.init(rat, size)` as `NewReader` uses it: the Reader, or the
error. -/
def Reader.init (rat : List Byte) (size : Int) : Except Err Reader :=
  if size < empty_gzip_size_min then .error Err.seekable
  else
    match Reader.readSeekTable rat size with
    | .error e => .error e
    | .ok b =>
      match parseSeekTable b with
      | .error e => .error e
      | .ok (frameTable, blockTable) => .ok ⟨rat, frameTable, blockTable⟩

/-- `NewReader(r, size)`. -/
def NewReader (r : List Byte) (size : Int) : Except Err Reader :=
  Reader.init r size

/-! ## The gzip codec, a black box -/

/-- What the package needs to know of the gzip codec.

* `compress x` is the byte string a `*gzip.Writer` has emitted for the
  uncompressed content `x` once `Close` has succeeded.
* `decompress s` is what `gzip.NewReader` makes of the byte section `s`: an
  error, or the bytes the stream delivers and the error that ends it
  (`io.EOF` for a well-formed section).
* `burst` and `eager` are the two freedoms an `io.Reader` has: one `Read`
  delivers at most `burst + 1` bytes, and when `eager` is set the `Read` that
  delivers the last byte reports the end of the stream with it (as
  `compress/flate` does) instead of on the next call. -/
structure Codec where
  compress : List Byte → List Byte
  decompress : List Byte → Except Err (List Byte × Err)
  burst : Nat
  eager : Bool

/-- A lossless codec: a compressed frame decompresses to its content and
ends with `io.EOF`. -/
def Codec.Lossless (c : Codec) : Prop :=
  ∀ x : List Byte, c.decompress (c.compress x) = .ok (x, Err.eof)

/-- A 32-bit value as four bytes, low byte first (RFC 1952 stores the
fields of a gzip member this way). -/
def putUint32 (v : Nat) : List Byte :=
  [(v % 256).toUInt8, (v / 2 ^ 8 % 256).toUInt8, (v / 2 ^ 16 % 256).toUInt8,
    (v / 2 ^ 24 % 256).toUInt8]

/-- The gzip member trailer (RFC 1952): a compressed frame ends with ISIZE,
the size of the uncompressed content modulo 2^32. -/
def Codec.Sized (c : Codec) : Prop :=
  ∀ x : List Byte, ∃ body : List Byte, c.compress x = body ++ putUint32 (x.length % 2 ^ 32)

/-! ## writer.go: `Writer` -/

/-- `frameStat` without its `base`, which is the sink of the `Writer`. -/
structure frameStat where
  /-- uncompressed size limit -/
  limit : Int
  /-- uncompressed size -/
  inputSize : Int
  /-- compressed size, including header, trailer -/
  frameSize : Int
  deriving DecidableEq, Repr

/-- The pooled `*gzip.Writer` after `Reset`: the uncompressed bytes it has
taken, and whether it holds a sticky error.  The codec is a black box that
gives the bytes of a whole frame, so the frame reaches the sink in one
`Write` when it is closed.  A `*gzip.Writer` may send leading bytes of the
frame earlier (the header at its first `Write`): on a sink that refuses
bytes a call can fail there that succeeds here and fails at the close of the
frame.  Runs without error have the same tables and the same sink either
way. -/
structure GzipWriter where
  content : List Byte
  failed : Bool
  deriving DecidableEq, Repr

/-- `Writer` of writer.go.  `pool` is `w.pool != nil`, `frame` is `w.frame`
(`none` for `nil`).  `frames` is a ghost field, absent from the source: the
uncompressed content of every frame closed so far, in order. -/
structure Writer where
  base : Sink
  pool : Bool
  stat : frameStat
  frame : Option GzipWriter
  frameTable : List Int
  blockTable : List blockEntry
  frames : List (List Byte)
  deriving DecidableEq, Repr

def default_frame_limit : Int := 2 ^ 17

def block_sep : List Byte := [0x0a, 0x0a]

/-- `NewWriterLimit(w, limit)`. -/
def NewWriterLimit (w : Sink) (limit : Int) : Writer :=
  { base := w, pool := true, stat := ⟨limit, 0, 0⟩, frame := none,
    frameTable := [], blockTable := [], frames := [] }

/-- `NewWriter(w)`. -/
def NewWriter (w : Sink) : Writer := NewWriterLimit w default_frame_limit

/-- `(*gzip.Writer).Write(p)`; a writer with a sticky error takes nothing. -/
def GzipWriter.Write (g : GzipWriter) (p : List Byte) : GzipWriter × Nat × Option Err :=
  if g.failed then (g, 0, some Err.io)
  else ({ g with content := g.content ++ p }, p.length, none)

/-- The block source `r io.Reader` of `WriteBlock`: the bytes it delivers and
the error that ends it (`none` for a clean end of input). -/
structure BlockSrc where
  data : List Byte
  err : Option Err
  deriving DecidableEq, Repr

/-- `iocopy.Copy(w.frame, r)`: the frame, the count of bytes copied and the
error.  A source without bytes makes no `Write`. -/
def Copy (g : GzipWriter) (r : BlockSrc) : GzipWriter × Int × Option Err :=
  if r.data = [] then (g, 0, r.err)
  else
    match g.Write r.data with
    | (g, n, some e) => (g, (n : Int), some e)
    | (g, n, none) => (g, (n : Int), r.err)

/-- `w.frame.Close()` with the frame writing through `frameStat.Write`
(`s.frameSize += int64(n)`), and on success the two statements that follow
it in both callers: `w.frameTable = append(w.frameTable, w.stat.frameSize)`,
`w.frame = nil`. -/
def Writer.closeFrame (c : Codec) (w : Writer) (g : GzipWriter) : Writer × Option Err :=
  if g.failed then (w, some Err.io)
  else
    match w.base.Write (c.compress g.content) with
    | (base, n, some e) =>
      ({ w with base := base, stat := { w.stat with frameSize := w.stat.frameSize + n },
                frame := some { g with failed := true } }, some e)
    | (base, n, none) =>
      ({ w with base := base, stat := { w.stat with frameSize := w.stat.frameSize + n },
                frame := none,
                frameTable := w.frameTable ++ [w.stat.frameSize + n],
                frames := w.frames ++ [g.content] }, none)

/-- `Writer.WriteBlock(r)`. -/
def Writer.WriteBlock (c : Codec) (w : Writer) (r : BlockSrc) : Writer × Option Err :=
  if w.pool = false then (w, some Err.closed)
  else
    -- if w.frame != nil { ... }
    let step1 : Writer × Option Err :=
      match w.frame with
      | none => (w, none)
      | some g =>
        let g := (g.Write block_sep).1
        let w := { w with frame := some g,
                          stat := { w.stat with inputSize := w.stat.inputSize + block_sep.length } }
        if w.stat.inputSize ≥ w.stat.limit then Writer.closeFrame c w g
        else (w, none)
    match step1 with
    | (w, some e) => (w, some e)
    | (w, none) =>
      -- if w.frame == nil { ... }
      let w : Writer × GzipWriter :=
        match w.frame with
        | none =>
          ({ w with stat := { w.stat with inputSize := 0, frameSize := 0 } }, ⟨[], false⟩)
        | some g => (w, g)
      match Copy w.2 r with
      | (g, _, some e) => ({ w.1 with frame := some g }, some e)
      | (g, n, none) =>
        ({ w.1 with
            frame := some g,
            blockTable := w.1.blockTable ++ [⟨w.1.frameTable.length, w.1.stat.inputSize, n⟩],
            stat := { w.1.stat with inputSize := w.1.stat.inputSize + n } }, none)

/-- `Writer.Close()`. -/
def Writer.Close (c : Codec) (w : Writer) : Writer × Option Err :=
  if w.pool = false then (w, some Err.closed)
  else
    let step1 : Writer × Option Err :=
      match w.frame with
      | none => (w, none)
      | some g => Writer.closeFrame c w g
    match step1 with
    | (w, some e) => (w, some e)
    | (w, none) =>
      let w := { w with pool := false }
      let b := indexBlob w.frameTable w.blockTable
      match seekStat.write b w.base with
      | (base, e) => ({ w with base := base }, e)

/-- A block source that delivers `p` and ends cleanly
(`bytes.NewReader(p)`). -/
def BlockSrc.ofBytes (p : List Byte) : BlockSrc := ⟨p, none⟩

/-- `WriteBlock` for every source in turn, stopping at the first error, as
the tests call it. -/
def Writer.writeAll (c : Codec) : Writer → List BlockSrc → Writer × Option Err
  | w, [] => (w, none)
  | w, r :: rs =>
    match Writer.WriteBlock c w r with
    | (w, some e) => (w, some e)
    | (w, none) => Writer.writeAll c w rs

/-- The archive of the tests: `NewWriterLimit` on an empty sink that
accepts every byte, `WriteBlock(bytes.NewReader(p))` for every block, then
`Close`. -/
def archive (c : Codec) (limit : Int) (blocks : List (List Byte)) : Writer × Option Err :=
  match Writer.writeAll c (NewWriterLimit ⟨[], none⟩ limit) (blocks.map BlockSrc.ofBytes) with
  | (w, some e) => (w, some e)
  | (w, none) => Writer.Close c w

/-! ## reader.go: frames and blocks -/

/-- Go's conversion of an integer to `int64` (two's complement wrap). -/
def wrap64 (x : Int) : Int := (x + 2 ^ 63) % 2 ^ 64 - 2 ^ 63

/-- The loop `for i := 0; i < k; i++ { off += r.frameTable[i] }` over the
first `k` entries: an `int64` sum. -/
def frameOffset (frameTable : List Int) : Int :=
  frameTable.foldl (fun off v => wrap64 (off + v)) 0

/-- The `*gzip.Reader` that `gzip.NewReader` returns: the decompressed bytes
it has not delivered yet and the error that ends the stream. -/
structure GzipReader where
  rest : List Byte
  tail : Err
  deriving DecidableEq, Repr

/-- `gzip.NewReader(io.NewSectionReader(rat, off, n))`.  A section of
positive length at a negative offset cannot be read; every other section
holds the bytes `SectionReader rat off n`, which the codec opens. -/
def openSection (c : Codec) (rat : List Byte) (off n : Int) : Except Err GzipReader :=
  if off < 0 ∧ 0 < n then .error Err.io
  else
    match c.decompress (SectionReader rat off n) with
    | .error e => .error e
    | .ok (data, tail) => .ok ⟨data, tail⟩

/-- `(*gzip.Reader).Read(p)` with `len(p) = k`: the stream after the call,
the bytes delivered and the error.  At the end of the stream the call
delivers nothing and returns the closing error; otherwise it delivers
between 1 and `burst + 1` bytes (none for an empty `p`), and reports the
closing error with the last byte when the codec is `eager`. -/
def GzipReader.Read (c : Codec) (g : GzipReader) (k : Nat) :
    GzipReader × List Byte × Option Err :=
  if g.rest = [] then (g, [], some g.tail)
  else if k = 0 then (g, [], none)
  else
    let n := min k (min (c.burst + 1) g.rest.length)
    ({ g with rest := g.rest.drop n }, g.rest.take n,
      if c.eager = true ∧ g.rest.drop n = [] then some g.tail else none)

/-- `BlockReader` of reader.go, without `base`, which no function reads.
`frame = none` is a nil `frame`. -/
structure BlockReader where
  frame : Option GzipReader
  index : Int
  offset : Int
  remain : Int
  deriving DecidableEq, Repr

/-- `Reader.FrameCount()`. -/
def Reader.FrameCount (r : Reader) : Int := r.frameTable.length

/-- `Reader.BlockCount()`. -/
def Reader.BlockCount (r : Reader) : Int := r.blockTable.length

/-- `Reader.OpenFrame(index)`. -/
def Reader.OpenFrame (c : Codec) (r : Reader) (index : Int) : Except Err GzipReader :=
  if index < 0 ∨ index ≥ r.frameTable.length then .error Err.notExist
  else
    openSection c r.rat (frameOffset (r.frameTable.take index.toNat))
      (r.frameTable.getD index.toNat 0)

/-- `Reader.find(index)`: `.ok none` is the result `(nil, 0, 0)`; indexing
`r.frameTable` out of range panics. -/
def Reader.find (r : Reader) (index : Int) : Except Err (Option (blockEntry × Int × Int)) :=
  if index < 0 ∨ index ≥ r.blockTable.length then .ok none
  else
    match r.blockTable.get? index.toNat with
    | none => .ok none
    | some block =>
      if block.Frame < 0 ∧ block.Frame ≥ r.frameTable.length then .ok none
      else if block.Frame < 0 ∨ block.Frame ≥ r.frameTable.length then .error Err.abort
      else
        .ok (some (block, frameOffset (r.frameTable.take block.Frame.toNat),
          r.frameTable.getD block.Frame.toNat 0))

/-- `skip(r, n)` with `len(p) = plen` (256 at the call): the stream after
the call and the error.  Every round without error delivers at least one
byte, so with `n ≤ fuel` the `0` case is the loop exit. -/
def skip (c : Codec) : Nat → GzipReader → Nat → Int → GzipReader × Option Err
  | 0, g, _, _ => (g, none)
  | fuel + 1, g, plen, n =>
    if n > 0 then
      let plen := if n < (plen : Int) then n.toNat else plen
      match g.Read c plen with
      | (g, _, some e) => (g, some e)
      | (g, x, none) => skip c fuel g plen (n - (x.length : Int))
    else (g, none)

/-- What `OpenBlock(index, br)` returns, and what the `BlockReader` that
`br` points to holds after the call (`none` for a nil `br`). -/
structure OpenResult where
  ret : Except Err BlockReader
  arg : Option BlockReader
  deriving DecidableEq, Repr

/-- The part of `Reader.OpenBlock` after "Reuse reader if any": a new frame
reader, skipped to the block.  `arg` is the state of `*br` before it. -/
def Reader.openFresh (c : Codec) (r : Reader) (index : Int) (block : blockEntry)
    (frameOffset frameLength : Int) (arg : Option BlockReader) : OpenResult :=
  match openSection c r.rat frameOffset frameLength with
  | .error e => ⟨.error e, arg⟩
  | .ok frameReader =>
    let skipped : GzipReader × Option Err :=
      if block.Offset > 0 then skip c block.Offset.toNat frameReader 256 block.Offset
      else (frameReader, none)
    match skipped with
    | (_, some e) => ⟨.error e, arg⟩
    | (frameReader, none) =>
      let b : BlockReader := ⟨some frameReader, index, block.Offset, block.Length⟩
      match arg with
      | none => ⟨.ok b, none⟩
      | some _ => ⟨.ok b, some b⟩

/-- `Reader.OpenBlock(index, br)`. -/
def Reader.OpenBlock (c : Codec) (r : Reader) (index : Int) (br : Option BlockReader) :
    OpenResult :=
  match r.find index with
  | .error e => ⟨.error e, br⟩
  | .ok none => ⟨.error Err.notExist, br⟩
  | .ok (some (block, frameOffset, frameLength)) =>
    match br with
    | none => Reader.openFresh c r index block frameOffset frameLength none
    | some b =>
      match b.frame with
      | none => Reader.openFresh c r index block frameOffset frameLength (some b)
      | some g =>
        -- br.frame.Close(); br.frame = nil
        let closed : BlockReader := { b with frame := none }
        match r.find b.index with
        | .error e => ⟨.error e, br⟩
        | .ok none => Reader.openFresh c r index block frameOffset frameLength (some closed)
        | .ok (some (b', _, _)) =>
          if b'.Frame = block.Frame then
            let n := wrap64 (block.Offset - b.offset)
            if n ≥ 0 then
              let skipped : GzipReader × Option Err :=
                if n > 0 then skip c n.toNat g 256 n else (g, none)
              match skipped with
              | (_, some e) => ⟨.error e, some closed⟩
              | (g, none) =>
                let b : BlockReader := ⟨some g, index, block.Offset, block.Length⟩
                ⟨.ok b, some b⟩
            else Reader.openFresh c r index block frameOffset frameLength (some closed)
          else Reader.openFresh c r index block frameOffset frameLength (some closed)

/-- `BlockReader.Read(p)` with `len(p) = k`: the reader after the call, the
bytes delivered and the error.  `p[:r.remain]` panics for a negative
`remain`. -/
def BlockReader.Read (c : Codec) (r : BlockReader) (k : Nat) :
    BlockReader × List Byte × Option Err :=
  match r.frame with
  | none => (r, [], some Err.eof)
  | some g =>
    if r.remain = 0 then (r, [], some Err.eof)
    else if r.remain < (k : Int) ∧ r.remain < 0 then (r, [], some Err.abort)
    else
      let k := if r.remain < (k : Int) then r.remain.toNat else k
      match g.Read c k with
      | (g, p, err) =>
        ({ r with frame := some g, offset := r.offset + (p.length : Int),
                  remain := r.remain - (p.length : Int) }, p, err)

/-- `BlockReader.Close()`. -/
def BlockReader.Close (r : BlockReader) : BlockReader :=
  { r with frame := none }

/-- Reading a `BlockReader` to the end of its stream, as `io.ReadAll` does,
with a buffer of `k + 1` bytes at every call: the bytes read and the error
(`io.EOF` is the clean end and gives `none`).  The result is `none` only
when the `fuel` calls did not reach the end. -/
def BlockReader.ReadAll (c : Codec) (k : Nat) :
    Nat → BlockReader → Option (List Byte × Option Err)
  | 0, _ => none
  | fuel + 1, r =>
    match r.Read c (k + 1) with
    | (_, p, some Err.eof) => some (p, none)
    | (_, p, some e) => some (p, some e)
    | (r, p, none) =>
      match BlockReader.ReadAll c k fuel r with
      | none => none
      | some (q, e) => some (p ++ q, e)

/-! ## The chunking of `seekStat.write` -/

/-- The chunks the first loop of `seekStat.write` cuts `data` into, in the
order it cuts them (helper for the statements; `fuel` as in
`seekStat.build`). -/
def chunks : Nat → List Byte → List (List Byte)
  | 0, _ => []
  | fuel + 1, data =>
    if data.length > 0 then
      data.take empty_gzip_extra_max :: chunks fuel (data.drop empty_gzip_extra_max)
    else []

/-- The trailer segment for a chunk `c`, as the format describes it, with
the two length fields computed without wrap-around. -/
def trailerSegment (c : List Byte) : List Byte :=
  [0x1f, 0x8b, 0x08, 0x04, 0x00, 0x00, 0x00, 0x00, 0x00, 0xff]
    ++ [((c.length + 6) % 256).toUInt8, ((c.length + 6) / 256).toUInt8]
    ++ [0x00, 0x00]
    ++ [(c.length % 256).toUInt8, (c.length / 256).toUInt8]
    ++ c
    ++ [(c.length % 256).toUInt8, (c.length / 256).toUInt8]
    ++ [0x01, 0x00, 0x00, 0xff, 0xff, 0x00, 0x00, 0x00, 0x00, 0x00, 0x00, 0x00, 0x00]

/-! ## The backward scan over a written trailer -/

/-- The 16 bytes of a segment before its chunk. -/
def segmentHead (n : Nat) : List Byte :=
  empty_gzip_prefix ++ putUint16 ((n % 2 ^ 16 + 6) % 2 ^ 16) ++ empty_gzip_extra_sub
    ++ putUint16 (n % 2 ^ 16)

/-- The 15 bytes of a segment after its chunk. -/
def segmentTail (n : Nat) : List Byte :=
  putUint16 (n % 2 ^ 16) ++ empty_gzip_suffix

/-- The bytes of the trailer for the chunks `cs` (in logical order): the
segment of the last chunk first. -/
def trailerOf (cs : List (List Byte)) : List Byte :=
  ((cs.reverse).map segment).flatten

/-! ## The order of the trailer segments -/

/-- An IndexBlob of 65530 bytes: 65529 zero bytes, then one byte 1. -/
def twoChunkBlob : List Byte := List.replicate 65529 0 ++ [1]

/-! ## Varint round trip -/

/-- A value of Go's `int64`. -/
def isInt64 (v : Int) : Prop := -2 ^ 63 ≤ v ∧ v < 2 ^ 63

instance (v : Int) : Decidable (isInt64 v) := by unfold isInt64; infer_instance

/-- The zig-zag image of an `int64`, as a natural number. -/
def zigzag (v : Int) : Nat := if v < 0 then (-2 * v - 1).toNat else (2 * v).toNat

/-! ## Index round trip -/

/-- All three fields of a block entry are `int64` values (`Frame` is an
`int` of a 64-bit platform). -/
def blockEntry.isInt64 (e : blockEntry) : Prop :=
  Gzipx.isInt64 e.Frame ∧ Gzipx.isInt64 e.Offset ∧ Gzipx.isInt64 e.Length

instance (e : blockEntry) : Decidable e.isInt64 := by
  unfold blockEntry.isInt64; infer_instance

/-- The bytes `Writer.Close` appends for one block entry. -/
def blockBytes (e : blockEntry) : List Byte :=
  AppendVarint e.Frame ++ AppendVarint e.Offset ++ AppendVarint e.Length

/-! ## One call of `WriteBlock` -/

/-- The state a successful `WriteBlock(r)` leaves, for a writer without an
open frame. -/
def Writer.afterFirst (w : Writer) (p : List Byte) : Writer :=
  { w with stat := ⟨w.stat.limit, (p.length : Int), 0⟩,
           frame := some ⟨p, false⟩,
           blockTable := w.blockTable ++ [⟨w.frameTable.length, 0, p.length⟩] }

/-- The state a successful `WriteBlock(r)` leaves when the open frame `g`
stays below the limit. -/
def Writer.afterSame (w : Writer) (g : GzipWriter) (p : List Byte) : Writer :=
  { w with stat := ⟨w.stat.limit, w.stat.inputSize + 2 + (p.length : Int), w.stat.frameSize⟩,
           frame := some ⟨g.content ++ block_sep ++ p, false⟩,
           blockTable := w.blockTable ++ [⟨w.frameTable.length, w.stat.inputSize + 2, p.length⟩] }

/-- The state a successful `WriteBlock(r)` leaves when the separator fills
the open frame `g`: the frame is closed and the block starts the next one. -/
def Writer.afterNext (c : Codec) (w : Writer) (g : GzipWriter) (p : List Byte) : Writer :=
  { w with base := (w.base.Write (c.compress (g.content ++ block_sep))).1,
           stat := ⟨w.stat.limit, (p.length : Int), 0⟩,
           frame := some ⟨p, false⟩,
           frameTable := w.frameTable
             ++ [w.stat.frameSize + ((c.compress (g.content ++ block_sep)).length : Int)],
           blockTable := w.blockTable ++ [⟨(w.frameTable.length + 1 : Nat), 0, p.length⟩],
           frames := w.frames ++ [g.content ++ block_sep] }

/-! ## What a run of successful `WriteBlock` calls keeps -/

/-- The content of the open frame (empty without one). -/
def Writer.cur (w : Writer) : List Byte :=
  match w.frame with
  | none => []
  | some g => g.content

/-- The bytes a block entry points at in the frame contents `fs`. -/
def blockEntry.slice (e : blockEntry) (fs : List (List Byte)) : List Byte :=
  ((fs.getD e.Frame.toNat []).drop e.Offset.toNat).take e.Length.toNat

/-- The entry `e` records the block `b` inside the frame contents `fs`. -/
structure Located (fs : List (List Byte)) (e : blockEntry) (b : List Byte) : Prop where
  frame_nonneg : 0 ≤ e.Frame
  frame_lt : e.Frame.toNat < fs.length
  offset_nonneg : 0 ≤ e.Offset
  length_eq : e.Length = (b.length : Int)
  inside : e.Offset.toNat + b.length ≤ (fs.getD e.Frame.toNat []).length
  slice_eq : e.slice fs = b

/-- How consecutive block entries follow one another. -/
def nextBlock (e1 e2 : blockEntry) : Prop :=
  (e2.Frame = e1.Frame ∧ e2.Offset = e1.Offset + e1.Length + 2)
    ∨ (e2.Frame = e1.Frame + 1 ∧ e2.Offset = 0)

/-- The state of a `Writer` between two successful calls: open, and the
open frame (if any) holds no error, has sent nothing to the sink yet and has
taken `inputSize` bytes. -/
structure Writer.Good (w : Writer) : Prop where
  pool : w.pool = true
  frame : ∀ g, w.frame = some g →
    g.failed = false ∧ w.stat.frameSize = 0 ∧ w.stat.inputSize = (g.content.length : Int)

/-- What holds of a `Writer`, made on a sink that held `d0`, after the
blocks `bs` have been written without error. -/
structure Writer.Inv (c : Codec) (d0 : List Byte) (w : Writer) (bs : List (List Byte)) :
    Prop where
  good : w.Good
  opened : bs ≠ [] → w.frame ≠ none
  empty : bs = [] → w.frame = none ∧ w.frames = [] ∧ w.blockTable = []
  data : w.base.data = d0 ++ (w.frames.map c.compress).flatten
  table : w.frameTable = w.frames.map (fun f => ((c.compress f).length : Int))
  content : w.frames.flatten ++ w.cur = List.intercalate block_sep bs
  blocks : List.Forall₂ (Located (w.frames ++ [w.cur])) w.blockTable bs
  chain : List.Chain' nextBlock w.blockTable
  head : ∀ e ∈ w.blockTable.head?, e.Frame = 0 ∧ e.Offset = 0
  last : ∀ e ∈ w.blockTable.getLast?,
    e.Frame = (w.frames.length : Int) ∧ e.Offset + e.Length = (w.cur.length : Int)
  full : ∀ f ∈ w.frames, w.stat.limit ≤ (f.length : Int)
  count : ∀ g, w.frame = some g → w.frames.length < bs.length

/-! ## `Close` after a run of successful writes -/

/-- The trailer `Close` writes for the two tables. -/
def indexTrailer (frameTable : List Int) (blockTable : List blockEntry) : List Byte :=
  trailerOf (chunks (indexBlob frameTable blockTable).length (indexBlob frameTable blockTable))

/-- What holds of a `Writer`, made on a sink that held `d0`, after the
blocks `bs` have been written and `Close` has succeeded. -/
structure Writer.Closed (c : Codec) (d0 : List Byte) (w : Writer) (bs : List (List Byte)) :
    Prop where
  pool : w.pool = false
  frame : w.frame = none
  table : w.frameTable = w.frames.map (fun f => ((c.compress f).length : Int))
  content : w.frames.flatten = List.intercalate block_sep bs
  blocks : List.Forall₂ (Located w.frames) w.blockTable bs
  chain : List.Chain' nextBlock w.blockTable
  head : ∀ e ∈ w.blockTable.head?, e.Frame = 0 ∧ e.Offset = 0
  full : ∀ f ∈ w.frames.dropLast, w.stat.limit ≤ (f.length : Int)
  data : w.base.data = d0 ++ (w.frames.map c.compress).flatten
    ++ indexTrailer w.frameTable w.blockTable
  count : w.frames.length ≤ bs.length

/-- A toy codec for examples: a frame is its content between a 10-byte
header and an 8-byte trailer. -/
def toyCodec : Codec where
  compress x := [0x1f, 0x8b, 0x08, 0, 0, 0, 0, 0, 0, 0xff] ++ x ++ [1, 2, 3, 4, 5, 6, 7, 8]
  decompress s := if s.length < 18 then .error Err.io else .ok ((s.drop 10).take (s.length - 18), Err.eof)
  burst := 2
  eager := true

/-! ## The frame sections -/

/-- The compressed lengths of the frames `fs`, as the frame table holds
them. -/
def frameLengths (c : Codec) (fs : List (List Byte)) : List Int :=
  fs.map (fun f => ((c.compress f).length : Int))

/-- The `Reader` over the archive of `blocks` that holds the tables of the
`Writer`. -/
def archiveReader (c : Codec) (limit : Int) (blocks : List (List Byte)) : Reader :=
  ⟨(archive c limit blocks).1.base.data, (archive c limit blocks).1.frameTable,
    (archive c limit blocks).1.blockTable⟩

/-! ## `BlockReader.Read` -/

/-- A sequence of `Read` calls on a `BlockReader`, with buffers of the
lengths `ks`: the reader after the calls and what every call returned. -/
def BlockReader.reads (c : Codec) : BlockReader → List Nat → BlockReader × List (List Byte × Option Err)
  | r, [] => (r, [])
  | r, k :: ks =>
    match r.Read c k with
    | (r1, p, e) => ((BlockReader.reads c r1 ks).1, (p, e) :: (BlockReader.reads c r1 ks).2)

/-! ## `OpenBlock` with a reader to reuse -/

/-- When `skip(r, n)` succeeds on a stream with the bytes `rest` left: `n`
bytes stand before the end, or `n` bytes are all that is left and the codec
reports the end of the stream on the next call only. -/
def skipOk (c : Codec) (rest : List Byte) (n : Nat) : Prop :=
  n < rest.length ∨ (n = rest.length ∧ c.eager = false)

instance (c : Codec) (rest : List Byte) (n : Nat) : Decidable (skipOk c rest n) := by
  unfold skipOk; infer_instance

/-- The `BlockReader` `OpenBlock` returns for the block `e` at index `i` once
the frame is open on the content `content`: the stream stands at the
block's offset (at the start for an offset that is not positive). -/
def openedAt (content : List Byte) (tail : Err) (i : Int) (e : blockEntry) : BlockReader :=
  ⟨some ⟨content.drop e.Offset.toNat, tail⟩, i, e.Offset, e.Length⟩

/-- The states a `BlockReader` obtained from the `Reader` `r` can be in:
returned by `OpenBlock` with or without a reader to reuse, then read from
and closed in any order.  (After a failed `OpenBlock(i, br)` the reader `br`
is as before the call or as after `Close`.) -/
inductive Reader.Reaches (c : Codec) (r : Reader) : BlockReader → Prop
  | opened (i : Int) (b : BlockReader) :
      (r.OpenBlock c i none).ret = .ok b → Reader.Reaches c r b
  | reopened (i : Int) (b0 b : BlockReader) :
      Reader.Reaches c r b0 → (r.OpenBlock c i (some b0)).ret = .ok b → Reader.Reaches c r b
  | read (b : BlockReader) (k : Nat) :
      Reader.Reaches c r b → Reader.Reaches c r (b.Read c k).1
  | closed (b : BlockReader) :
      Reader.Reaches c r b → Reader.Reaches c r b.Close

/-- The frame of the reader `b` is the stream of the frame of block
`b.index`, at the decompressed position `b.offset`. -/
def Reader.Tracks (c : Codec) (r : Reader) (b : BlockReader) : Prop :=
  ∀ g, b.frame = some g →
    ∃ e off len content, r.find b.index = .ok (some (e, off, len))
      ∧ openSection c r.rat off len = .ok ⟨content, g.tail⟩
      ∧ 0 ≤ b.offset ∧ b.offset.toNat ≤ content.length
      ∧ g.rest = content.drop b.offset.toNat

/-- A `Reader` whose block offsets are not negative and whose frames
decompress to fewer than 2^63 bytes. -/
structure Reader.Plain (c : Codec) (r : Reader) : Prop where
  offsets : ∀ e ∈ r.blockTable, 0 ≤ e.Offset ∧ e.Offset < 2 ^ 63
  short : ∀ off len g, openSection c r.rat off len = .ok g → (g.rest.length : Int) < 2 ^ 63

/-- A file whose index records a block at a negative offset: one frame
with the content "abcdefgh" under the toy codec, then the trailer for the
frame table [26] and the block table [(0, -2, 4), (0, 0, 2)]. -/
def negativeOffsetFile : List Byte :=
  toyCodec.compress [97, 98, 99, 100, 101, 102, 103, 104]
    ++ (seekStat.write (indexBlob [26] [⟨0, -2, 4⟩, ⟨0, 0, 2⟩]) ⟨[], none⟩).1.data

/-- The `Reader` that `NewReader` builds on `negativeOffsetFile`. -/
def negativeOffsetReader : Reader :=
  ⟨negativeOffsetFile, [26], [⟨0, -2, 4⟩, ⟨0, 0, 2⟩]⟩

/-- A file whose second frame is not a gzip stream: the frame "ab" under
the toy codec, five stray bytes, then the trailer for the frame table
[20, 5] and the block table [(0, 0, 2), (1, 0, 1)]. -/
def brokenFrameFile : List Byte :=
  toyCodec.compress [97, 98] ++ [1, 2, 3, 4, 5]
    ++ (seekStat.write (indexBlob [20, 5] [⟨0, 0, 2⟩, ⟨1, 0, 1⟩]) ⟨[], none⟩).1.data

/-- The `Reader` that `NewReader` builds on `brokenFrameFile`. -/
def brokenFrameReader : Reader :=
  ⟨brokenFrameFile, [20, 5], [⟨0, 0, 2⟩, ⟨1, 0, 1⟩]⟩

/-- A small archive for examples: the blocks "abc", "de" and "f" in one
frame under the toy codec. -/
def smallReader : Reader :=
  ⟨toyCodec.compress [97, 98, 99, 10, 10, 100, 101, 10, 10, 102], [28],
    [⟨0, 0, 3⟩, ⟨0, 5, 2⟩, ⟨0, 9, 1⟩]⟩

/-! ## The round trip -/

/-- A toy codec with the trailer of a gzip member: a frame is its content
between a 10-byte header and 8 bytes that end with ISIZE. -/
def isizeCodec : Codec where
  compress x := [0x1f, 0x8b, 0x08, 0, 0, 0, 0, 0, 0, 0xff] ++ x ++ [0, 0, 0, 0]
    ++ putUint32 (x.length % 2 ^ 32)
  decompress s := if s.length < 18 then .error Err.io else .ok ((s.drop 10).take (s.length - 18), Err.eof)
  burst := 2
  eager := true

/-! ## Calls on a closed `Writer` -/

/-- One call on a `Writer`: `WriteBlock(r)` or `Close()`. -/
inductive Call where
  | WriteBlock (r : BlockSrc)
  | Close
  deriving DecidableEq, Repr

/-- The call `k` on the writer `w`: the writer after it and the error it
returns. -/
def Writer.call (c : Codec) (w : Writer) : Call → Writer × Option Err
  | Call.WriteBlock r => Writer.WriteBlock c w r
  | Call.Close => Writer.Close c w

/-- The calls `ks` one after the other, whatever each returns: the writer
after the last and the error of every call. -/
def Writer.run (c : Codec) : Writer → List Call → Writer × List (Option Err)
  | w, [] => (w, [])
  | w, k :: ks =>
    ((Writer.run c (w.call c k).1 ks).1, (w.call c k).2 :: (Writer.run c (w.call c k).1 ks).2)

/-! ## `Close` on a frame that cannot be closed -/

/-- A `Writer` with an open frame on a sink that has room for 12 more
bytes, enough for the header of a frame and not for a frame: the frame
holds the block "a" and cannot be closed. -/
def fullSinkWriter : Writer :=
  (Writer.WriteBlock toyCodec (NewWriterLimit ⟨[], some 12⟩ 100) (BlockSrc.ofBytes [97])).1

/-! ## A segment without its prefix -/

/-- A source of 33 bytes: 16 zero bytes where a segment head would stand,
the chunk 00 00 (an index without frames and blocks), its length 02 00 and
the 13-byte suffix. -/
def strayPrefixFile : List Byte :=
  List.replicate 16 0 ++ [0x00, 0x00] ++ [0x02, 0x00] ++ empty_gzip_suffix

/-! ## The extra-field length check -/

/-- A chunk of 65530 bytes that starts with the index of an archive
without frames and blocks (00 00). -/
def wrappedChunk : List Byte := [0x00, 0x00] ++ List.replicate 65528 0

/-- A source of 65561 bytes, one segment: the prefix, the extra-field
length 0 (00 00), the sub-field identifier, the chunk length 65530 (FA FF),
the chunk, the chunk length again and the suffix. -/
def wrappedLengthFile : List Byte :=
  empty_gzip_prefix ++ [0x00, 0x00] ++ empty_gzip_extra_sub ++ [0xfa, 0xff] ++ wrappedChunk
    ++ [0xfa, 0xff] ++ empty_gzip_suffix

/-! ## A truncated index -/

/-- A source of 41 bytes, one segment around an IndexBlob of 10 bytes: the
varint of the frame count 2^62 and nothing after it. -/
def hugeCountFile : List Byte :=
  segment [0x80, 0x80, 0x80, 0x80, 0x80, 0x80, 0x80, 0x80, 0x80, 0x01]

/-! ## A negative count -/

/-- A source of 32 bytes, one segment around the IndexBlob 01: the varint of
the frame count -1. -/
def negativeFrameCountFile : List Byte := segment [0x01]

/-- A source of 33 bytes, one segment around the IndexBlob 00 01: no frame,
then the varint of the block count -1. -/
def negativeBlockCountFile : List Byte := segment [0x00, 0x01]

/-! ## A block entry outside the frame table -/

/-- A source of 39 bytes, one segment around the index of an archive
without frames whose block table holds the entries (0, 0, 0) and
(-1, 0, 0). -/
def strayFrameFile : List Byte := segment (indexBlob [] [⟨0, 0, 0⟩, ⟨-1, 0, 0⟩])

/-- The `Reader` that `NewReader` builds on `strayFrameFile`. -/
def strayFrameReader : Reader := ⟨strayFrameFile, [], [⟨0, 0, 0⟩, ⟨-1, 0, 0⟩]⟩

/-! ## Frame indices after any sequence of calls -/

/-- What holds of the tables of an open `Writer` after any calls of
`WriteBlock`, failed or not. -/
structure Writer.Indexed (w : Writer) : Prop where
  pool : w.pool = true
  fresh : w.frame = none → w.blockTable = []
  bound : ∀ e ∈ w.blockTable, 0 ≤ e.Frame ∧ e.Frame ≤ (w.frameTable.length : Int)
  sorted : List.Chain' (fun e1 e2 : blockEntry => e1.Frame ≤ e2.Frame) w.blockTable

/-- What holds of the block table as long as no call of `WriteBlock` has
failed. -/
structure Writer.Stepped (w : Writer) : Prop where
  last : ∀ e ∈ w.blockTable.getLast?, e.Frame = (w.frameTable.length : Int)
  steps : List.Chain' (fun e1 e2 : blockEntry => e2.Frame ≤ e1.Frame + 1) w.blockTable

/-- Three calls of `WriteBlock` on a writer with limit 1: the block "a", a
source that fails before it delivers a byte, and the block "b". -/
def failedCallRun : List Call :=
  [Call.WriteBlock (BlockSrc.ofBytes [97]), Call.WriteBlock ⟨[], some Err.io⟩,
    Call.WriteBlock (BlockSrc.ofBytes [98])]

/-! # Theorems -/

/-! ## Facts about the 16-bit fields -/

theorem getUint16_eq (b0 b1 : Byte) : getUint16 b0 b1 = b0.toNat + 256 * b1.toNat := by
  have h0 : b0.toNat < 2 ^ 8 := b0.toNat_lt
  unfold getUint16
  rw [Nat.shiftLeft_eq, Nat.lor_comm, Nat.mul_comm, show (256 : Nat) = 2 ^ 8 from rfl,
    ← Nat.mul_add_lt_is_or h0]
  omega

theorem toNat_toUInt8 (n : Nat) : (n.toUInt8).toNat = n % 256 := by
  simp [Nat.toUInt8, UInt8.ofNat, UInt8.toNat]

theorem getUint16_putUint16 (v : Nat) (h : v < 2 ^ 16) :
    getUint16 (v % 256).toUInt8 (v / 256 % 256).toUInt8 = v := by
  rw [getUint16_eq, toNat_toUInt8, toNat_toUInt8]
  omega

theorem length_putUint16 (v : Nat) : (putUint16 v).length = 2 := rfl

/-! ## The chunking of `seekStat.write` -/

theorem build_eq_chunks (fuel : Nat) (data : List Byte) (buf : List (List Byte)) :
    seekStat.build fuel data buf = buf ++ (chunks fuel data).map segment := by
  induction fuel generalizing data buf with
  | zero => simp [seekStat.build, chunks]
  | succ k ih =>
    unfold seekStat.build chunks
    by_cases h : data.length > 0
    · have e1 : List.take (min data.length empty_gzip_extra_max) data
          = List.take empty_gzip_extra_max data := by
        rcases Nat.le_total data.length empty_gzip_extra_max with hle | hle
        · rw [Nat.min_eq_left hle, List.take_of_length_le hle, List.take_of_length_le (le_refl _)]
        · rw [Nat.min_eq_right hle]
      have e2 : List.drop (List.take empty_gzip_extra_max data).length data
          = List.drop empty_gzip_extra_max data := by
        rw [List.length_take]
        rcases Nat.le_total data.length empty_gzip_extra_max with hle | hle
        · rw [Nat.min_eq_right hle, List.drop_of_length_le hle, List.drop_of_length_le (le_refl _)]
        · rw [Nat.min_eq_left hle]
      simp only [h, if_true, e1, e2, ih, List.map_cons, List.append_assoc, List.singleton_append]
    · simp [h]

theorem chunks_flatten (fuel : Nat) (data : List Byte) (h : data.length ≤ fuel) :
    (chunks fuel data).flatten = data := by
  induction fuel generalizing data with
  | zero =>
    have : data = [] := List.length_eq_zero.mp (Nat.le_zero.mp h)
    simp [chunks, this]
  | succ k ih =>
    unfold chunks
    by_cases h0 : data.length > 0
    · have hk : (data.drop empty_gzip_extra_max).length ≤ k := by
        rw [List.length_drop]; simp only [empty_gzip_extra_max]; omega
      simp only [h0, if_true, List.flatten_cons, ih _ hk, List.take_append_drop]
    · have : data = [] := List.length_eq_zero.mp (by omega)
      simp [this]

theorem chunks_bounds (fuel : Nat) (data : List Byte) :
    ∀ c ∈ chunks fuel data, 0 < c.length ∧ c.length ≤ empty_gzip_extra_max := by
  induction fuel generalizing data with
  | zero => simp [chunks]
  | succ k ih =>
    unfold chunks
    by_cases h0 : data.length > 0
    · simp only [h0, if_true, List.mem_cons]
      rintro c (rfl | hc)
      · rw [List.length_take]; simp only [empty_gzip_extra_max]; omega
      · exact ih _ c hc
    · simp [h0]

theorem chunks_full (fuel : Nat) (data : List Byte) :
    ∀ c ∈ (chunks fuel data).dropLast, c.length = empty_gzip_extra_max := by
  induction fuel generalizing data with
  | zero => simp [chunks]
  | succ k ih =>
    unfold chunks
    by_cases h0 : data.length > 0
    · simp only [h0, if_true]
      cases hrest : chunks k (data.drop empty_gzip_extra_max) with
      | nil => simp
      | cons c1 cs =>
        rw [List.dropLast_cons₂]
        intro c hc
        rcases List.mem_cons.mp hc with rfl | hc
        · have hb := chunks_bounds k (data.drop empty_gzip_extra_max) c1 (by simp [hrest])
          have hd : 0 < (data.drop empty_gzip_extra_max).length := by
            cases k with
            | zero => simp [chunks] at hrest
            | succ j =>
              unfold chunks at hrest
              by_cases hz : (data.drop empty_gzip_extra_max).length > 0
              · exact hz
              · rw [if_neg hz] at hrest
                cases hrest
          rw [List.length_drop] at hd
          rw [List.length_take]; omega
        · have := ih (data.drop empty_gzip_extra_max)
          rw [hrest] at this
          exact this c hc
    · simp [h0]

theorem segment_eq_trailerSegment (c : List Byte) (h : c.length ≤ empty_gzip_extra_max) :
    segment c = trailerSegment c := by
  simp only [empty_gzip_extra_max] at h
  have h1 : c.length % 2 ^ 16 = c.length := Nat.mod_eq_of_lt (by omega)
  have h2 : (c.length + 6) % 2 ^ 16 = c.length + 6 := Nat.mod_eq_of_lt (by omega)
  have h3 : (c.length + 6) / 256 % 256 = (c.length + 6) / 256 := Nat.mod_eq_of_lt (by omega)
  have h4 : c.length / 256 % 256 = c.length / 256 := Nat.mod_eq_of_lt (by omega)
  simp only [segment, trailerSegment, putUint16, h1, h2, h3, h4, empty_gzip_prefix,
    empty_gzip_extra_sub, empty_gzip_suffix]

theorem length_trailerSegment (c : List Byte) : (trailerSegment c).length = c.length + 31 := by
  simp only [trailerSegment, List.length_append, List.length_cons, List.length_nil]
  omega

/-- C9: `seekStat.write` cuts the IndexBlob into consecutive non-empty chunks
of at most 65529 bytes, every chunk but the last exactly 65529 bytes long,
and the buffer it builds for a chunk `c` of `n` bytes is the segment
prefix, le16(n+6), 00 00, le16(n), c, le16(n), suffix: `n + 31` bytes, with
an extra-field length `n + 6` of at most 65535 that decodes back to `n + 6`. -/
theorem seekStat_write_segments (b : List Byte) :
    ∃ cs : List (List Byte),
      cs.flatten = b
      ∧ (∀ c ∈ cs, 0 < c.length ∧ c.length ≤ 65529)
      ∧ (∀ c ∈ cs.dropLast, c.length = 65529)
      ∧ seekStat.build b.length b [] = cs.map trailerSegment
      ∧ (∀ c ∈ cs, (trailerSegment c).length = c.length + 31
          ∧ c.length + 6 ≤ 65535
          ∧ getUint16 (((c.length + 6) % 256).toUInt8) (((c.length + 6) / 256).toUInt8)
              = c.length + 6) := by
  refine ⟨chunks b.length b, chunks_flatten _ _ (le_refl _), chunks_bounds _ _,
    chunks_full _ _, ?_, ?_⟩
  · rw [build_eq_chunks, List.nil_append]
    apply List.map_congr_left
    intro c hc
    exact segment_eq_trailerSegment c (chunks_bounds _ _ c hc).2
  · intro c hc
    have hb := (chunks_bounds _ _ c hc).2
    simp only [empty_gzip_extra_max] at hb
    refine ⟨length_trailerSegment c, by omega, ?_⟩
    have h3 : (c.length + 6) / 256 = (c.length + 6) / 256 % 256 :=
      (Nat.mod_eq_of_lt (by omega)).symm
    rw [h3]
    exact getUint16_putUint16 _ (by omega)

/-! ## The backward scan over a written trailer -/

theorem take_drop_mid (X Y Z : List Byte) :
    ((X ++ Y ++ Z).drop X.length).take Y.length = Y := by
  rw [List.append_assoc, List.drop_left, List.take_left]

theorem ReadAt_mid (X Y Z : List Byte) (k : Nat) (off : Int)
    (hk : k = Y.length) (hoff : off = (X.length : Int)) :
    ReadAt (X ++ Y ++ Z) k off = .ok Y := by
  subst hk hoff
  unfold ReadAt
  have h0 : ¬ ((X.length : Int) < 0) := by omega
  have h1 : ((X.length : Int)).toNat + Y.length ≤ (X ++ Y ++ Z).length := by
    simp only [Int.toNat_ofNat, List.length_append]; omega
  rw [if_neg h0, if_pos h1, Int.toNat_ofNat, take_drop_mid]

theorem SectionReader_mid (X Y Z : List Byte) (off n : Int)
    (hoff : off = (X.length : Int)) (hn : n = (Y.length : Int)) :
    SectionReader (X ++ Y ++ Z) off n = Y := by
  subst hoff hn
  unfold SectionReader
  rw [Int.toNat_ofNat, Int.toNat_ofNat, take_drop_mid]

theorem segment_split (c : List Byte) :
    segment c = segmentHead c.length ++ c ++ segmentTail c.length := by
  simp only [segment, segmentHead, segmentTail, List.append_assoc]

theorem length_segmentHead (n : Nat) : (segmentHead n).length = 16 := rfl

theorem length_segmentTail (n : Nat) : (segmentTail n).length = 15 := rfl

theorem length_segment (c : List Byte) : (segment c).length = c.length + 31 := by
  rw [segment_split, List.length_append, List.length_append, length_segmentHead,
    length_segmentTail]
  omega

/-- One round of the scan over a segment laid out as `seekStat.write` lays
it out, around a chunk of any length that fits the 16-bit field: the chunk
is appended to the buffer and the offset moves to the start of the segment.
The extra-field length is compared with the chunk length + 6 reduced to 16
bits. -/
theorem scan_segment_any (fuel : Nat) (A c R : List Byte) (acc : List (List Byte))
    (h1 : c.length < 2 ^ 16) :
    Reader.scan (fuel + 1) (A ++ segment c ++ R) ((A.length + (segment c).length : Nat) : Int) acc
      = Reader.scan fuel (A ++ segment c ++ R) (A.length : Int) (acc ++ [c]) := by
  have hn : c.length % 2 ^ 16 = c.length := Nat.mod_eq_of_lt h1
  -- the three reads
  have r1 : ReadAt (A ++ segment c ++ R) (empty_gzip_suffix_len + 2)
      (((A.length + (segment c).length : Nat) : Int) - ((empty_gzip_suffix_len + 2 : Nat) : Int))
      = .ok (segmentTail c.length) := by
    have e : A ++ segment c ++ R
        = (A ++ segmentHead c.length ++ c) ++ segmentTail c.length ++ R := by
      rw [segment_split]; simp only [List.append_assoc]
    rw [e]
    apply ReadAt_mid
    · rfl
    · rw [length_segment]
      simp only [List.length_append, length_segmentHead, empty_gzip_suffix_len,
        empty_gzip_suffix, List.length_cons, List.length_nil]
      push_cast; omega
  have hsub : getUint16 ((segmentTail c.length).getD 0 0) ((segmentTail c.length).getD 1 0)
      = c.length := by
    have : getUint16 ((segmentTail c.length).getD 0 0) ((segmentTail c.length).getD 1 0)
        = getUint16 ((c.length % 2 ^ 16) % 256).toUInt8 ((c.length % 2 ^ 16) / 256 % 256).toUInt8 := rfl
    rw [this, hn]
    exact getUint16_putUint16 _ (by omega)
  have r2 : SectionReader (A ++ segment c ++ R)
      (((A.length + (segment c).length : Nat) : Int) - ((empty_gzip_suffix_len + 2 : Nat) : Int)
        - (c.length : Int)) (c.length : Int) = c := by
    have e : A ++ segment c ++ R
        = (A ++ segmentHead c.length) ++ c ++ (segmentTail c.length ++ R) := by
      rw [segment_split]; simp only [List.append_assoc]
    rw [e]
    apply SectionReader_mid
    · rw [length_segment]
      simp only [List.length_append, length_segmentHead, empty_gzip_suffix_len,
        empty_gzip_suffix, List.length_cons, List.length_nil]
      push_cast; omega
    · rfl
  have hoff3 : ((A.length + (segment c).length : Nat) : Int)
      - ((empty_gzip_suffix_len + 2 : Nat) : Int) - (c.length : Int)
      - ((empty_gzip_prefix_len + 6 : Nat) : Int) = (A.length : Int) := by
    rw [length_segment]
    simp only [empty_gzip_suffix_len, empty_gzip_suffix, empty_gzip_prefix_len,
      empty_gzip_prefix, List.length_cons, List.length_nil]
    push_cast; omega
  have r3 : ReadAt (A ++ segment c ++ R) (empty_gzip_prefix_len + 6) (A.length : Int)
      = .ok (segmentHead c.length) := by
    have e : A ++ segment c ++ R
        = A ++ segmentHead c.length ++ (c ++ segmentTail c.length ++ R) := by
      rw [segment_split]; simp only [List.append_assoc]
    rw [e]
    exact ReadAt_mid _ _ _ _ _ rfl rfl
  have hextra : getUint16 ((segmentHead c.length).getD empty_gzip_prefix_len 0)
      ((segmentHead c.length).getD (empty_gzip_prefix_len + 1) 0)
      = (c.length + 6) % 2 ^ 16 := by
    have : getUint16 ((segmentHead c.length).getD empty_gzip_prefix_len 0)
        ((segmentHead c.length).getD (empty_gzip_prefix_len + 1) 0)
        = getUint16 (((c.length % 2 ^ 16 + 6) % 2 ^ 16) % 256).toUInt8
            (((c.length % 2 ^ 16 + 6) % 2 ^ 16) / 256 % 256).toUInt8 := rfl
    rw [this, hn]
    exact getUint16_putUint16 _ (Nat.mod_lt _ (by norm_num))
  have hgt : ((A.length + (segment c).length : Nat) : Int) > empty_gzip_size_min := by
    rw [length_segment]
    simp only [empty_gzip_size_min, empty_gzip_suffix_len, empty_gzip_suffix,
      empty_gzip_prefix_len, empty_gzip_prefix, List.length_cons, List.length_nil]
    push_cast; omega
  have hsfx : (List.drop 2 (segmentTail c.length)).take empty_gzip_suffix_len
      = empty_gzip_suffix := rfl
  have hpfx : (segmentHead c.length).take empty_gzip_prefix_len = empty_gzip_prefix := rfl
  have hoff2 : ¬ (((A.length + (segment c).length : Nat) : Int)
      - ((empty_gzip_suffix_len + 2 : Nat) : Int) - (c.length : Int) < 0) := by
    rw [length_segment]
    simp only [empty_gzip_suffix_len, empty_gzip_suffix, List.length_cons, List.length_nil]
    push_cast; omega
  have hoff3' : ¬ ((A.length : Int) < 0) := by omega
  rw [Reader.scan]
  simp only [hgt, if_true, r1, hsfx, ne_eq, not_true_eq_false, if_false, hsub, hoff2, r2,
    hoff3, hoff3', r3, hpfx, hextra]

/-- One round of the scan over a segment the writer built: the chunk is
appended to the buffer and the offset moves to the start of the segment. -/
theorem scan_segment (fuel : Nat) (A c R : List Byte) (acc : List (List Byte))
    (h0 : 0 < c.length) (h1 : c.length ≤ empty_gzip_extra_max) :
    Reader.scan (fuel + 1) (A ++ segment c ++ R) ((A.length + (segment c).length : Nat) : Int) acc
      = Reader.scan fuel (A ++ segment c ++ R) (A.length : Int) (acc ++ [c]) := by
  unfold empty_gzip_extra_max at h1
  exact scan_segment_any fuel A c R acc (by omega)

theorem trailerOf_cons (c : List Byte) (cs : List (List Byte)) :
    trailerOf (c :: cs) = trailerOf cs ++ segment c := by
  simp [trailerOf]

theorem emit_accepting (bufs : List (List Byte)) (d : List Byte) :
    seekStat.emit bufs ⟨d, none⟩ = (⟨d ++ bufs.flatten, none⟩, none) := by
  induction bufs generalizing d with
  | nil => simp [seekStat.emit]
  | cons b rest ih =>
    simp only [seekStat.emit, Sink.Write, ih, List.flatten_cons, List.append_assoc]

theorem write_accepting (b d : List Byte) :
    seekStat.write b ⟨d, none⟩ = (⟨d ++ trailerOf (chunks b.length b), none⟩, none) := by
  simp only [seekStat.write, build_eq_chunks, List.nil_append, emit_accepting, trailerOf,
    List.map_reverse]

/-- The scan stops at the bytes `F` that precede the trailer. -/
theorem scan_stop (fuel : Nat) (F R : List Byte) (acc : List (List Byte))
    (hF : F.length ≤ 23 ∨ ¬ (empty_gzip_suffix <:+ F)) :
    Reader.scan fuel (F ++ R) (F.length : Int) acc = .ok acc := by
  cases fuel with
  | zero => rfl
  | succ k =>
    rw [Reader.scan]
    by_cases hgt : (F.length : Int) > empty_gzip_size_min
    · have h23 : 23 < F.length := by
        simp only [empty_gzip_size_min, empty_gzip_suffix_len, empty_gzip_suffix,
          empty_gzip_prefix_len, empty_gzip_prefix, List.length_cons, List.length_nil] at hgt
        omega
      have hns : ¬ (empty_gzip_suffix <:+ F) := by
        rcases hF with h | h
        · omega
        · exact h
      have e : F ++ R = F.take (F.length - 15) ++ F.drop (F.length - 15) ++ R := by
        rw [List.take_append_drop]
      have r1 : ReadAt (F ++ R) (empty_gzip_suffix_len + 2)
          ((F.length : Int) - ((empty_gzip_suffix_len + 2 : Nat) : Int))
          = .ok (F.drop (F.length - 15)) := by
        rw [e]
        apply ReadAt_mid
        · rw [List.length_drop]
          simp only [empty_gzip_suffix_len, empty_gzip_suffix, List.length_cons,
            List.length_nil]
          omega
        · rw [List.length_take]
          simp only [empty_gzip_suffix_len, empty_gzip_suffix, List.length_cons,
            List.length_nil]
          push_cast; omega
      have hsfx : (List.drop 2 (F.drop (F.length - 15))).take empty_gzip_suffix_len
          ≠ empty_gzip_suffix := by
        intro h
        apply hns
        refine ⟨F.take (F.length - 13), ?_⟩
        rw [List.drop_drop] at h
        have e2 : F.length - 15 + 2 = F.length - 13 := by omega
        rw [e2, List.take_of_length_le] at h
        · rw [← h, List.take_append_drop]
        · rw [List.length_drop]
          simp only [empty_gzip_suffix_len, empty_gzip_suffix, List.length_cons,
            List.length_nil]
          omega
      simp only [hgt, if_true, r1, hsfx, ne_eq, not_false_eq_true]
    · rw [if_neg hgt]

/-- The scan over the trailer of the chunks `cs`, standing after `F`,
appends the chunks to the buffer in logical order. -/
theorem scan_trailerOf (F : List Byte) (hF : F.length ≤ 23 ∨ ¬ (empty_gzip_suffix <:+ F))
    (cs : List (List Byte))
    (hcs : ∀ c ∈ cs, 0 < c.length ∧ c.length ≤ empty_gzip_extra_max) :
    ∀ (R : List Byte) (acc : List (List Byte)) (fuel : Nat),
      F.length + (trailerOf cs).length ≤ fuel →
      Reader.scan fuel (F ++ trailerOf cs ++ R) ((F.length + (trailerOf cs).length : Nat) : Int)
        acc = .ok (acc ++ cs) := by
  induction cs with
  | nil =>
    intro R acc fuel _
    have : trailerOf [] = [] := rfl
    rw [this, List.append_nil, List.length_nil, Nat.add_zero, List.append_nil]
    exact scan_stop fuel F R acc hF
  | cons c cs ih =>
    intro R acc fuel hfuel
    have hc := hcs c (List.mem_cons_self _ _)
    rw [trailerOf_cons] at hfuel ⊢
    rw [List.length_append, length_segment] at hfuel
    obtain ⟨k, rfl⟩ : ∃ k, fuel = k + 1 := ⟨fuel - 1, by omega⟩
    have e : F ++ (trailerOf cs ++ segment c) ++ R = (F ++ trailerOf cs) ++ segment c ++ R := by
      simp only [List.append_assoc]
    have eo : F.length + (trailerOf cs ++ segment c).length
        = (F ++ trailerOf cs).length + (segment c).length := by
      simp only [List.length_append]; omega
    rw [e, eo, scan_segment k _ c R acc hc.1 hc.2]
    have e2 : (F ++ trailerOf cs) ++ segment c ++ R = F ++ trailerOf cs ++ (segment c ++ R) := by
      simp only [List.append_assoc]
    rw [e2, List.length_append,
      ih (fun x hx => hcs x (List.mem_cons_of_mem _ hx)) (segment c ++ R) (acc ++ [c]) k
        (by omega)]
    simp

/-- The backward scan over what `seekStat.write` emits after `F`. -/
theorem readSeekTable_written (b F : List Byte) (hb : b ≠ [])
    (hF : F.length ≤ 23 ∨ ¬ (empty_gzip_suffix <:+ F)) :
    (seekStat.write b ⟨F, none⟩).2 = none
    ∧ ¬ (((seekStat.write b ⟨F, none⟩).1.data.length : Int) < empty_gzip_size_min)
    ∧ Reader.readSeekTable (seekStat.write b ⟨F, none⟩).1.data
        ((seekStat.write b ⟨F, none⟩).1.data.length : Int) = .ok b := by
  rw [write_accepting]
  refine ⟨rfl, ?_, ?_⟩
  · obtain ⟨k, hk⟩ : ∃ k, b.length = k + 1 :=
      ⟨b.length - 1, by have := List.length_pos.mpr hb; omega⟩
    have hc : chunks (k + 1) b = b.take empty_gzip_extra_max
        :: chunks k (b.drop empty_gzip_extra_max) := by
      rw [chunks, if_pos (by omega)]
    simp only [hk, hc, trailerOf_cons, List.length_append, length_segment, empty_gzip_size_min,
      empty_gzip_suffix_len, empty_gzip_suffix, empty_gzip_prefix_len, empty_gzip_prefix,
      List.length_cons, List.length_nil]
    push_cast; omega
  · unfold Reader.readSeekTable
    have hlen : (F ++ trailerOf (chunks b.length b)).length
        = F.length + (trailerOf (chunks b.length b)).length := List.length_append _ _
    have h := scan_trailerOf F hF (chunks b.length b) (chunks_bounds _ _) [] []
      (F.length + (trailerOf (chunks b.length b)).length) (le_refl _)
    rw [List.append_nil, List.nil_append] at h
    simp only [hlen, Int.toNat_ofNat, h, chunks_flatten b.length b (le_refl _)]

/-- C3: for every non-empty IndexBlob `b` and every byte string `F` that is
at most 23 bytes long or does not end with the 13-byte suffix pattern, the
source `F ++ (what seekStat.write emits for b)` passes the size check of
`Reader.init` and its backward scan leaves exactly `b` in the buffer. -/
theorem readSeekTable_write (b F : List Byte) (hb : b ≠ [])
    (hF : F.length ≤ 23 ∨ ¬ (empty_gzip_suffix <:+ F)) :
    (seekStat.write b ⟨F, none⟩).2 = none
    ∧ ¬ (((seekStat.write b ⟨F, none⟩).1.data.length : Int) < empty_gzip_size_min)
    ∧ Reader.readSeekTable (seekStat.write b ⟨F, none⟩).1.data
        ((seekStat.write b ⟨F, none⟩).1.data.length : Int) = .ok b :=
  readSeekTable_written b F hb hF

theorem readSeekTable_write_witness :
    (seekStat.write [1, 2, 3] ⟨[9, 9], none⟩).2 = none
    ∧ ¬ (((seekStat.write [1, 2, 3] ⟨[9, 9], none⟩).1.data.length : Int) < empty_gzip_size_min)
    ∧ Reader.readSeekTable (seekStat.write [1, 2, 3] ⟨[9, 9], none⟩).1.data
        ((seekStat.write [1, 2, 3] ⟨[9, 9], none⟩).1.data.length : Int) = .ok [1, 2, 3] :=
  readSeekTable_write [1, 2, 3] [9, 9] (by decide) (Or.inl (by decide))

/-! ## The order of the trailer segments -/

theorem chunks_nil (fuel : Nat) : chunks fuel [] = [] := by
  cases fuel <;> simp [chunks]

theorem chunks_two (c0 c1 : List Byte) (h0 : c0.length = empty_gzip_extra_max)
    (h1 : 0 < c1.length) (h2 : c1.length ≤ empty_gzip_extra_max) :
    chunks (c0 ++ c1).length (c0 ++ c1) = [c0, c1] := by
  obtain ⟨k, hk⟩ : ∃ k, (c0 ++ c1).length = k + 1 :=
    ⟨(c0 ++ c1).length - 1, by rw [List.length_append]; omega⟩
  obtain ⟨j, hj⟩ : ∃ j, k = j + 1 :=
    ⟨k - 1, by rw [List.length_append] at hk; simp only [empty_gzip_extra_max] at h0; omega⟩
  rw [hk, chunks, if_pos (by omega), List.take_left' h0, List.drop_left' h0, hj, chunks,
    if_pos h1, List.take_of_length_le h2, List.drop_of_length_le h2, chunks_nil]

theorem chunks_twoChunkBlob :
    chunks twoChunkBlob.length twoChunkBlob = [List.replicate 65529 0, [1]] :=
  chunks_two (List.replicate 65529 0) [1] (List.length_replicate _ _) (by decide) (by decide)

theorem write_two (c0 c1 : List Byte) (h0 : c0.length = empty_gzip_extra_max)
    (h1 : 0 < c1.length) (h2 : c1.length ≤ empty_gzip_extra_max) :
    (seekStat.write (c0 ++ c1) ⟨[], none⟩).1.data = segment c1 ++ segment c0 := by
  rw [write_accepting, chunks_two c0 c1 h0 h1 h2, trailerOf_cons, trailerOf_cons]
  rfl

theorem scan_two (c0 c1 : List Byte) (h0 : c0.length = empty_gzip_extra_max)
    (h1 : 0 < c1.length) (h2 : c1.length ≤ empty_gzip_extra_max) :
    Reader.scan (segment c1 ++ segment c0).length (segment c1 ++ segment c0)
      ((segment c1 ++ segment c0).length : Int) [] = .ok [c0, c1] := by
  have hcs : ∀ c ∈ [c0, c1], 0 < c.length ∧ c.length ≤ empty_gzip_extra_max := by
    intro c hc
    rcases List.mem_cons.mp hc with rfl | hc
    · rw [h0]; decide
    · rcases List.mem_cons.mp hc with rfl | hc
      · exact ⟨h1, h2⟩
      · cases hc
  have ht : trailerOf [c0, c1] = segment c1 ++ segment c0 := by
    rw [trailerOf_cons, trailerOf_cons]; rfl
  have h := scan_trailerOf [] (Or.inl (by decide)) [c0, c1] hcs [] []
    (trailerOf [c0, c1]).length (by rw [List.length_nil, Nat.zero_add])
  rw [List.append_nil, List.nil_append, List.nil_append, List.length_nil, Nat.zero_add, ht] at h
  exact h

theorem reversed_two_ne (n : Nat) :
    ([List.replicate (n + 1) (0 : Byte), [1]].reverse).flatten
      ≠ List.replicate (n + 1) 0 ++ [1] := by
  simp [List.replicate_succ]

/-- C10, counterexample: for the IndexBlob of 65529 zero bytes followed by
one byte 1, whose chunks are c_0 = the zero bytes and c_1 = the byte 1, the
written file is the segment of c_1 followed by the segment of c_0
(decreasing logical order: the segment next to end-of-file carries c_0),
the backward scan discovers c_0 and then c_1, and that list reversed does
not concatenate to the IndexBlob. -/
theorem trailer_order_counterexample :
    (seekStat.write twoChunkBlob ⟨[], none⟩).1.data
        = segment [1] ++ segment (List.replicate 65529 0)
    ∧ Reader.scan (segment [1] ++ segment (List.replicate 65529 0)).length
        (segment [1] ++ segment (List.replicate 65529 0))
        ((segment [1] ++ segment (List.replicate 65529 0)).length : Int) []
        = .ok [List.replicate 65529 0, [1]]
    ∧ ([List.replicate 65529 (0 : Byte), [1]].reverse).flatten ≠ twoChunkBlob := by
  refine ⟨?_, ?_, ?_⟩
  · rw [twoChunkBlob]
    exact write_two (List.replicate 65529 0) [1] (List.length_replicate _ _) (by decide)
      (by decide)
  · exact scan_two (List.replicate 65529 0) [1] (List.length_replicate _ _) (by decide)
      (by decide)
  · rw [twoChunkBlob]
    exact reversed_two_ne 65528

/-- C10, as the code has it: the trailer segments stand in the written file
in decreasing logical order, the segment of the last chunk first, so the
segment next to end-of-file carries the first chunk c_0; the backward scan
discovers the chunks in logical order c_0, c_1, ..., and the chunks in
that order, not reversed, concatenate to the IndexBlob. -/
theorem trailer_order (b F : List Byte)
    (hF : F.length ≤ 23 ∨ ¬ (empty_gzip_suffix <:+ F)) :
    ∃ cs : List (List Byte),
      cs.flatten = b
      ∧ seekStat.build b.length b [] = cs.map segment
      ∧ (seekStat.write b ⟨F, none⟩).1.data = F ++ ((cs.map segment).reverse).flatten
      ∧ (∀ c0 rest, cs = c0 :: rest →
          (seekStat.write b ⟨F, none⟩).1.data
            = F ++ (((rest.map segment).reverse).flatten) ++ segment c0)
      ∧ Reader.scan (seekStat.write b ⟨F, none⟩).1.data.length
          (seekStat.write b ⟨F, none⟩).1.data
          ((seekStat.write b ⟨F, none⟩).1.data.length : Int) [] = .ok cs := by
  refine ⟨chunks b.length b, chunks_flatten _ _ (le_refl _), ?_, ?_, ?_, ?_⟩
  · rw [build_eq_chunks, List.nil_append]
  · rw [write_accepting, trailerOf, List.map_reverse]
  · intro c0 rest h
    rw [write_accepting, h, trailerOf_cons, trailerOf, List.map_reverse, List.append_assoc]
  · rw [write_accepting]
    have h := scan_trailerOf F hF (chunks b.length b) (chunks_bounds _ _) [] []
      (F.length + (trailerOf (chunks b.length b)).length) (le_refl _)
    rw [List.append_nil, List.nil_append] at h
    rw [List.length_append]
    exact h

theorem trailer_order_witness :
    ∃ cs : List (List Byte),
      cs.flatten = [1, 2, 3]
      ∧ seekStat.build ([1, 2, 3] : List Byte).length [1, 2, 3] [] = cs.map segment
      ∧ (seekStat.write [1, 2, 3] ⟨[9, 9], none⟩).1.data
          = [9, 9] ++ ((cs.map segment).reverse).flatten
      ∧ (∀ c0 rest, cs = c0 :: rest →
          (seekStat.write [1, 2, 3] ⟨[9, 9], none⟩).1.data
            = [9, 9] ++ (((rest.map segment).reverse).flatten) ++ segment c0)
      ∧ Reader.scan (seekStat.write [1, 2, 3] ⟨[9, 9], none⟩).1.data.length
          (seekStat.write [1, 2, 3] ⟨[9, 9], none⟩).1.data
          ((seekStat.write [1, 2, 3] ⟨[9, 9], none⟩).1.data.length : Int) [] = .ok cs :=
  trailer_order [1, 2, 3] [9, 9] (Or.inl (by decide))

/-! ## Varint round trip -/

set_option maxRecDepth 100000 in
theorem lor_128 : ∀ y : Nat, y < 256 → y ||| 128 = y % 128 + 128 := by decide

theorem toNat_or_0x80 (x : Nat) : (x.toUInt8 ||| 0x80).toNat = x % 128 + 128 := by
  have h := lor_128
  have e : (x.toUInt8 ||| 0x80).toNat = x.toUInt8.toNat ||| 128 := by
    show (x.toUInt8.toBitVec ||| (0x80 : UInt8).toBitVec).toNat = _
    rw [BitVec.toNat_or]; rfl
  rw [e, toNat_toUInt8, h _ (Nat.mod_lt _ (by decide))]
  omega

theorem toNat_and_0x7f (b : Byte) : (b &&& 0x7f).toNat = b.toNat % 128 := by
  have e : (b &&& 0x7f).toNat = b.toNat &&& (2 ^ 7 - 1) := by
    show (b.toBitVec &&& (0x7f : UInt8).toBitVec).toNat = _
    rw [BitVec.toNat_and]; rfl
  rw [e, Nat.and_pow_two_sub_one_eq_mod]

theorem lor_shift_eq_add (acc y s : Nat) (h : acc < 2 ^ s) :
    acc ||| (y <<< s) = acc + y * 2 ^ s := by
  rw [Nat.shiftLeft_eq, Nat.lor_comm, Nat.mul_comm y, ← Nat.mul_add_lt_is_or h]
  omega

/-- The last byte of a varint: a value below 0x80 ends the loop. -/
theorem loop_last (k i acc s x : Nat) (rest : List Byte) (hx : x < 0x80)
    (hi : i = 9 → x ≤ 1) (hacc : acc < 2 ^ s) (hxs : x * 2 ^ s < 2 ^ 64) :
    ReadUvarint.loop (k + 1) i acc s (x.toUInt8 :: rest) = .ok (acc + x * 2 ^ s, rest) := by
  have hb : x.toUInt8.toNat = x := by rw [toNat_toUInt8]; omega
  have h1 : ¬ (i = 9 ∧ x > 1) := by
    rintro ⟨h9, hgt⟩
    have := hi h9
    omega
  have h2 : (x <<< s) % 2 ^ 64 = x <<< s := by
    rw [Nat.shiftLeft_eq]; exact Nat.mod_eq_of_lt hxs
  simp only [ReadUvarint.loop, hb, hx, if_true, h1, if_false, h2, lor_shift_eq_add acc x s hacc]

theorem loop_AppendUvarint (k : Nat) :
    ∀ (i fuel x acc : Nat) (rest : List Byte),
      k + i = 10 → i ≤ 9 → 9 ≤ fuel + i → acc < 2 ^ (7 * i) → x < 2 ^ (64 - 7 * i) →
      ReadUvarint.loop k i acc (7 * i) (AppendUvarint fuel x ++ rest)
        = .ok (acc + x * 2 ^ (7 * i), rest) := by
  induction k with
  | zero => intro i _ _ _ _ h1 h2; omega
  | succ k ih =>
    intro i fuel x acc rest hki hi hfuel hacc hx
    have hpow : 2 ^ (64 - 7 * i) * 2 ^ (7 * i) = 2 ^ 64 := by
      rw [← Nat.pow_add]; congr 1; omega
    have hxs : x * 2 ^ (7 * i) < 2 ^ 64 := by
      rw [← hpow]
      exact Nat.mul_lt_mul_of_lt_of_le hx (le_refl _) (Nat.two_pow_pos _)
    have h9 : i = 9 → x ≤ 1 := by
      intro h; subst h
      have : x < 2 ^ 1 := hx
      omega
    by_cases hbig : x ≥ 0x80
    · -- a continuation byte
      have hi8 : i ≤ 8 := by
        by_contra hc
        have : i = 9 := by omega
        have := h9 this
        omega
      obtain ⟨f, rfl⟩ : ∃ f, fuel = f + 1 := ⟨fuel - 1, by omega⟩
      have hb : ¬ ((x.toUInt8 ||| 0x80).toNat < 0x80) := by
        rw [toNat_or_0x80]; omega
      have hlow : ((x.toUInt8 ||| 0x80) &&& 0x7f).toNat = x % 128 := by
        rw [toNat_and_0x7f, toNat_or_0x80]; omega
      have hs7 : 2 ^ (7 * (i + 1)) = 2 ^ (7 * i) * 128 := by
        rw [Nat.mul_add, Nat.pow_add]
      have hlt : (x % 128) * 2 ^ (7 * i) < 2 ^ (7 * (i + 1)) := by
        rw [hs7, Nat.mul_comm]
        exact Nat.mul_lt_mul_of_le_of_lt (le_refl _) (Nat.mod_lt _ (by decide))
          (Nat.two_pow_pos _)
      have hle64 : 2 ^ (7 * (i + 1)) ≤ 2 ^ 64 :=
        Nat.pow_le_pow_right (by decide) (by omega)
      have hmod : ((x % 128) <<< (7 * i)) % 2 ^ 64 = (x % 128) <<< (7 * i) := by
        rw [Nat.shiftLeft_eq]; exact Nat.mod_eq_of_lt (by omega)
      have hacc2 : acc + (x % 128) * 2 ^ (7 * i) < 2 ^ (7 * (i + 1)) := by
        rw [hs7]
        have h128 : x % 128 ≤ 127 := by omega
        have := Nat.mul_le_mul_right (2 ^ (7 * i)) h128
        omega
      have hx2 : x >>> 7 < 2 ^ (64 - 7 * (i + 1)) := by
        rw [Nat.shiftRight_eq_div_pow]
        apply Nat.div_lt_of_lt_mul
        have : 2 ^ 7 * 2 ^ (64 - 7 * (i + 1)) = 2 ^ (64 - 7 * i) := by
          rw [← Nat.pow_add]; congr 1; omega
        rw [this]; exact hx
      have step : ReadUvarint.loop (k + 1) i acc (7 * i) (AppendUvarint (f + 1) x ++ rest)
          = ReadUvarint.loop k (i + 1) (acc + (x % 128) * 2 ^ (7 * i)) (7 * (i + 1))
              (AppendUvarint f (x >>> 7) ++ rest) := by
        have e7 : 7 * i + 7 = 7 * (i + 1) := by omega
        simp only [AppendUvarint, hbig, if_true, List.cons_append, ReadUvarint.loop, hb,
          if_false, hlow, hmod, lor_shift_eq_add acc (x % 128) (7 * i) hacc, e7]
      rw [step, ih (i + 1) f (x >>> 7) _ rest (by omega) (by omega) (by omega) hacc2 hx2]
      congr 2
      rw [hs7, Nat.shiftRight_eq_div_pow]
      have hdm : x = 128 * (x / 128) + x % 128 := (Nat.div_add_mod x 128).symm
      generalize x / 128 = a at hdm ⊢
      generalize x % 128 = r at hdm ⊢
      subst hdm
      show acc + r * 2 ^ (7 * i) + a * (2 ^ (7 * i) * 128) = acc + (128 * a + r) * 2 ^ (7 * i)
      ring
    · -- the last byte
      have hx80 : x < 0x80 := by omega
      have hone : AppendUvarint fuel x = [x.toUInt8] := by
        cases fuel with
        | zero => rfl
        | succ f => simp only [AppendUvarint, hbig, if_false]
      rw [hone, List.singleton_append]
      exact loop_last k i acc (7 * i) x rest hx80 h9 hacc hxs

theorem ReadUvarint_AppendUvarint (x : Nat) (rest : List Byte) (hx : x < 2 ^ 64) :
    ReadUvarint (AppendUvarint 9 x ++ rest) = .ok (x, rest) := by
  have h := loop_AppendUvarint 10 0 9 x 0 rest (by omega) (by omega) (by omega)
    (by decide) (by simpa using hx)
  simpa [ReadUvarint] using h

theorem AppendVarint_eq (v : Int) (hv : isInt64 v) :
    AppendVarint v = AppendUvarint 9 (zigzag v) := by
  obtain ⟨hlo, hhi⟩ := hv
  have e : (if v < 0 then 2 ^ 64 - 1 - ((v % 2 ^ 64).toNat <<< 1) % 2 ^ 64
      else ((v % 2 ^ 64).toNat <<< 1) % 2 ^ 64) = zigzag v := by
    unfold zigzag
    by_cases hneg : v < 0
    · rw [if_pos hneg, if_pos hneg, Nat.shiftLeft_eq]; omega
    · rw [if_neg hneg, if_neg hneg, Nat.shiftLeft_eq]; omega
  rw [← e]
  rfl

theorem zigzag_lt (v : Int) (hv : isInt64 v) : zigzag v < 2 ^ 64 := by
  obtain ⟨hlo, hhi⟩ := hv
  unfold zigzag
  by_cases hneg : v < 0
  · rw [if_pos hneg]; omega
  · rw [if_neg hneg]; omega

theorem unzigzag (v : Int) :
    (if zigzag v &&& 1 ≠ 0 then -(((zigzag v >>> 1 : Nat) : Int)) - 1
      else (((zigzag v >>> 1 : Nat) : Int))) = v := by
  rw [Nat.and_one_is_mod, Nat.shiftRight_eq_div_pow]
  unfold zigzag
  by_cases hneg : v < 0
  · rw [if_pos hneg]
    have : (-2 * v - 1).toNat % 2 ≠ 0 := by omega
    rw [if_pos this]; omega
  · rw [if_neg hneg]
    have : ¬ ((2 * v).toNat % 2 ≠ 0) := by omega
    rw [if_neg this]; omega

theorem ReadVarint_AppendVarint (v : Int) (rest : List Byte) (hv : isInt64 v) :
    ReadVarint (AppendVarint v ++ rest) = .ok (v, rest) := by
  rw [AppendVarint_eq v hv]
  unfold ReadVarint
  rw [ReadUvarint_AppendUvarint _ _ (zigzag_lt v hv)]
  show Except.ok ((if zigzag v &&& 1 ≠ 0 then -(((zigzag v >>> 1 : Nat) : Int)) - 1
      else (((zigzag v >>> 1 : Nat) : Int))), rest) = _
  rw [unzigzag]

/-! ## Index round trip -/

theorem foldl_append_frames (ft : List Int) (b : List Byte) :
    ft.foldl seekStat.append b = b ++ (ft.map AppendVarint).flatten := by
  induction ft generalizing b with
  | nil => simp
  | cons v vs ih =>
    simp only [List.foldl_cons, ih, seekStat.append, List.map_cons, List.flatten_cons,
      List.append_assoc]

theorem foldl_append_blocks (bt : List blockEntry) (b : List Byte) :
    bt.foldl
        (fun b e => seekStat.append (seekStat.append (seekStat.append b e.Frame) e.Offset)
          e.Length) b
      = b ++ (bt.map blockBytes).flatten := by
  induction bt generalizing b with
  | nil => simp
  | cons e es ih =>
    rw [List.foldl_cons, ih]
    simp only [seekStat.append, List.map_cons, List.flatten_cons, List.append_assoc, blockBytes]

theorem indexBlob_eq (ft : List Int) (bt : List blockEntry) :
    indexBlob ft bt = AppendVarint (ft.length : Int) ++ ((ft.map AppendVarint).flatten
      ++ (AppendVarint (bt.length : Int) ++ (bt.map blockBytes).flatten)) := by
  simp only [indexBlob]
  rw [foldl_append_blocks, foldl_append_frames]
  simp only [seekStat.append, List.nil_append, List.append_assoc]

theorem readFrameTable_frames (ft : List Int) (rest : List Byte)
    (h : ∀ v ∈ ft, isInt64 v) :
    readFrameTable ft.length ((ft.map AppendVarint).flatten ++ rest) = .ok (ft, rest) := by
  induction ft with
  | nil => rfl
  | cons v vs ih =>
    have hv := h v (List.mem_cons_self _ _)
    have hvs := ih (fun x hx => h x (List.mem_cons_of_mem _ hx))
    simp only [List.length_cons, List.map_cons, List.flatten_cons, List.append_assoc,
      readFrameTable, ReadVarint_AppendVarint v _ hv, hvs]

theorem readBlockTable_blocks (bt : List blockEntry) (rest : List Byte)
    (h : ∀ e ∈ bt, e.isInt64) :
    readBlockTable bt.length ((bt.map blockBytes).flatten ++ rest) = .ok (bt, rest) := by
  induction bt with
  | nil => rfl
  | cons e es ih =>
    obtain ⟨h1, h2, h3⟩ := h e (List.mem_cons_self _ _)
    have hes := ih (fun x hx => h x (List.mem_cons_of_mem _ hx))
    simp only [List.length_cons, List.map_cons, List.flatten_cons, List.append_assoc,
      readBlockTable, blockBytes, ReadVarint_AppendVarint _ _ h1,
      ReadVarint_AppendVarint _ _ h2, ReadVarint_AppendVarint _ _ h3, hes]

theorem isInt64_length (n : Nat) (h : n < 2 ^ 63) : isInt64 (n : Int) := by
  unfold isInt64; omega

/-- The index parser on a serialised index. -/
theorem makePanics_length (elemSize n : Nat) (h : elemSize * n ≤ maxAlloc) :
    makePanics elemSize (n : Int) = false := by
  have h1 : ¬ ((n : Int) < 0) := by omega
  have h2 : ¬ (elemSize * n > maxAlloc) := by omega
  simp only [makePanics, Int.toNat_ofNat, h1, h2, or_self, decide_False]

theorem parseSeekTable_serialised (ft : List Int) (bt : List blockEntry)
    (hft : ∀ v ∈ ft, isInt64 v) (hbt : ∀ e ∈ bt, e.isInt64)
    (hnf : 8 * ft.length ≤ maxAlloc) (hnb : 24 * bt.length ≤ maxAlloc) :
    parseSeekTable (indexBlob ft bt) = .ok (ft, bt) := by
  have hnf' : ft.length < 2 ^ 63 := by unfold maxAlloc at hnf; omega
  have hnb' : bt.length < 2 ^ 63 := by unfold maxAlloc at hnb; omega
  have hb := readBlockTable_blocks bt [] hbt
  rw [List.append_nil] at hb
  rw [indexBlob_eq]
  simp only [parseSeekTable, ReadVarint_AppendVarint _ _ (isInt64_length _ hnf'),
    makePanics_length 8 _ hnf, Bool.false_eq_true, if_false,
    Int.toNat_ofNat, readFrameTable_frames ft _ hft,
    ReadVarint_AppendVarint _ _ (isInt64_length _ hnb'), makePanics_length 24 _ hnb, hb]

/-- C4: for every frame table of `int64` lengths and every block table of
`int64` fields (both of a size that `make` allocates, as every Go slice is:
8 bytes per frame length and 24 bytes per block entry within `maxAlloc`),
the index parser of `Reader.init`, applied to the IndexBlob `Writer.Close`
serialises from them, returns the same frame table and block table. -/
theorem parseSeekTable_indexBlob (ft : List Int) (bt : List blockEntry)
    (hft : ∀ v ∈ ft, isInt64 v) (hbt : ∀ e ∈ bt, e.isInt64)
    (hnf : 8 * ft.length ≤ maxAlloc) (hnb : 24 * bt.length ≤ maxAlloc) :
    parseSeekTable (indexBlob ft bt) = .ok (ft, bt) :=
  parseSeekTable_serialised ft bt hft hbt hnf hnb

theorem parseSeekTable_indexBlob_witness :
    parseSeekTable (indexBlob [100, 2 ^ 63 - 1] [⟨0, 0, 3⟩, ⟨1, 5, -2 ^ 63⟩])
      = .ok ([100, 2 ^ 63 - 1], [⟨0, 0, 3⟩, ⟨1, 5, -2 ^ 63⟩]) :=
  parseSeekTable_indexBlob [100, 2 ^ 63 - 1] [⟨0, 0, 3⟩, ⟨1, 5, -2 ^ 63⟩]
    (by decide) (by decide) (by decide) (by decide)

/-! ## One call of `WriteBlock` -/

theorem Sink.Write_ok (s : Sink) (p : List Byte) (h : (s.Write p).2.2 = none) :
    (s.Write p).1.data = s.data ++ p ∧ (s.Write p).2.1 = p.length := by
  unfold Sink.Write at h ⊢
  cases hr : s.room with
  | none => simp
  | some k =>
    simp only [hr] at h ⊢
    by_cases hk : p.length ≤ k
    · simp [hk]
    · simp [hk] at h

theorem Sink.Write_accepting (s : Sink) (p : List Byte) (h : s.room = none) :
    s.Write p = (⟨s.data ++ p, none⟩, p.length, none) := by
  cases s with
  | mk data room =>
    simp only at h
    subst h
    rfl

theorem Copy_ok (g : GzipWriter) (r : BlockSrc) (hg : g.failed = false) :
    Copy g r = (⟨g.content ++ r.data, false⟩, (r.data.length : Int), r.err) := by
  cases g with
  | mk content failed =>
    simp only at hg
    subst hg
    by_cases hd : r.data = []
    · simp [Copy, hd]
    · simp [Copy, hd, GzipWriter.Write]

/-- `WriteBlock` on a writer without an open frame. -/
theorem WriteBlock_first (c : Codec) (w : Writer) (r : BlockSrc)
    (hp : w.pool = true) (hf : w.frame = none) :
    (Writer.WriteBlock c w r).2 = r.err
    ∧ (r.err = none → (Writer.WriteBlock c w r).1 = w.afterFirst r.data) := by
  cases w with
  | mk base pool stat frame frameTable blockTable frames =>
    simp only at hp hf
    subst hp hf
    have hc := Copy_ok ⟨[], false⟩ r rfl
    cases he : r.err with
    | none =>
      rw [he] at hc
      simp [Writer.WriteBlock, hc, Writer.afterFirst]
    | some e =>
      rw [he] at hc
      simp [Writer.WriteBlock, hc]

/-- `WriteBlock` on an open frame that stays below the limit. -/
theorem WriteBlock_same (c : Codec) (w : Writer) (g : GzipWriter) (r : BlockSrc)
    (hp : w.pool = true) (hf : w.frame = some g) (hg : g.failed = false)
    (hlim : ¬ (w.stat.inputSize + 2 ≥ w.stat.limit)) :
    (Writer.WriteBlock c w r).2 = r.err
    ∧ (r.err = none → (Writer.WriteBlock c w r).1 = w.afterSame g r.data) := by
  cases w with
  | mk base pool stat frame frameTable blockTable frames =>
    cases g with
    | mk content failed =>
      simp only at hp hf hg hlim
      subst hp hf hg
      have h2 : ((block_sep.length : Nat) : Int) = 2 := rfl
      have hc := Copy_ok ⟨content ++ block_sep, false⟩ r rfl
      cases he : r.err with
      | none =>
        rw [he] at hc
        simp [Writer.WriteBlock, hc, Writer.afterSame, GzipWriter.Write, h2, hlim]
      | some e =>
        rw [he] at hc
        simp [Writer.WriteBlock, hc, GzipWriter.Write, h2, hlim]

/-- `WriteBlock` on an open frame that the separator fills. -/
theorem WriteBlock_next (c : Codec) (w : Writer) (g : GzipWriter) (r : BlockSrc)
    (hp : w.pool = true) (hf : w.frame = some g) (hg : g.failed = false)
    (hlim : w.stat.inputSize + 2 ≥ w.stat.limit) :
    ((Writer.WriteBlock c w r).2 = none →
      (w.base.Write (c.compress (g.content ++ block_sep))).2.2 = none ∧ r.err = none)
    ∧ ((w.base.Write (c.compress (g.content ++ block_sep))).2.2 = none →
        (Writer.WriteBlock c w r).2 = r.err
        ∧ (r.err = none → (Writer.WriteBlock c w r).1 = Writer.afterNext c w g r.data)) := by
  cases w with
  | mk base pool stat frame frameTable blockTable frames =>
    cases g with
    | mk content failed =>
      simp only at hp hf hg hlim
      subst hp hf hg
      have h2 : ((block_sep.length : Nat) : Int) = 2 := rfl
      have hc := Copy_ok ⟨[], false⟩ r rfl
      cases hw : base.Write (c.compress (content ++ block_sep)) with
      | mk base1 rest =>
        cases rest with
        | mk n e1 =>
          cases e1 with
          | some e =>
            simp [Writer.WriteBlock, GzipWriter.Write, h2, hlim, Writer.closeFrame, hw]
          | none =>
            have hok := Sink.Write_ok base (c.compress (content ++ block_sep)) (by rw [hw])
            rw [hw] at hok
            simp only at hok
            cases he : r.err with
            | none =>
              rw [he] at hc
              simp [Writer.WriteBlock, hc, GzipWriter.Write, h2, hlim, Writer.closeFrame, hw,
                Writer.afterNext, hok.2]
            | some e =>
              rw [he] at hc
              simp [Writer.WriteBlock, hc, GzipWriter.Write, h2, hlim, Writer.closeFrame, hw]

/-! ## What a run of successful `WriteBlock` calls keeps -/

theorem intercalate_concat (sep : List Byte) (b : List Byte) (bs : List (List Byte))
    (p : List Byte) :
    List.intercalate sep ((b :: bs) ++ [p]) = List.intercalate sep (b :: bs) ++ sep ++ p := by
  induction bs generalizing b with
  | nil => simp [List.intercalate, List.intersperse]
  | cons b2 bs ih =>
    have := ih b2
    simp only [List.intercalate, List.intersperse, List.cons_append, List.flatten_cons,
      List.append_assoc, List.append_eq] at this ⊢
    rw [this]

theorem Located.grow {fs : List (List Byte)} {cur : List Byte} {e : blockEntry} {b : List Byte}
    (h : Located (fs ++ [cur]) e b) (x : List Byte) : Located (fs ++ [cur ++ x]) e b := by
  obtain ⟨h1, h2, h3, h4, h5, h6⟩ := h
  rw [List.length_append, List.length_singleton] at h2
  by_cases hlt : e.Frame.toNat < fs.length
  · have e1 : (fs ++ [cur]).getD e.Frame.toNat [] = fs.getD e.Frame.toNat [] :=
      List.getD_append _ _ _ _ hlt
    have e2 : (fs ++ [cur ++ x]).getD e.Frame.toNat [] = fs.getD e.Frame.toNat [] :=
      List.getD_append _ _ _ _ hlt
    refine ⟨h1, by rw [List.length_append, List.length_singleton]; omega, h3, h4, ?_, ?_⟩
    · rw [e2, ← e1]; exact h5
    · unfold blockEntry.slice at h6 ⊢
      rw [e2, ← e1]; exact h6
  · have hn : e.Frame.toNat = fs.length := by omega
    have e1 : (fs ++ [cur]).getD e.Frame.toNat [] = cur := by
      rw [List.getD_append_right _ _ _ _ (by omega), hn]; simp
    have e2 : (fs ++ [cur ++ x]).getD e.Frame.toNat [] = cur ++ x := by
      rw [List.getD_append_right _ _ _ _ (by omega), hn]; simp
    rw [e1] at h5
    refine ⟨h1, by rw [List.length_append, List.length_singleton]; omega, h3, h4, ?_, ?_⟩
    · rw [e2, List.length_append]; omega
    · unfold blockEntry.slice at h6 ⊢
      rw [e1] at h6
      rw [e2, List.drop_append_of_le_length (by omega), List.take_append_of_le_length, h6]
      rw [List.length_drop, h4]; simp only [Int.toNat_ofNat]; omega

theorem Located.seal {fs : List (List Byte)} {cur : List Byte} {e : blockEntry} {b : List Byte}
    (h : Located (fs ++ [cur]) e b) (nxt : List Byte) : Located ((fs ++ [cur]) ++ [nxt]) e b := by
  obtain ⟨h1, h2, h3, h4, h5, h6⟩ := h
  have e1 : ((fs ++ [cur]) ++ [nxt]).getD e.Frame.toNat [] = (fs ++ [cur]).getD e.Frame.toNat [] :=
    List.getD_append _ _ _ _ h2
  refine ⟨h1, by rw [List.length_append]; omega, h3, h4, ?_, ?_⟩
  · rw [e1]; exact h5
  · unfold blockEntry.slice at h6 ⊢
    rw [e1]; exact h6

theorem Located.last (fs : List (List Byte)) (pre b : List Byte) :
    Located (fs ++ [pre ++ b]) ⟨(fs.length : Nat), (pre.length : Nat), (b.length : Nat)⟩ b := by
  have e1 : (fs ++ [pre ++ b]).getD fs.length [] = pre ++ b := by
    rw [List.getD_append_right _ _ _ _ (le_refl _)]; simp
  refine ⟨by simp, by simp, by simp, rfl, ?_, ?_⟩
  · simp only [Int.toNat_ofNat, e1, List.length_append]; omega
  · simp only [blockEntry.slice, Int.toNat_ofNat, e1, List.drop_left, List.take_length]

theorem Inv_new (c : Codec) (s : Sink) (limit : Int) :
    (NewWriterLimit s limit).Inv c s.data [] where
  good := ⟨rfl, by intro g h; cases h⟩
  opened := by intro h; exact absurd rfl h
  empty := fun _ => ⟨rfl, rfl, rfl⟩
  data := by simp [NewWriterLimit]
  table := rfl
  content := rfl
  blocks := List.Forall₂.nil
  chain := List.chain'_nil
  head := by intro e h; cases h
  last := by intro e h; cases h
  full := by intro f h; cases h
  count := by intro g h; cases h

theorem length_block_sep : block_sep.length = 2 := rfl

theorem Inv_afterFirst (c : Codec) (d0 : List Byte) (w : Writer) (bs : List (List Byte))
    (p : List Byte) (h : w.Inv c d0 bs) (hfr : w.frame = none) :
    (w.afterFirst p).Inv c d0 (bs ++ [p]) := by
  have hbs : bs = [] := by
    by_contra hne
    exact h.opened hne hfr
  obtain ⟨_, hfs, hbt⟩ := h.empty hbs
  have hft0 : w.frameTable = [] := by rw [h.table, hfs]; rfl
  subst hbs
  have hloc := Located.last [] [] p
  simp only [List.nil_append, List.length_nil, Nat.cast_zero] at hloc
  unfold Writer.afterFirst
  refine ⟨⟨h.good.pool, ?_⟩, ?_, ?_, h.data, h.table, ?_, ?_, ?_, ?_, ?_, h.full, ?_⟩
  · intro g hg
    simp only [Option.some.injEq] at hg
    subst hg
    exact ⟨rfl, rfl, rfl⟩
  · intro _ hc
    simp at hc
  · intro hc
    simp at hc
  · simp [Writer.cur, hfs, List.intercalate, List.intersperse]
  · simp only [hbt, hft0, hfs, Writer.cur, List.nil_append, List.length_nil, Nat.cast_zero]
    exact List.Forall₂.cons hloc List.Forall₂.nil
  · simp [hbt]
  · simp [hbt, hft0]
  · simp [hbt, hft0, hfs, Writer.cur]
  · intro _ _
    simp [hfs]

/-- Facts shared by the two cases with an open frame. -/
theorem Inv_open (c : Codec) (d0 : List Byte) (w : Writer) (bs : List (List Byte))
    (g : GzipWriter) (h : w.Inv c d0 bs) (hfr : w.frame = some g) :
    w.cur = g.content
    ∧ (∃ b0 bs', bs = b0 :: bs')
    ∧ (∃ el, w.blockTable.getLast? = some el ∧ el.Frame = (w.frames.length : Int)
        ∧ el.Offset + el.Length = (g.content.length : Int))
    ∧ (∀ x, (w.blockTable ++ [x]).head? = w.blockTable.head?) := by
  have hlen : w.blockTable.length = bs.length := h.blocks.length_eq
  have hcur : w.cur = g.content := by simp [Writer.cur, hfr]
  have hne : bs ≠ [] := by
    intro hc
    have := (h.empty hc).1
    rw [hfr] at this
    cases this
  have hbtne : w.blockTable ≠ [] := by
    intro hc
    rw [hc] at hlen
    exact hne (List.length_eq_zero.mp hlen.symm)
  refine ⟨hcur, List.exists_cons_of_ne_nil hne, ?_, ?_⟩
  · cases hq : w.blockTable.getLast? with
    | none => exact absurd (List.getLast?_eq_none_iff.mp hq) hbtne
    | some el =>
      have := h.last el hq
      rw [hcur] at this
      exact ⟨el, rfl, this⟩
  · intro x
    cases hb : w.blockTable with
    | nil => exact absurd hb hbtne
    | cons a t => rfl

theorem Inv_afterNext (c : Codec) (d0 : List Byte) (w : Writer) (bs : List (List Byte))
    (g : GzipWriter) (p : List Byte) (h : w.Inv c d0 bs) (hfr : w.frame = some g)
    (hlim : w.stat.inputSize + 2 ≥ w.stat.limit)
    (hw : (w.base.Write (c.compress (g.content ++ block_sep))).2.2 = none) :
    (Writer.afterNext c w g p).Inv c d0 (bs ++ [p]) := by
  have hft : w.frameTable.length = w.frames.length := by rw [h.table, List.length_map]
  obtain ⟨hg1, hg2, hg3⟩ := h.good.frame g hfr
  obtain ⟨hcur, ⟨b0, bs', rfl⟩, ⟨el, hel, hl1, hl2⟩, hhead⟩ := Inv_open c d0 w _ g h hfr
  have hloc := Located.last (w.frames ++ [g.content ++ block_sep]) [] p
  simp only [List.nil_append, List.length_nil, Nat.cast_zero, List.length_append,
    List.length_singleton] at hloc
  have hcount := h.count g hfr
  unfold Writer.afterNext
  refine ⟨⟨h.good.pool, ?_⟩, ?_, ?_, ?_, ?_, ?_, ?_, ?_, ?_, ?_, ?_, ?_⟩
  rotate_right
  · intro _ _
    simp only [List.length_append, List.length_singleton] at hcount ⊢
    omega
  · intro g' hg'
    simp only [Option.some.injEq] at hg'
    subst hg'
    exact ⟨rfl, rfl, rfl⟩
  · intro _ hc
    simp at hc
  · intro hc
    simp at hc
  · simp only [(Sink.Write_ok _ _ hw).1, h.data, List.map_append, List.flatten_append,
      List.map_cons, List.map_nil, List.flatten_cons, List.flatten_nil, List.append_nil,
      List.append_assoc]
  · simp only [h.table, hg2, List.map_append, List.map_cons, List.map_nil, zero_add]
  · have := h.content
    rw [hcur] at this
    simp only [Writer.cur, List.flatten_append, List.flatten_cons, List.flatten_nil,
      List.append_nil]
    rw [intercalate_concat, ← this]
    simp only [List.append_assoc]
  · simp only [Writer.cur]
    apply List.rel_append
    · have := h.blocks
      rw [hcur] at this
      exact this.imp (fun e b he => (he.grow block_sep).seal p)
    · simp only [hft]
      exact List.Forall₂.cons hloc List.Forall₂.nil
  · rw [List.chain'_append]
    refine ⟨h.chain, List.chain'_singleton _, ?_⟩
    intro x hx y hy
    rw [hel] at hx
    simp only [Option.mem_def, Option.some.injEq] at hx
    subst hx
    simp only [List.head?_cons, Option.mem_def, Option.some.injEq] at hy
    subst hy
    right
    simp only [hft, hl1]
    exact ⟨by push_cast; rfl, trivial⟩
  · intro e he
    rw [hhead] at he
    exact h.head e he
  · intro e he
    rw [List.getLast?_concat] at he
    simp only [Option.mem_def, Option.some.injEq] at he
    subst he
    simp only [Writer.cur, hft, List.length_append, List.length_singleton]
    exact ⟨trivial, by simp⟩
  · intro f hf
    rcases List.mem_append.mp hf with hf | hf
    · exact h.full f hf
    · simp only [List.mem_singleton] at hf
      subst hf
      rw [List.length_append, length_block_sep]
      push_cast
      omega

theorem Inv_afterSame (c : Codec) (d0 : List Byte) (w : Writer) (bs : List (List Byte))
    (g : GzipWriter) (p : List Byte) (h : w.Inv c d0 bs) (hfr : w.frame = some g) :
    (w.afterSame g p).Inv c d0 (bs ++ [p]) := by
  have hft : w.frameTable.length = w.frames.length := by rw [h.table, List.length_map]
  obtain ⟨hg1, hg2, hg3⟩ := h.good.frame g hfr
  obtain ⟨hcur, ⟨b0, bs', rfl⟩, ⟨el, hel, hl1, hl2⟩, hhead⟩ := Inv_open c d0 w _ g h hfr
  have hloc := Located.last w.frames (g.content ++ block_sep) p
  have hcount := h.count g hfr
  unfold Writer.afterSame
  refine ⟨⟨h.good.pool, ?_⟩, ?_, ?_, h.data, h.table, ?_, ?_, ?_, ?_, ?_, h.full, ?_⟩
  rotate_right
  · intro _ _
    simp only [List.length_append, List.length_singleton] at hcount ⊢
    omega
  · intro g' hg'
    simp only [Option.some.injEq] at hg'
    subst hg'
    refine ⟨rfl, hg2, ?_⟩
    simp only [List.length_append, length_block_sep, hg3]
    push_cast
    ring
  · intro _ hc
    simp at hc
  · intro hc
    simp at hc
  · have := h.content
    rw [hcur] at this
    simp only [Writer.cur]
    rw [intercalate_concat, ← this]
    simp only [List.append_assoc]
  · simp only [Writer.cur]
    apply List.rel_append
    · have := h.blocks
      rw [hcur] at this
      have e : g.content ++ block_sep ++ p = g.content ++ (block_sep ++ p) :=
        List.append_assoc _ _ _
      rw [e]
      exact this.imp (fun e b he => he.grow (block_sep ++ p))
    · have e : w.stat.inputSize + 2 = ((g.content ++ block_sep).length : Nat) := by
        rw [hg3, List.length_append, length_block_sep]; push_cast; rfl
      simp only [hft, e]
      exact List.Forall₂.cons hloc List.Forall₂.nil
  · rw [List.chain'_append]
    refine ⟨h.chain, List.chain'_singleton _, ?_⟩
    intro x hx y hy
    rw [hel] at hx
    simp only [Option.mem_def, Option.some.injEq] at hx
    subst hx
    simp only [List.head?_cons, Option.mem_def, Option.some.injEq] at hy
    subst hy
    left
    simp only [hft, hl1, hg3]
    exact ⟨trivial, by omega⟩
  · intro e he
    rw [hhead] at he
    exact h.head e he
  · intro e he
    rw [List.getLast?_concat] at he
    simp only [Option.mem_def, Option.some.injEq] at he
    subst he
    simp only [Writer.cur, hft, hg3, List.length_append, length_block_sep]
    exact ⟨trivial, by push_cast; ring⟩

/-- One successful `WriteBlock` keeps the invariant. -/
theorem Inv_WriteBlock (c : Codec) (d0 : List Byte) (w : Writer) (bs : List (List Byte))
    (r : BlockSrc) (h : w.Inv c d0 bs) (hok : (Writer.WriteBlock c w r).2 = none) :
    (Writer.WriteBlock c w r).1.Inv c d0 (bs ++ [r.data])
    ∧ (Writer.WriteBlock c w r).1.stat.limit = w.stat.limit := by
  cases hfr : w.frame with
  | none =>
    obtain ⟨h1, h2⟩ := WriteBlock_first c w r h.good.pool hfr
    rw [h1] at hok
    rw [h2 hok]
    exact ⟨Inv_afterFirst c d0 w bs r.data h hfr, rfl⟩
  | some g =>
    obtain ⟨hg1, -, -⟩ := h.good.frame g hfr
    by_cases hlim : w.stat.inputSize + 2 ≥ w.stat.limit
    · obtain ⟨h1, h2⟩ := WriteBlock_next c w g r h.good.pool hfr hg1 hlim
      obtain ⟨hw, he⟩ := h1 hok
      rw [(h2 hw).2 he]
      exact ⟨Inv_afterNext c d0 w bs g r.data h hfr hlim hw, rfl⟩
    · obtain ⟨h1, h2⟩ := WriteBlock_same c w g r h.good.pool hfr hg1 hlim
      rw [h1] at hok
      rw [h2 hok]
      exact ⟨Inv_afterSame c d0 w bs g r.data h hfr, rfl⟩

/-- On a sink that accepts every byte, `WriteBlock` of a clean source
succeeds. -/
theorem WriteBlock_accepting (c : Codec) (d0 : List Byte) (w : Writer) (bs : List (List Byte))
    (r : BlockSrc) (h : w.Inv c d0 bs) (hr : w.base.room = none) (he : r.err = none) :
    (Writer.WriteBlock c w r).2 = none ∧ (Writer.WriteBlock c w r).1.base.room = none := by
  cases hfr : w.frame with
  | none =>
    obtain ⟨h1, h2⟩ := WriteBlock_first c w r h.good.pool hfr
    rw [h1, h2 he]
    exact ⟨he, hr⟩
  | some g =>
    obtain ⟨hg1, -, -⟩ := h.good.frame g hfr
    by_cases hlim : w.stat.inputSize + 2 ≥ w.stat.limit
    · obtain ⟨-, h2⟩ := WriteBlock_next c w g r h.good.pool hfr hg1 hlim
      have hw := Sink.Write_accepting w.base (c.compress (g.content ++ block_sep)) hr
      obtain ⟨h3, h4⟩ := h2 (by rw [hw])
      rw [h3, h4 he]
      refine ⟨he, ?_⟩
      simp only [Writer.afterNext, hw]
    · obtain ⟨h1, h2⟩ := WriteBlock_same c w g r h.good.pool hfr hg1 hlim
      rw [h1, h2 he]
      exact ⟨he, hr⟩

/-- A successful run of `WriteBlock` calls keeps the invariant. -/
theorem Inv_writeAll (c : Codec) (d0 : List Byte) (rs : List BlockSrc) :
    ∀ (w : Writer) (bs : List (List Byte)), w.Inv c d0 bs →
      (Writer.writeAll c w rs).2 = none →
      (Writer.writeAll c w rs).1.Inv c d0 (bs ++ rs.map (fun r => r.data))
      ∧ (Writer.writeAll c w rs).1.stat.limit = w.stat.limit := by
  induction rs with
  | nil =>
    intro w bs h _
    simpa [Writer.writeAll] using h
  | cons r rs ih =>
    intro w bs h hok
    unfold Writer.writeAll at hok ⊢
    cases hwb : Writer.WriteBlock c w r with
    | mk w1 e1 =>
      cases e1 with
      | some e =>
        rw [hwb] at hok
        cases hok
      | none =>
        rw [hwb] at hok
        simp only at hok ⊢
        have hstep := Inv_WriteBlock c d0 w bs r h (by rw [hwb])
        rw [hwb] at hstep
        obtain ⟨hi, hl⟩ := ih w1 (bs ++ [r.data]) hstep.1 hok
        refine ⟨?_, by rw [hl, hstep.2]⟩
        simpa [List.append_assoc] using hi

/-- On a sink that accepts every byte, writing clean sources succeeds. -/
theorem writeAll_accepting (c : Codec) (d0 : List Byte) (ps : List (List Byte)) :
    ∀ (w : Writer) (bs : List (List Byte)), w.Inv c d0 bs → w.base.room = none →
      (Writer.writeAll c w (ps.map BlockSrc.ofBytes)).2 = none
      ∧ (Writer.writeAll c w (ps.map BlockSrc.ofBytes)).1.base.room = none := by
  induction ps with
  | nil =>
    intro w bs _ hr
    exact ⟨rfl, hr⟩
  | cons p ps ih =>
    intro w bs h hr
    obtain ⟨h1, h2⟩ := WriteBlock_accepting c d0 w bs (BlockSrc.ofBytes p) h hr rfl
    have hstep := Inv_WriteBlock c d0 w bs (BlockSrc.ofBytes p) h h1
    simp only [List.map_cons, Writer.writeAll]
    cases hwb : Writer.WriteBlock c w (BlockSrc.ofBytes p) with
    | mk w1 e1 =>
      rw [hwb] at h1 h2 hstep
      simp only at h1 h2 hstep
      subst h1
      exact ih w1 _ hstep.1 h2

/-! ## `Close` after a run of successful writes -/

theorem Close_none (c : Codec) (w : Writer) (hp : w.pool = true) (hf : w.frame = none)
    (hr : w.base.room = none) :
    Writer.Close c w
      = ({ w with pool := false,
                  base := ⟨w.base.data ++ indexTrailer w.frameTable w.blockTable, none⟩ },
          none) := by
  cases w with
  | mk base pool stat frame frameTable blockTable frames =>
    cases base with
    | mk data room =>
      simp only at hp hf hr
      subst hp hf hr
      simp [Writer.Close, write_accepting, indexTrailer]

theorem Close_some (c : Codec) (w : Writer) (g : GzipWriter) (hp : w.pool = true)
    (hf : w.frame = some g) (hg : g.failed = false) (hr : w.base.room = none) :
    Writer.Close c w
      = ({ w with pool := false,
                  frame := none,
                  stat := { w.stat with
                    frameSize := w.stat.frameSize + ((c.compress g.content).length : Int) },
                  frameTable := w.frameTable
                    ++ [w.stat.frameSize + ((c.compress g.content).length : Int)],
                  frames := w.frames ++ [g.content],
                  base := ⟨w.base.data ++ c.compress g.content
                    ++ indexTrailer
                        (w.frameTable ++ [w.stat.frameSize + ((c.compress g.content).length : Int)])
                        w.blockTable, none⟩ },
          none) := by
  cases w with
  | mk base pool stat frame frameTable blockTable frames =>
    cases base with
    | mk data room =>
      cases g with
      | mk content failed =>
        simp only at hp hf hr hg
        subst hp hf hr hg
        simp [Writer.Close, Writer.closeFrame, Sink.Write, write_accepting, indexTrailer]

/-- `Close` after a run of successful `WriteBlock` calls, on a sink that
accepts every byte. -/
theorem Closed_Close (c : Codec) (d0 : List Byte) (w : Writer) (bs : List (List Byte))
    (h : w.Inv c d0 bs) (hr : w.base.room = none) :
    (Writer.Close c w).2 = none ∧ (Writer.Close c w).1.Closed c d0 bs
    ∧ (Writer.Close c w).1.stat.limit = w.stat.limit := by
  cases hfr : w.frame with
  | none =>
    have hbs : bs = [] := by
      by_contra hne
      exact h.opened hne hfr
    obtain ⟨_, hfs, hbt⟩ := h.empty hbs
    rw [Close_none c w h.good.pool hfr hr]
    refine ⟨rfl, ⟨rfl, hfr, h.table, ?_, ?_, h.chain, h.head, ?_, ?_, ?_⟩, rfl⟩
    · simp [hfs, hbs, List.intercalate, List.intersperse]
    · simp only [hbt, hbs]
      exact List.Forall₂.nil
    · simp [hfs]
    · simp only [h.data]
    · simp [hfs]
  | some g =>
    obtain ⟨hg1, hg2, hg3⟩ := h.good.frame g hfr
    have hcur : w.cur = g.content := by simp [Writer.cur, hfr]
    have hc := h.content
    have hb := h.blocks
    rw [hcur] at hc hb
    rw [Close_some c w g h.good.pool hfr hg1 hr]
    have hcount := h.count g hfr
    refine ⟨rfl, ⟨rfl, rfl, ?_, ?_, hb, h.chain, h.head, ?_, ?_, ?_⟩, rfl⟩
    · simp only [h.table, hg2, List.map_append, List.map_cons, List.map_nil, zero_add]
    · simp only [List.flatten_append, List.flatten_cons, List.flatten_nil,
        List.append_nil, hc]
    · simp only [List.dropLast_concat]
      exact h.full
    · simp only [h.data, List.map_append, List.flatten_append, List.map_cons, List.map_nil,
        List.flatten_cons, List.flatten_nil, List.append_nil, List.append_assoc]
    · simp only [List.length_append, List.length_singleton]
      omega

/-- The archive of the blocks `bs`: both the writes and `Close` succeed. -/
theorem archive_Closed (c : Codec) (limit : Int) (bs : List (List Byte)) :
    (archive c limit bs).2 = none ∧ (archive c limit bs).1.Closed c [] bs
    ∧ (archive c limit bs).1.stat.limit = limit := by
  have h0 := Inv_new c ⟨[], none⟩ limit
  obtain ⟨h1, h2⟩ := writeAll_accepting c [] bs _ [] h0 rfl
  obtain ⟨h3, h4⟩ := Inv_writeAll c [] (bs.map BlockSrc.ofBytes) _ [] h0 h1
  have hm : (bs.map BlockSrc.ofBytes).map (fun r => r.data) = bs := by
    rw [List.map_map]
    exact List.map_id _
  rw [List.nil_append, hm] at h3
  unfold archive
  cases hw : Writer.writeAll c (NewWriterLimit ⟨[], none⟩ limit) (bs.map BlockSrc.ofBytes) with
  | mk w e =>
    rw [hw] at h1 h2 h3 h4
    simp only at h1 h2 h3 h4
    subst h1
    simp only
    obtain ⟨h5, h6, h7⟩ := Closed_Close c [] w bs h3 h2
    exact ⟨h5, h6, by rw [h7, h4]; rfl⟩

/-! ## The block table and the frame contents -/

theorem Forall₂_map_eq {α β γ : Type} (R : α → β → Prop) (f : α → γ) (g : β → γ)
    (hR : ∀ a b, R a b → f a = g b) :
    ∀ (l1 : List α) (l2 : List β), List.Forall₂ R l1 l2 → l1.map f = l2.map g := by
  intro l1 l2 h
  induction h with
  | nil => rfl
  | cons hab _ ih => simp only [List.map_cons, hR _ _ hab, ih]

/-- C5: after a run of successful `WriteBlock` calls on a new `Writer` (any
sink, any limit, any codec), the recorded length of every block is the byte
length of its source, the first entry is (frame 0, offset 0), and every
later entry either stays in the frame of the entry before it, at offset =
that entry's offset + length + 2, or is the first block of the next frame, at
offset 0. -/
theorem blockTable_offsets (c : Codec) (s : Sink) (limit : Int) (rs : List BlockSrc)
    (hok : (Writer.writeAll c (NewWriterLimit s limit) rs).2 = none) :
    (Writer.writeAll c (NewWriterLimit s limit) rs).1.blockTable.map (fun e => e.Length)
        = rs.map (fun r => (r.data.length : Int))
    ∧ (∀ e ∈ (Writer.writeAll c (NewWriterLimit s limit) rs).1.blockTable.head?,
        e.Frame = 0 ∧ e.Offset = 0)
    ∧ List.Chain'
        (fun e1 e2 : blockEntry =>
          (e2.Frame = e1.Frame ∧ e2.Offset = e1.Offset + e1.Length + 2)
            ∨ (e2.Frame = e1.Frame + 1 ∧ e2.Offset = 0))
        (Writer.writeAll c (NewWriterLimit s limit) rs).1.blockTable := by
  obtain ⟨h, -⟩ := Inv_writeAll c s.data rs _ [] (Inv_new c s limit) hok
  rw [List.nil_append] at h
  refine ⟨?_, h.head, h.chain⟩
  have := Forall₂_map_eq _ (fun e : blockEntry => e.Length)
    (fun b : List Byte => (b.length : Int)) (fun e b (he : Located _ e b) => he.length_eq)
    _ _ h.blocks
  rw [this, List.map_map]
  rfl

theorem blockTable_offsets_witness :
    (Writer.writeAll toyCodec (NewWriterLimit ⟨[], none⟩ default_frame_limit)
        [BlockSrc.ofBytes [97, 98, 99], BlockSrc.ofBytes [100, 101, 102, 103, 104]]).2 = none
    ∧ (Writer.writeAll toyCodec (NewWriterLimit ⟨[], none⟩ default_frame_limit)
        [BlockSrc.ofBytes [97, 98, 99], BlockSrc.ofBytes [100, 101, 102, 103, 104]]).1.blockTable
        = [⟨0, 0, 3⟩, ⟨0, 5, 5⟩]
    ∧ (Writer.writeAll toyCodec (NewWriterLimit ⟨[], none⟩ default_frame_limit)
        [BlockSrc.ofBytes [97, 98, 99], BlockSrc.ofBytes [100, 101, 102, 103, 104]]).1.blockTable.map
          (fun e => e.Length)
        = [BlockSrc.ofBytes [97, 98, 99], BlockSrc.ofBytes [100, 101, 102, 103, 104]].map
            (fun r => (r.data.length : Int)) :=
  ⟨by decide, by decide,
    (blockTable_offsets toyCodec ⟨[], none⟩ default_frame_limit
      [BlockSrc.ofBytes [97, 98, 99], BlockSrc.ofBytes [100, 101, 102, 103, 104]]
      (by decide)).1⟩

/-- C2: for every list of blocks and every frame limit, writing the blocks
to a sink that accepts every byte and closing succeeds, the sink then holds
the compressed frames in order followed by the trailer, and the
uncompressed contents of the frames, concatenated in frame order, are the
blocks joined by the separator 0A 0A: one separator between two consecutive
blocks, none after the last. -/
theorem frames_content (c : Codec) (limit : Int) (blocks : List (List Byte)) :
    (archive c limit blocks).2 = none
    ∧ (archive c limit blocks).1.base.data
        = ((archive c limit blocks).1.frames.map c.compress).flatten
          ++ (seekStat.write (indexBlob (archive c limit blocks).1.frameTable
                (archive c limit blocks).1.blockTable) ⟨[], none⟩).1.data
    ∧ (archive c limit blocks).1.frames.flatten = List.intercalate [0x0a, 0x0a] blocks := by
  obtain ⟨h1, h2, -⟩ := archive_Closed c limit blocks
  refine ⟨h1, ?_, h2.content⟩
  rw [h2.data, write_accepting, List.nil_append, List.nil_append]
  rfl

/-! ## The frame sections -/

theorem wrap64_eq (x : Int) (h1 : -2 ^ 63 ≤ x) (h2 : x < 2 ^ 63) : wrap64 x = x := by
  unfold wrap64; omega

theorem foldl_wrap64 (l : List Int) :
    ∀ acc : Int, 0 ≤ acc → (∀ v ∈ l, 0 ≤ v) → acc + l.sum < 2 ^ 63 →
      l.foldl (fun off v => wrap64 (off + v)) acc = acc + l.sum := by
  induction l with
  | nil => intro acc _ _ _; simp
  | cons v vs ih =>
    intro acc h0 hv hs
    have hv0 := hv v (List.mem_cons_self _ _)
    have hvs : ∀ x ∈ vs, 0 ≤ x := fun x hx => hv x (List.mem_cons_of_mem _ hx)
    have hsum : 0 ≤ vs.sum := List.sum_nonneg hvs
    rw [List.sum_cons] at hs
    rw [List.foldl_cons, wrap64_eq _ (by omega) (by omega), ih _ (by omega) hvs (by omega),
      List.sum_cons]
    ring

theorem frameOffset_eq_sum (l : List Int) (hv : ∀ v ∈ l, 0 ≤ v) (hs : l.sum < 2 ^ 63) :
    frameOffset l = l.sum := by
  unfold frameOffset
  rw [foldl_wrap64 l 0 (le_refl _) hv (by omega)]
  ring

theorem sum_frameLengths (c : Codec) (fs : List (List Byte)) :
    (frameLengths c fs).sum = (((fs.map c.compress).flatten.length : Nat) : Int) := by
  induction fs with
  | nil => rfl
  | cons f fs ih =>
    simp only [frameLengths, List.map_cons, List.sum_cons, List.flatten_cons,
      List.length_append] at ih ⊢
    rw [ih]
    push_cast
    rfl

theorem frameLengths_nonneg (c : Codec) (fs : List (List Byte)) :
    ∀ v ∈ frameLengths c fs, 0 ≤ v := by
  intro v hv
  simp only [frameLengths, List.mem_map] at hv
  obtain ⟨f, -, rfl⟩ := hv
  omega

theorem take_frameLengths (c : Codec) (fs : List (List Byte)) (i : Nat) :
    (frameLengths c fs).take i = frameLengths c (fs.take i) := by
  simp only [frameLengths, List.map_take]

theorem length_flatten_take_le (c : Codec) (fs : List (List Byte)) (i : Nat) :
    ((fs.take i).map c.compress).flatten.length ≤ (fs.map c.compress).flatten.length := by
  conv_rhs => rw [← List.take_append_drop i fs]
  rw [List.map_append, List.flatten_append, List.length_append]
  omega

/-- The section of frame `i` in a source that holds the compressed frames
`fs` followed by `T`. -/
theorem section_of_frame (c : Codec) (fs : List (List Byte)) (T : List Byte) (i : Nat)
    (hi : i < fs.length)
    (hsize : (((fs.map c.compress).flatten.length : Nat) : Int) < 2 ^ 63) :
    frameOffset ((frameLengths c fs).take i)
        = ((((fs.take i).map c.compress).flatten.length : Nat) : Int)
    ∧ (frameLengths c fs).getD i 0 = ((c.compress (fs.getD i [])).length : Int)
    ∧ SectionReader ((fs.map c.compress).flatten ++ T)
        (frameOffset ((frameLengths c fs).take i)) ((frameLengths c fs).getD i 0)
        = c.compress (fs.getD i []) := by
  have hoff : frameOffset ((frameLengths c fs).take i)
      = ((((fs.take i).map c.compress).flatten.length : Nat) : Int) := by
    rw [take_frameLengths, frameOffset_eq_sum _ (frameLengths_nonneg _ _), sum_frameLengths]
    rw [sum_frameLengths]
    have := length_flatten_take_le c fs i
    omega
  have hlen : (frameLengths c fs).getD i 0 = ((c.compress (fs.getD i [])).length : Int) := by
    have h1 : i < (frameLengths c fs).length := by
      simp only [frameLengths, List.length_map]; exact hi
    rw [List.getD_eq_getElem _ _ h1, List.getD_eq_getElem _ _ hi]
    simp only [frameLengths, List.getElem_map]
  refine ⟨hoff, hlen, ?_⟩
  rw [hoff, hlen]
  have hsplit : fs = fs.take i ++ [fs.getD i []] ++ fs.drop (i + 1) := by
    rw [List.getD_eq_getElem _ _ hi, List.append_assoc, List.singleton_append,
      List.getElem_cons_drop _ _ hi, List.take_append_drop]
  have e : (fs.map c.compress).flatten ++ T
      = ((fs.take i).map c.compress).flatten ++ c.compress (fs.getD i [])
        ++ (((fs.drop (i + 1)).map c.compress).flatten ++ T) := by
    conv_lhs => rw [hsplit]
    simp only [List.map_append, List.flatten_append, List.map_cons, List.map_nil,
      List.flatten_cons, List.flatten_nil, List.append_nil, List.append_assoc]
  rw [e]
  exact SectionReader_mid _ _ _ _ _ rfl rfl

/-- What `find` returns when it finds the block. -/
theorem find_some (r : Reader) (j : Int) (e : blockEntry) (off len : Int)
    (h : r.find j = .ok (some (e, off, len))) :
    0 ≤ j ∧ r.blockTable.get? j.toNat = some e
    ∧ 0 ≤ e.Frame ∧ e.Frame < (r.frameTable.length : Int)
    ∧ off = frameOffset (r.frameTable.take e.Frame.toNat)
    ∧ len = r.frameTable.getD e.Frame.toNat 0 := by
  unfold Reader.find at h
  by_cases h1 : j < 0 ∨ j ≥ (r.blockTable.length : Int)
  · rw [if_pos h1] at h; cases h
  · rw [if_neg h1] at h
    cases hb : r.blockTable.get? j.toNat with
    | none => rw [hb] at h; cases h
    | some block =>
      rw [hb] at h
      simp only at h
      by_cases h2 : block.Frame < 0 ∧ block.Frame ≥ (r.frameTable.length : Int)
      · rw [if_pos h2] at h; cases h
      · rw [if_neg h2] at h
        by_cases h3 : block.Frame < 0 ∨ block.Frame ≥ (r.frameTable.length : Int)
        · rw [if_pos h3] at h; cases h
        · rw [if_neg h3] at h
          simp only [Except.ok.injEq, Option.some.injEq, Prod.mk.injEq] at h
          obtain ⟨rfl, rfl, rfl⟩ := h
          exact ⟨by omega, rfl, by omega, by omega, rfl, rfl⟩

/-- C8: in the archive a `Writer` produces on a sink that accepts every
byte (shorter than 2^63 bytes, as every file is), the frame table has one
entry per frame; for every frame index `i` the section `OpenFrame(i)` opens
starts at the sum of the compressed lengths of the frames before it, which
is where those frames end, is `frameTable[i]` bytes long and holds exactly
the bytes the codec emitted for frame `i`; `find` gives `OpenBlock` the same
section for a block of frame `i`; and the frames are followed directly by
the trailer, which starts at the sum of all frame lengths. -/
theorem frame_sections (c : Codec) (limit : Int) (blocks : List (List Byte))
    (hsize : (((archive c limit blocks).1.base.data.length : Nat) : Int) < 2 ^ 63) :
    (archiveReader c limit blocks).FrameCount = ((archive c limit blocks).1.frames.length : Int)
    ∧ (∀ i : Nat, i < (archive c limit blocks).1.frames.length →
        frameOffset ((archiveReader c limit blocks).frameTable.take i)
            = ((archiveReader c limit blocks).frameTable.take i).sum
        ∧ ((archiveReader c limit blocks).frameTable.take i).sum
            = (((((archive c limit blocks).1.frames.take i).map c.compress).flatten.length : Nat)
                : Int)
        ∧ (archiveReader c limit blocks).frameTable.getD i 0
            = ((c.compress ((archive c limit blocks).1.frames.getD i [])).length : Int)
        ∧ SectionReader (archiveReader c limit blocks).rat
            (frameOffset ((archiveReader c limit blocks).frameTable.take i))
            ((archiveReader c limit blocks).frameTable.getD i 0)
            = c.compress ((archive c limit blocks).1.frames.getD i [])
        ∧ (archiveReader c limit blocks).OpenFrame c (i : Int)
            = openSection c (archiveReader c limit blocks).rat
                (frameOffset ((archiveReader c limit blocks).frameTable.take i))
                ((archiveReader c limit blocks).frameTable.getD i 0)
        ∧ (∀ (j : Int) (e : blockEntry) (off len : Int),
            (archiveReader c limit blocks).find j = .ok (some (e, off, len)) →
            e.Frame = (i : Int) →
            off = frameOffset ((archiveReader c limit blocks).frameTable.take i)
            ∧ len = (archiveReader c limit blocks).frameTable.getD i 0))
    ∧ (archiveReader c limit blocks).rat
        = ((archive c limit blocks).1.frames.map c.compress).flatten
          ++ (seekStat.write (indexBlob (archive c limit blocks).1.frameTable
                (archive c limit blocks).1.blockTable) ⟨[], none⟩).1.data
    ∧ frameOffset (archiveReader c limit blocks).frameTable
        = (((((archive c limit blocks).1.frames.map c.compress).flatten.length : Nat)) : Int) := by
  obtain ⟨-, h, -⟩ := archive_Closed c limit blocks
  have hd := h.data
  rw [List.nil_append] at hd
  have ht : (archive c limit blocks).1.frameTable
      = frameLengths c (archive c limit blocks).1.frames := h.table
  have hfs : ((((archive c limit blocks).1.frames.map c.compress).flatten.length : Nat) : Int)
      < 2 ^ 63 := by
    rw [hd, List.length_append] at hsize
    push_cast at hsize ⊢
    omega
  refine ⟨?_, ?_, ?_, ?_⟩
  · simp only [archiveReader, Reader.FrameCount, ht, frameLengths, List.length_map]
  · intro i hi
    simp only [archiveReader]
    rw [hd]
    generalize indexTrailer (archive c limit blocks).1.frameTable
      (archive c limit blocks).1.blockTable = T
    rw [ht]
    obtain ⟨s1, s2, s3⟩ := section_of_frame c _ T i hi hfs
    have hsum : ((frameLengths c (archive c limit blocks).1.frames).take i).sum
        = ((((((archive c limit blocks).1.frames.take i).map c.compress).flatten.length : Nat))
            : Int) := by
      rw [take_frameLengths, sum_frameLengths]
    refine ⟨by rw [s1, hsum], hsum, s2, s3, ?_, ?_⟩
    · have hlt : ¬ ((i : Int) < 0 ∨ (i : Int)
          ≥ ((frameLengths c (archive c limit blocks).1.frames).length : Int)) := by
        simp only [frameLengths, List.length_map]
        omega
      simp only [Reader.OpenFrame, hlt, if_false, Int.toNat_ofNat]
    · intro j e off len hfind hfr
      obtain ⟨-, -, -, -, ho, hl⟩ := find_some _ j e off len hfind
      simp only [hfr, Int.toNat_ofNat] at ho hl
      exact ⟨ho, hl⟩
  · simp only [archiveReader]
    rw [hd, write_accepting, List.nil_append]
    rfl
  · simp only [archiveReader]
    rw [ht, frameOffset_eq_sum _ (frameLengths_nonneg _ _), sum_frameLengths]
    rw [sum_frameLengths]
    exact hfs

theorem frame_sections_witness :
    (((archive toyCodec 5 [[97, 98, 99], [100, 101]]).1.base.data.length : Nat) : Int) < 2 ^ 63
    ∧ (archiveReader toyCodec 5 [[97, 98, 99], [100, 101]]).FrameCount
        = ((archive toyCodec 5 [[97, 98, 99], [100, 101]]).1.frames.length : Int) :=
  ⟨by decide, (frame_sections toyCodec 5 [[97, 98, 99], [100, 101]] (by decide)).1⟩

/-! ## `BlockReader.Read` -/

theorem GzipReader.Read_length (c : Codec) (g : GzipReader) (k : Nat) :
    (g.Read c k).2.1.length ≤ k ∧ (g.Read c k).2.1 = g.rest.take (g.Read c k).2.1.length
    ∧ (g.Read c k).1 = ⟨g.rest.drop (g.Read c k).2.1.length, g.tail⟩ := by
  unfold GzipReader.Read
  by_cases h1 : g.rest = []
  · cases g with
    | mk rest tail =>
      simp only at h1
      subst h1
      simp
  · by_cases h2 : k = 0
    · simp [h1, h2]
    · simp only [h1, h2, if_false, List.length_take]
      have e : min (min k (min (c.burst + 1) g.rest.length)) g.rest.length
          = min k (min (c.burst + 1) g.rest.length) := by omega
      rw [e]
      exact ⟨by omega, rfl, rfl⟩

/-- One `Read` with a non-negative budget: what it asks of the frame. -/
theorem BlockReader.Read_spec (c : Codec) (r : BlockReader) (k : Nat) (hL : 0 ≤ r.remain) :
    (r.remain = 0 → r.Read c k = (r, [], some Err.eof))
    ∧ (r.frame = none → r.Read c k = (r, [], some Err.eof))
    ∧ (∀ g, r.frame = some g → r.remain ≠ 0 →
        ∃ k' : Nat, k' ≤ k ∧ (k' : Int) ≤ r.remain
          ∧ r.Read c k
            = ({ r with frame := some (g.Read c k').1,
                        offset := r.offset + ((g.Read c k').2.1.length : Int),
                        remain := r.remain - ((g.Read c k').2.1.length : Int) },
                (g.Read c k').2.1, (g.Read c k').2.2)) := by
  refine ⟨?_, ?_, ?_⟩
  · intro h0
    unfold BlockReader.Read
    cases r.frame with
    | none => rfl
    | some g => simp [h0]
  · intro h0
    unfold BlockReader.Read
    rw [h0]
  · intro g hg h0
    unfold BlockReader.Read
    rw [hg]
    have hneg : ¬ (r.remain < (k : Int) ∧ r.remain < 0) := by omega
    simp only [h0, if_false, hneg]
    by_cases hlt : r.remain < (k : Int)
    · refine ⟨r.remain.toNat, by omega, by omega, ?_⟩
      simp only [hlt, if_true]
    · refine ⟨k, le_refl _, by omega, ?_⟩
      simp only [hlt, if_false]

theorem BlockReader.Read_step (c : Codec) (r : BlockReader) (k : Nat) (hL : 0 ≤ r.remain) :
    ((r.Read c k).2.1.length : Int) ≤ r.remain
    ∧ (r.Read c k).1.remain = r.remain - ((r.Read c k).2.1.length : Int)
    ∧ (r.Read c k).1.offset = r.offset + ((r.Read c k).2.1.length : Int) := by
  obtain ⟨h1, h2, h3⟩ := BlockReader.Read_spec c r k hL
  cases hf : r.frame with
  | none =>
    rw [h2 hf]
    simp only [List.length_nil, Nat.cast_zero, sub_zero, add_zero]
    exact ⟨hL, trivial, trivial⟩
  | some g =>
    by_cases h0 : r.remain = 0
    · rw [h1 h0]
      simp only [List.length_nil, Nat.cast_zero, sub_zero, add_zero]
      exact ⟨hL, trivial, trivial⟩
    · obtain ⟨k', hk1, hk2, he⟩ := h3 g hf h0
      rw [he]
      have := (GzipReader.Read_length c g k').1
      simp only
      exact ⟨by omega, trivial, trivial⟩

/-- C7: for every `BlockReader` with a budget `remain = L ≥ 0` and every
sequence of `Read` calls on it, a `Read` asks the frame for at most
`min(len(p), remain)` bytes, the bytes returned in total never exceed `L`,
`offset + remain` keeps its value, and with `remain = 0` a `Read` returns
no byte and `io.EOF` and leaves the reader, its frame included, as it was. -/
theorem BlockReader_reads_bounded (c : Codec) (r : BlockReader) (ks : List Nat)
    (hL : 0 ≤ r.remain) :
    ((((BlockReader.reads c r ks).2.map (fun o => o.1.length)).sum : Nat) : Int) ≤ r.remain
    ∧ (BlockReader.reads c r ks).1.remain
        = r.remain - ((((BlockReader.reads c r ks).2.map (fun o => o.1.length)).sum : Nat) : Int)
    ∧ (BlockReader.reads c r ks).1.offset + (BlockReader.reads c r ks).1.remain
        = r.offset + r.remain
    ∧ (∀ k : Nat, (BlockReader.reads c r ks).1.remain = 0 →
        (BlockReader.reads c r ks).1.Read c k
          = ((BlockReader.reads c r ks).1, [], some Err.eof))
    ∧ (∀ (k : Nat) (g : GzipReader), (BlockReader.reads c r ks).1.frame = some g →
        (BlockReader.reads c r ks).1.remain ≠ 0 →
        ∃ k' : Nat, k' ≤ k ∧ (k' : Int) ≤ (BlockReader.reads c r ks).1.remain
          ∧ (BlockReader.reads c r ks).1.Read c k
            = ({ (BlockReader.reads c r ks).1 with
                    frame := some (g.Read c k').1,
                    offset := (BlockReader.reads c r ks).1.offset
                      + ((g.Read c k').2.1.length : Int),
                    remain := (BlockReader.reads c r ks).1.remain
                      - ((g.Read c k').2.1.length : Int) },
                (g.Read c k').2.1, (g.Read c k').2.2)) := by
  induction ks generalizing r with
  | nil =>
    simp only [BlockReader.reads, List.map_nil, List.sum_nil, Nat.cast_zero, sub_zero]
    exact ⟨hL, trivial, trivial, fun k => (BlockReader.Read_spec c r k hL).1,
      fun k => (BlockReader.Read_spec c r k hL).2.2⟩
  | cons k ks ih =>
    obtain ⟨s1, s2, s3⟩ := BlockReader.Read_step c r k hL
    have hL1 : 0 ≤ (r.Read c k).1.remain := by omega
    obtain ⟨i1, i2, i3, i4, i5⟩ := ih (r.Read c k).1 hL1
    simp only [BlockReader.reads, List.map_cons, List.sum_cons]
    simp only [Nat.cast_add]
    refine ⟨?_, ?_, ?_, i4, i5⟩
    · linarith
    · linarith
    · linarith

theorem BlockReader_reads_bounded_witness :
    (0 : Int) ≤ (⟨some ⟨[1, 2, 3, 4, 5], Err.eof⟩, 0, 0, 3⟩ : BlockReader).remain
    ∧ ((((BlockReader.reads toyCodec ⟨some ⟨[1, 2, 3, 4, 5], Err.eof⟩, 0, 0, 3⟩
          [2, 2, 2]).2.map (fun o => o.1.length)).sum : Nat) : Int) ≤ 3 :=
  ⟨by decide, (BlockReader_reads_bounded toyCodec ⟨some ⟨[1, 2, 3, 4, 5], Err.eof⟩, 0, 0, 3⟩
    [2, 2, 2] (by decide)).1⟩

/-! ## `OpenBlock` with a reader to reuse -/

/-- `skip` for a positive count: it succeeds exactly when `skipOk` holds, and
then the stream has moved by `n` bytes. -/
theorem skip_spec (c : Codec) (fuel : Nat) :
    ∀ (g : GzipReader) (plen : Nat) (n : Int), 0 < plen → 0 < n → n.toNat ≤ fuel →
      (skipOk c g.rest n.toNat → skip c fuel g plen n = (⟨g.rest.drop n.toNat, g.tail⟩, none))
      ∧ (¬ skipOk c g.rest n.toNat → (skip c fuel g plen n).2 = some g.tail) := by
  induction fuel with
  | zero => intro g plen n _ h1 h2; omega
  | succ f ih =>
    intro g plen n hp hn hfuel
    obtain ⟨m, hm⟩ : ∃ m : Nat, n = (m : Int) := ⟨n.toNat, by omega⟩
    subst hm
    have hm0 : 0 < m := by omega
    simp only [Int.toNat_ofNat] at hfuel ⊢
    cases g with
    | mk rest tail =>
      simp only
      -- the length of `p` in this round
      have hplen : (if (m : Int) < (plen : Int) then ((m : Int)).toNat else plen) = min m plen := by
        by_cases h : (m : Int) < (plen : Int)
        · rw [if_pos h, Int.toNat_ofNat]; omega
        · rw [if_neg h]; omega
      by_cases hrest : rest = []
      · -- nothing left: the read fails
        subst hrest
        have hno : ¬ skipOk c [] m := by
          unfold skipOk
          simp only [List.length_nil]
          omega
        refine ⟨fun h => absurd h hno, fun _ => ?_⟩
        simp [skip, hn, GzipReader.Read]
      · have hlen : 0 < rest.length := List.length_pos.mpr hrest
        -- the bytes this round delivers
        have hk0 : ¬ (min m plen = 0) := by omega
        by_cases hend : c.eager = true ∧ rest.drop (min (min m plen) (min (c.burst + 1) rest.length)) = []
        · -- the read reports the end of the stream
          have hall : rest.length ≤ min (min m plen) (min (c.burst + 1) rest.length) :=
            List.drop_eq_nil_iff.mp hend.2
          have hno : ¬ skipOk c rest m := by
            unfold skipOk
            rw [hend.1]
            simp only [Bool.true_eq_false, and_false, or_false]
            omega
          refine ⟨fun h => absurd h hno, fun _ => ?_⟩
          simp only [skip, hn, if_true, hplen, GzipReader.Read, hrest, if_false, hk0, hend,
            and_self]
        · -- the read delivers `d` bytes without error
          have hstep : skip c (f + 1) ⟨rest, tail⟩ plen (m : Int)
              = skip c f ⟨rest.drop (min (min m plen) (min (c.burst + 1) rest.length)), tail⟩
                  (min m plen)
                  ((m : Int) - ((min (min m plen) (min (c.burst + 1) rest.length) : Nat) : Int)) := by
            have e : (List.take (min (min m plen) (min (c.burst + 1) rest.length)) rest).length
                = min (min m plen) (min (c.burst + 1) rest.length) := by
              rw [List.length_take]; omega
            simp only [skip, hn, if_true, hplen, GzipReader.Read, hrest, if_false, hk0, hend, e]
          rw [hstep]
          generalize hd : min (min m plen) (min (c.burst + 1) rest.length) = d at hend ⊢
          have hd1 : 0 < d := by omega
          have hd2 : d ≤ m := by omega
          have hd3 : d ≤ rest.length := by omega
          by_cases hdone : m = d
          · -- the count is reached
            subst hdone
            have hz : ((m : Int) - (m : Int)) = 0 := by omega
            rw [hz]
            have hs0 : ∀ g p, skip c f g p 0 = (g, none) := by
              intro g p
              cases f <;> simp [skip]
            rw [hs0]
            refine ⟨fun _ => rfl, fun hno => ?_⟩
            exfalso
            apply hno
            unfold skipOk
            by_cases hlt : m < rest.length
            · exact Or.inl hlt
            · right
              have hm_eq : m = rest.length := by omega
              refine ⟨hm_eq, ?_⟩
              by_contra he
              apply hend
              refine ⟨by simpa using he, ?_⟩
              rw [hm_eq]
              exact List.drop_length _
          · have hpos : (0 : Int) < (m : Int) - (d : Int) := by omega
            have hnat : ((m : Int) - (d : Int)).toNat = m - d := by omega
            obtain ⟨i1, i2⟩ := ih ⟨rest.drop d, tail⟩ (min m plen) ((m : Int) - (d : Int))
              (by omega) hpos (by omega)
            simp only [hnat, List.drop_drop, List.length_drop] at i1 i2
            have hiff : skipOk c (rest.drop d) (m - d) ↔ skipOk c rest m := by
              unfold skipOk
              rw [List.length_drop]
              constructor
              · rintro (h | ⟨h, he⟩)
                · left; omega
                · right; exact ⟨by omega, he⟩
              · rintro (h | ⟨h, he⟩)
                · left; omega
                · right; exact ⟨by omega, he⟩
            have hsum : m - d + d = m := by omega
            refine ⟨fun h => ?_, fun h => ?_⟩
            · have := i1 (hiff.mpr h)
              rw [this]
              have e2 : d + (m - d) = m := by omega
              simp only [e2, hsum]
            · exact i2 (fun h' => h (hiff.mp h'))

/-- When the fresh path of `OpenBlock` succeeds, and what it returns. -/
theorem openFresh_ok (c : Codec) (r : Reader) (i : Int) (e : blockEntry) (off len : Int)
    (arg : Option BlockReader) (b : BlockReader)
    (h : (Reader.openFresh c r i e off len arg).ret = .ok b) :
    ∃ content tail, openSection c r.rat off len = .ok ⟨content, tail⟩
      ∧ (e.Offset ≤ 0 ∨ skipOk c content e.Offset.toNat)
      ∧ b = openedAt content tail i e := by
  unfold Reader.openFresh at h
  cases ho : openSection c r.rat off len with
  | error err => rw [ho] at h; cases h
  | ok g =>
    cases g with
    | mk content tail =>
      rw [ho] at h
      simp only at h
      refine ⟨content, tail, rfl, ?_⟩
      by_cases hpos : e.Offset > 0
      · rw [if_pos hpos] at h
        obtain ⟨s1, s2⟩ := skip_spec c e.Offset.toNat ⟨content, tail⟩ 256 e.Offset (by decide)
          hpos (le_refl _)
        by_cases hok : skipOk c content e.Offset.toNat
        · rw [s1 hok] at h
          refine ⟨Or.inr hok, ?_⟩
          cases arg <;> simp only [Except.ok.injEq] at h <;> exact h.symm
        · have hfail := s2 hok
          cases hsk : skip c e.Offset.toNat ⟨content, tail⟩ 256 e.Offset with
          | mk g' err =>
            rw [hsk] at h hfail
            simp only at hfail
            subst hfail
            cases h
      · rw [if_neg hpos] at h
        have hz : e.Offset.toNat = 0 := by omega
        refine ⟨Or.inl (by omega), ?_⟩
        unfold openedAt
        rw [hz, List.drop_zero]
        cases arg <;> simp only [Except.ok.injEq] at h <;> exact h.symm

/-- The fresh path of `OpenBlock` on a frame that opens and a block whose
offset the stream can reach. -/
theorem openFresh_eq (c : Codec) (r : Reader) (i : Int) (e : blockEntry) (off len : Int)
    (arg : Option BlockReader) (content : List Byte) (tail : Err)
    (ho : openSection c r.rat off len = .ok ⟨content, tail⟩)
    (hs : e.Offset ≤ 0 ∨ skipOk c content e.Offset.toNat) :
    Reader.openFresh c r i e off len arg
      = ⟨.ok (openedAt content tail i e), arg.map (fun _ => openedAt content tail i e)⟩ := by
  unfold Reader.openFresh
  rw [ho]
  simp only
  by_cases hpos : e.Offset > 0
  · rw [if_pos hpos]
    obtain ⟨s1, -⟩ := skip_spec c e.Offset.toNat ⟨content, tail⟩ 256 e.Offset (by decide)
      hpos (le_refl _)
    have hok : skipOk c content e.Offset.toNat := by
      rcases hs with h | h
      · omega
      · exact h
    rw [s1 hok]
    cases arg <;> rfl
  · rw [if_neg hpos]
    have hz : e.Offset.toNat = 0 := by omega
    unfold openedAt
    rw [hz, List.drop_zero]
    cases arg <;> rfl

/-- `OpenBlock(i, nil)` is the fresh path on what `find` returns. -/
theorem OpenBlock_none (c : Codec) (r : Reader) (i : Int) (b : BlockReader)
    (h : (r.OpenBlock c i none).ret = .ok b) :
    ∃ e off len content tail, r.find i = .ok (some (e, off, len))
      ∧ openSection c r.rat off len = .ok ⟨content, tail⟩
      ∧ (e.Offset ≤ 0 ∨ skipOk c content e.Offset.toNat)
      ∧ b = openedAt content tail i e := by
  unfold Reader.OpenBlock at h
  cases hf : r.find i with
  | error err => rw [hf] at h; cases h
  | ok o =>
    cases o with
    | none => rw [hf] at h; cases h
    | some t =>
      obtain ⟨e, off, len⟩ := t
      rw [hf] at h
      simp only at h
      obtain ⟨content, tail, h1, h2, h3⟩ := openFresh_ok c r i e off len none b h
      exact ⟨e, off, len, content, tail, rfl, h1, h2, h3⟩

theorem find_mem (r : Reader) (j : Int) (e : blockEntry) (off len : Int)
    (h : r.find j = .ok (some (e, off, len))) : e ∈ r.blockTable := by
  obtain ⟨-, hget, -⟩ := find_some r j e off len h
  exact List.mem_iff_get?.mpr ⟨_, hget⟩

theorem Tracks_openedAt (c : Codec) (r : Reader) (i : Int) (e : blockEntry) (off len : Int)
    (content : List Byte) (tail : Err)
    (hf : r.find i = .ok (some (e, off, len)))
    (ho : openSection c r.rat off len = .ok ⟨content, tail⟩)
    (hs : e.Offset.toNat ≤ content.length) (h0 : 0 ≤ e.Offset) :
    Reader.Tracks c r (openedAt content tail i e) := by
  intro g hg
  simp only [openedAt, Option.some.injEq] at hg
  subst hg
  exact ⟨e, off, len, content, hf, ho, h0, hs, rfl⟩

theorem skipOk_le (c : Codec) (content : List Byte) (n : Nat) (h : skipOk c content n) :
    n ≤ content.length := by
  unfold skipOk at h
  omega

theorem Tracks_Read (c : Codec) (r : Reader) (b : BlockReader) (k : Nat)
    (h : Reader.Tracks c r b) : Reader.Tracks c r (b.Read c k).1 := by
  unfold BlockReader.Read
  cases hf : b.frame with
  | none => simpa using h
  | some g =>
    simp only
    by_cases h0 : b.remain = 0
    · rw [if_pos h0]; exact h
    · rw [if_neg h0]
      by_cases h1 : b.remain < (k : Int) ∧ b.remain < 0
      · rw [if_pos h1]; exact h
      · rw [if_neg h1]
        obtain ⟨e, off, len, content, t1, t2, t3, t4, t5⟩ := h g hf
        generalize (if b.remain < (k : Int) then b.remain.toNat else k) = k'
        obtain ⟨r1, r2, r3⟩ := GzipReader.Read_length c g k'
        cases hr : g.Read c k' with
        | mk g1 pe =>
          cases pe with
          | mk p err =>
            rw [hr] at r1 r2 r3
            simp only at r1 r2 r3 ⊢
            intro g' hg'
            simp only [Option.some.injEq] at hg'
            subst hg'
            have hle : p.length ≤ g.rest.length := by
              have := congrArg List.length r2
              rw [List.length_take] at this
              omega
            rw [t5, List.length_drop] at hle
            subst r3
            refine ⟨e, off, len, content, t1, t2, ?_, ?_, ?_⟩
            · show 0 ≤ b.offset + (p.length : Int)
              omega
            · show (b.offset + (p.length : Int)).toNat ≤ content.length
              omega
            show List.drop p.length g.rest = List.drop (b.offset + (p.length : Int)).toNat content
            rw [t5, List.drop_drop]
            congr 1
            omega

/-- `OpenBlock(i, br)` for a `br` without a frame: the fresh path. -/
theorem OpenBlock_closed (c : Codec) (r : Reader) (i : Int) (b0 : BlockReader)
    (e : blockEntry) (off len : Int)
    (hf : r.find i = .ok (some (e, off, len))) (hfr : b0.frame = none) :
    r.OpenBlock c i (some b0) = Reader.openFresh c r i e off len (some b0) := by
  unfold Reader.OpenBlock
  rw [hf]
  simp only [hfr]

/-- `OpenBlock(i, br)` for a `br` with a frame, on a block of another frame
or at a position the frame has passed: the fresh path, `br` closed. -/
theorem OpenBlock_other (c : Codec) (r : Reader) (i : Int) (b0 : BlockReader) (g : GzipReader)
    (e e' : blockEntry) (off len off' len' : Int)
    (hf : r.find i = .ok (some (e, off, len))) (hfr : b0.frame = some g)
    (hfb : r.find b0.index = .ok (some (e', off', len')))
    (hne : ¬ (e'.Frame = e.Frame ∧ wrap64 (e.Offset - b0.offset) ≥ 0)) :
    r.OpenBlock c i (some b0)
      = Reader.openFresh c r i e off len (some { b0 with frame := none }) := by
  unfold Reader.OpenBlock
  rw [hf]
  simp only [hfr, hfb]
  by_cases h1 : e'.Frame = e.Frame
  · have h2 : ¬ (wrap64 (e.Offset - b0.offset) ≥ 0) := fun h => hne ⟨h1, h⟩
    simp only [h1, if_true, h2, if_false]
  · simp only [h1, if_false]

/-- `OpenBlock(i, br)` for a `br` whose frame stands exactly at the block. -/
theorem OpenBlock_here (c : Codec) (r : Reader) (i : Int) (b0 : BlockReader) (g : GzipReader)
    (e e' : blockEntry) (off len off' len' : Int)
    (hf : r.find i = .ok (some (e, off, len))) (hfr : b0.frame = some g)
    (hfb : r.find b0.index = .ok (some (e', off', len')))
    (h1 : e'.Frame = e.Frame) (h2 : wrap64 (e.Offset - b0.offset) = 0) :
    r.OpenBlock c i (some b0)
      = ⟨.ok ⟨some g, i, e.Offset, e.Length⟩, some ⟨some g, i, e.Offset, e.Length⟩⟩ := by
  unfold Reader.OpenBlock
  rw [hf]
  simp only [hfr, hfb, h1, h2, if_true, ge_iff_le, le_refl, gt_iff_lt, lt_self_iff_false,
    if_false]

/-- `OpenBlock(i, br)` for a `br` whose frame stands before the block: the
frame is skipped forward. -/
theorem OpenBlock_ahead (c : Codec) (r : Reader) (i : Int) (b0 : BlockReader) (g : GzipReader)
    (e e' : blockEntry) (off len off' len' : Int)
    (hf : r.find i = .ok (some (e, off, len))) (hfr : b0.frame = some g)
    (hfb : r.find b0.index = .ok (some (e', off', len')))
    (h1 : e'.Frame = e.Frame) (h2 : wrap64 (e.Offset - b0.offset) > 0) :
    (skipOk c g.rest (wrap64 (e.Offset - b0.offset)).toNat →
      r.OpenBlock c i (some b0)
        = ⟨.ok ⟨some ⟨g.rest.drop (wrap64 (e.Offset - b0.offset)).toNat, g.tail⟩, i, e.Offset,
              e.Length⟩,
            some ⟨some ⟨g.rest.drop (wrap64 (e.Offset - b0.offset)).toNat, g.tail⟩, i, e.Offset,
              e.Length⟩⟩)
    ∧ (¬ skipOk c g.rest (wrap64 (e.Offset - b0.offset)).toNat →
        ∀ b, (r.OpenBlock c i (some b0)).ret ≠ .ok b) := by
  obtain ⟨s1, s2⟩ := skip_spec c (wrap64 (e.Offset - b0.offset)).toNat g 256
    (wrap64 (e.Offset - b0.offset)) (by decide) h2 (le_refl _)
  have h3 : wrap64 (e.Offset - b0.offset) ≥ 0 := le_of_lt h2
  constructor
  · intro hok
    unfold Reader.OpenBlock
    rw [hf]
    simp only [hfr, hfb, h1, h2, h3, if_true, s1 hok]
  · intro hno b
    have hfail := s2 hno
    unfold Reader.OpenBlock
    rw [hf]
    simp only [hfr, hfb, h1, h2, h3, if_true]
    cases hsk : skip c (wrap64 (e.Offset - b0.offset)).toNat g 256 (wrap64 (e.Offset - b0.offset)) with
    | mk g' err =>
      rw [hsk] at hfail
      simp only at hfail
      subst hfail
      simp

theorem OpenBlock_find_ok (c : Codec) (r : Reader) (i : Int) (br : Option BlockReader)
    (b : BlockReader) (h : (r.OpenBlock c i br).ret = .ok b) :
    ∃ e off len, r.find i = .ok (some (e, off, len)) := by
  unfold Reader.OpenBlock at h
  cases hf : r.find i with
  | error err => rw [hf] at h; cases h
  | ok o =>
    cases o with
    | none => rw [hf] at h; cases h
    | some t => exact ⟨t.1, t.2.1, t.2.2, rfl⟩

theorem find_same_frame (r : Reader) (i j : Int) (e e' : blockEntry) (off len off' len' : Int)
    (hf : r.find i = .ok (some (e, off, len))) (hfb : r.find j = .ok (some (e', off', len')))
    (h : e'.Frame = e.Frame) : off' = off ∧ len' = len := by
  obtain ⟨-, -, -, -, h1, h2⟩ := find_some r i e off len hf
  obtain ⟨-, -, -, -, h3, h4⟩ := find_some r j e' off' len' hfb
  rw [h] at h3 h4
  exact ⟨h3.trans h1.symm, h4.trans h2.symm⟩

theorem Tracks_OpenBlock (c : Codec) (r : Reader) (hr : r.Plain c) (i : Int)
    (b0 b : BlockReader) (ht : Reader.Tracks c r b0)
    (h : (r.OpenBlock c i (some b0)).ret = .ok b) : Reader.Tracks c r b := by
  obtain ⟨e, off, len, hf⟩ := OpenBlock_find_ok c r i _ b h
  obtain ⟨h0, h63⟩ := hr.offsets e (find_mem r i e off len hf)
  have fresh : ∀ arg, (Reader.openFresh c r i e off len arg).ret = .ok b →
      Reader.Tracks c r b := by
    intro arg ha
    obtain ⟨content, tail, ho, hs, rfl⟩ := openFresh_ok c r i e off len arg b ha
    refine Tracks_openedAt c r i e off len content tail hf ho ?_ h0
    rcases hs with hs | hs
    · omega
    · exact skipOk_le c content _ hs
  cases hfr : b0.frame with
  | none =>
    rw [OpenBlock_closed c r i b0 e off len hf hfr] at h
    exact fresh _ h
  | some g =>
    obtain ⟨e', off', len', content, t1, t2, t3, t4, t5⟩ := ht g hfr
    by_cases hc : e'.Frame = e.Frame ∧ wrap64 (e.Offset - b0.offset) ≥ 0
    · obtain ⟨hsame, hn⟩ := hc
      obtain ⟨rfl, rfl⟩ := find_same_frame r i b0.index e e' off len off' len' hf t1 hsame
      have hlen := hr.short _ _ _ t2
      simp only at hlen
      have hw : wrap64 (e.Offset - b0.offset) = e.Offset - b0.offset :=
        wrap64_eq _ (by omega) (by omega)
      rw [hw] at hn
      by_cases hz : e.Offset - b0.offset = 0
      · rw [OpenBlock_here c r i b0 g e e' _ _ _ _ hf hfr t1 hsame (by rw [hw]; exact hz)] at h
        simp only [Except.ok.injEq] at h
        subst h
        intro g2 hg2
        simp only [Option.some.injEq] at hg2
        subst hg2
        have hq : e.Offset = b0.offset := by omega
        exact ⟨e, _, _, content, hf, t2, h0, by simp only; rw [hq]; exact t4,
          by simp only; rw [hq]; exact t5⟩
      · have hpos : wrap64 (e.Offset - b0.offset) > 0 := by rw [hw]; omega
        obtain ⟨a1, a2⟩ := OpenBlock_ahead c r i b0 g e e' _ _ _ _ hf hfr t1 hsame hpos
        by_cases hok : skipOk c g.rest (wrap64 (e.Offset - b0.offset)).toNat
        · rw [a1 hok] at h
          simp only [Except.ok.injEq] at h
          subst h
          have hle := skipOk_le c _ _ hok
          rw [hw, t5, List.length_drop] at hle
          intro g2 hg2
          simp only [Option.some.injEq] at hg2
          subst hg2
          refine ⟨e, _, _, content, hf, t2, h0, by simp only; omega, ?_⟩
          simp only
          rw [hw, t5, List.drop_drop]
          congr 1
          omega
        · exact absurd h (a2 hok b)
    · rw [OpenBlock_other c r i b0 g e e' off len off' len' hf hfr t1 hc] at h
      exact fresh _ h

/-- Every reachable `BlockReader` tracks its frame. -/
theorem Tracks_of_Reaches (c : Codec) (r : Reader) (hr : r.Plain c) (b : BlockReader)
    (h : Reader.Reaches c r b) : Reader.Tracks c r b := by
  induction h with
  | opened i b hb =>
    obtain ⟨e, off, len, content, tail, hf, ho, hs, rfl⟩ := OpenBlock_none c r i b hb
    obtain ⟨h0, -⟩ := hr.offsets e (find_mem r i e off len hf)
    refine Tracks_openedAt c r i e off len content tail hf ho ?_ h0
    rcases hs with hs | hs
    · omega
    · exact skipOk_le c content _ hs
  | reopened i b0 b _ hb ih => exact Tracks_OpenBlock c r hr i b0 b ih hb
  | read b k _ ih => exact Tracks_Read c r b k ih
  | closed b _ _ =>
    intro g hg
    simp [BlockReader.Close] at hg

/-- Reuse on a tracking reader gives what the fresh open gives. -/
theorem OpenBlock_reuse_of_Tracks (c : Codec) (r : Reader) (hr : r.Plain c) (i : Int)
    (b0 fresh : BlockReader) (ht : Reader.Tracks c r b0)
    (hfresh : (r.OpenBlock c i none).ret = .ok fresh) :
    r.OpenBlock c i (some b0) = ⟨.ok fresh, some fresh⟩ := by
  obtain ⟨e, off, len, content, tail, hf, ho, hs, rfl⟩ := OpenBlock_none c r i fresh hfresh
  obtain ⟨h0, h63⟩ := hr.offsets e (find_mem r i e off len hf)
  cases hfr : b0.frame with
  | none =>
    rw [OpenBlock_closed c r i b0 e off len hf hfr, openFresh_eq c r i e off len _ content tail ho hs]
    rfl
  | some g =>
    obtain ⟨e', off', len', content', t1, t2, t3, t4, t5⟩ := ht g hfr
    by_cases hc : e'.Frame = e.Frame ∧ wrap64 (e.Offset - b0.offset) ≥ 0
    · obtain ⟨hsame, hn⟩ := hc
      obtain ⟨rfl, rfl⟩ := find_same_frame r i b0.index e e' off len off' len' hf t1 hsame
      rw [ho] at t2
      simp only [Except.ok.injEq, GzipReader.mk.injEq] at t2
      obtain ⟨rfl, htail⟩ := t2
      have hlen := hr.short _ _ _ ho
      simp only at hlen
      have hw : wrap64 (e.Offset - b0.offset) = e.Offset - b0.offset :=
        wrap64_eq _ (by omega) (by omega)
      rw [hw] at hn
      have hg : g = ⟨content.drop b0.offset.toNat, tail⟩ := by
        cases g with
        | mk rest tl =>
          simp only at t5 htail
          rw [t5, htail]
      by_cases hz : e.Offset - b0.offset = 0
      · rw [OpenBlock_here c r i b0 g e e' _ _ _ _ hf hfr t1 hsame (by rw [hw]; exact hz)]
        have hq : b0.offset = e.Offset := by omega
        rw [hg, hq]
        rfl
      · have hpos : wrap64 (e.Offset - b0.offset) > 0 := by rw [hw]; omega
        obtain ⟨a1, -⟩ := OpenBlock_ahead c r i b0 g e e' _ _ _ _ hf hfr t1 hsame hpos
        have hok : skipOk c g.rest (wrap64 (e.Offset - b0.offset)).toNat := by
          rw [hw, t5]
          have hs' : skipOk c content e.Offset.toNat := by
            rcases hs with hs | hs
            · omega
            · exact hs
          unfold skipOk at hs' ⊢
          rw [List.length_drop]
          rcases hs' with h | ⟨h, he⟩
          · left; omega
          · right; exact ⟨by omega, he⟩
        rw [a1 hok, hw, t5, List.drop_drop, htail]
        have e1 : b0.offset.toNat + (e.Offset - b0.offset).toNat = e.Offset.toNat := by omega
        rw [e1]
        rfl
    · rw [OpenBlock_other c r i b0 g e e' off len off' len' hf hfr t1 hc,
        openFresh_eq c r i e off len _ content tail ho hs]
      rfl

set_option maxRecDepth 100000 in
/-- C6, counterexample, in two parts.

(1) `NewReader` accepts a file whose index records block 0 at offset -2.
`OpenBlock(0, nil)` on it returns a reader at position 0 of the frame with
`offset = -2`; after one `Read` of one byte that reader stands at position 1
with `offset = -1`.  `OpenBlock(1, br)` for block 1 (offset 0) then skips
`0 - (-1) = 1` byte and returns a reader that stands at position 2 and reads
"cd", while `OpenBlock(1, nil)` stands at position 0 and reads "ab".

(2) `NewReader` accepts a file whose second frame is not a gzip stream.
With `br` obtained from block 0, `OpenBlock(1, br)` for the valid index 1
returns the codec's error and no reader. -/
theorem OpenBlock_reuse_counterexample :
    (NewReader negativeOffsetFile negativeOffsetFile.length = .ok negativeOffsetReader
      ∧ (negativeOffsetReader.OpenBlock toyCodec 0 none).ret
          = .ok ⟨some ⟨[97, 98, 99, 100, 101, 102, 103, 104], Err.eof⟩, 0, -2, 4⟩
      ∧ ((⟨some ⟨[97, 98, 99, 100, 101, 102, 103, 104], Err.eof⟩, 0, -2, 4⟩ : BlockReader).Read
            toyCodec 1).1
          = ⟨some ⟨[98, 99, 100, 101, 102, 103, 104], Err.eof⟩, 0, -1, 3⟩
      ∧ (negativeOffsetReader.OpenBlock toyCodec 1
            (some ⟨some ⟨[98, 99, 100, 101, 102, 103, 104], Err.eof⟩, 0, -1, 3⟩)).ret
          = .ok ⟨some ⟨[99, 100, 101, 102, 103, 104], Err.eof⟩, 1, 0, 2⟩
      ∧ (negativeOffsetReader.OpenBlock toyCodec 1 none).ret
          = .ok ⟨some ⟨[97, 98, 99, 100, 101, 102, 103, 104], Err.eof⟩, 1, 0, 2⟩
      ∧ BlockReader.ReadAll toyCodec 511 3
            ⟨some ⟨[99, 100, 101, 102, 103, 104], Err.eof⟩, 1, 0, 2⟩
          = some ([99, 100], none)
      ∧ BlockReader.ReadAll toyCodec 511 3
            ⟨some ⟨[97, 98, 99, 100, 101, 102, 103, 104], Err.eof⟩, 1, 0, 2⟩
          = some ([97, 98], none))
    ∧ (NewReader brokenFrameFile brokenFrameFile.length = .ok brokenFrameReader
      ∧ (brokenFrameReader.OpenBlock toyCodec 0 none).ret
          = .ok ⟨some ⟨[97, 98], Err.eof⟩, 0, 0, 2⟩
      ∧ (brokenFrameReader.OpenBlock toyCodec 1 (some ⟨some ⟨[97, 98], Err.eof⟩, 0, 0, 2⟩)).ret
          = .error Err.io) := by
  refine ⟨⟨by decide, by decide, by decide, by decide, by decide, by decide, by decide⟩,
    ⟨by decide, by decide, by decide⟩⟩

/-- C6, as the code has it: for every `Reader` whose block offsets are not
negative (and, like its frames' decompressed sizes, below 2^63), every
`BlockReader` `br` obtained earlier from it, in any state, and every block
index `i` that `OpenBlock(i, nil)` opens, `OpenBlock(i, br)` returns the
same reader as `OpenBlock(i, nil)` and leaves it in `br`: index `i`, offset
and budget of block `i`, and the stream of block `i`'s frame at the
decompressed position `block.Offset`; so reading it gives the same bytes. -/
theorem OpenBlock_reuse (c : Codec) (r : Reader) (i : Int) (br fresh : BlockReader)
    (hoff : ∀ e ∈ r.blockTable, 0 ≤ e.Offset ∧ e.Offset < 2 ^ 63)
    (hshort : ∀ off len g, openSection c r.rat off len = .ok g →
      (g.rest.length : Int) < 2 ^ 63)
    (hbr : Reader.Reaches c r br)
    (hfresh : (r.OpenBlock c i none).ret = .ok fresh) :
    r.OpenBlock c i (some br) = ⟨.ok fresh, some fresh⟩
    ∧ (∃ e off len content tail,
        r.find i = .ok (some (e, off, len))
        ∧ openSection c r.rat off len = .ok ⟨content, tail⟩
        ∧ fresh = ⟨some ⟨content.drop e.Offset.toNat, tail⟩, i, e.Offset, e.Length⟩)
    ∧ (∀ (k fuel : Nat) (b : BlockReader), (r.OpenBlock c i (some br)).ret = .ok b →
        BlockReader.ReadAll c k fuel b = BlockReader.ReadAll c k fuel fresh) := by
  have hr : r.Plain c := ⟨hoff, hshort⟩
  have h1 := OpenBlock_reuse_of_Tracks c r hr i br fresh (Tracks_of_Reaches c r hr br hbr) hfresh
  refine ⟨h1, ?_, ?_⟩
  · obtain ⟨e, off, len, content, tail, hf, ho, -, hb⟩ := OpenBlock_none c r i fresh hfresh
    exact ⟨e, off, len, content, tail, hf, ho, hb⟩
  · intro k fuel b hb
    rw [h1] at hb
    simp only [Except.ok.injEq] at hb
    rw [hb]

theorem toyCodec_short (rat : List Byte) (off len : Int) (g : GzipReader)
    (h : openSection toyCodec rat off len = .ok g) : g.rest.length ≤ rat.length := by
  unfold openSection at h
  by_cases h1 : off < 0 ∧ 0 < len
  · rw [if_pos h1] at h; cases h
  · rw [if_neg h1] at h
    have hs : (SectionReader rat off len).length ≤ rat.length := by
      unfold SectionReader
      rw [List.length_take, List.length_drop]
      omega
    simp only [toyCodec] at h
    by_cases h2 : (SectionReader rat off len).length < 18
    · rw [if_pos h2] at h; cases h
    · rw [if_neg h2] at h
      simp only [Except.ok.injEq] at h
      subst h
      simp only [List.length_take, List.length_drop]
      omega

set_option maxRecDepth 100000 in
theorem OpenBlock_reuse_witness :
    (smallReader.OpenBlock toyCodec 0 none).ret
        = .ok ⟨some ⟨[97, 98, 99, 10, 10, 100, 101, 10, 10, 102], Err.eof⟩, 0, 0, 3⟩
    ∧ (smallReader.OpenBlock toyCodec 2 none).ret = .ok ⟨some ⟨[102], Err.eof⟩, 2, 9, 1⟩
    ∧ smallReader.OpenBlock toyCodec 2
        (some ⟨some ⟨[97, 98, 99, 10, 10, 100, 101, 10, 10, 102], Err.eof⟩, 0, 0, 3⟩)
        = ⟨.ok ⟨some ⟨[102], Err.eof⟩, 2, 9, 1⟩, some ⟨some ⟨[102], Err.eof⟩, 2, 9, 1⟩⟩ :=
  ⟨by decide, by decide,
    (OpenBlock_reuse toyCodec smallReader 2
      ⟨some ⟨[97, 98, 99, 10, 10, 100, 101, 10, 10, 102], Err.eof⟩, 0, 0, 3⟩
      ⟨some ⟨[102], Err.eof⟩, 2, 9, 1⟩
      (by decide)
      (fun off len g h =>
        lt_of_le_of_lt (Int.ofNat_le.mpr (toyCodec_short _ off len g h)) (by decide))
      (Reader.Reaches.opened 0 _ (by decide))
      (by decide)).1⟩

/-! ## The round trip -/

/-- Reading a `BlockReader` on a well-formed stream to the end gives the
first `remain` bytes of the stream. -/
theorem ReadAll_spec (c : Codec) (k : Nat) (fuel : Nat) :
    ∀ (rest : List Byte) (idx off : Int) (L : Nat), L ≤ rest.length → L < fuel →
      BlockReader.ReadAll c k fuel ⟨some ⟨rest, Err.eof⟩, idx, off, (L : Int)⟩
        = some (rest.take L, none) := by
  induction fuel with
  | zero => intro _ _ _ L _ h; omega
  | succ f ih =>
    intro rest idx off L hL hf
    by_cases h0 : L = 0
    · subst h0
      simp [BlockReader.ReadAll, BlockReader.Read]
    · have hrest : rest ≠ [] := by
        intro h
        rw [h] at hL
        simp only [List.length_nil] at hL
        omega
      have hrem : ¬ ((L : Int) = 0) := by omega
      have hneg : ¬ ((L : Int) < ((k + 1 : Nat) : Int) ∧ (L : Int) < 0) := by omega
      have hk : (if (L : Int) < ((k + 1 : Nat) : Int) then ((L : Int)).toNat else k + 1)
          = min L (k + 1) := by
        by_cases h : (L : Int) < ((k + 1 : Nat) : Int)
        · rw [if_pos h, Int.toNat_ofNat]; omega
        · rw [if_neg h]; omega
      have hk0 : ¬ (min L (k + 1) = 0) := by omega
      generalize hd : min (min L (k + 1)) (min (c.burst + 1) rest.length) = d
      have hd1 : 0 < d := by
        have := List.length_pos.mpr hrest
        omega
      have hd2 : d ≤ L := by omega
      have hd3 : d ≤ rest.length := by omega
      have hlt : (List.take d rest).length = d := by
        rw [List.length_take]; omega
      have hread : (⟨some ⟨rest, Err.eof⟩, idx, off, (L : Int)⟩ : BlockReader).Read c (k + 1)
          = (⟨some ⟨rest.drop d, Err.eof⟩, idx, off + (d : Int), (L : Int) - (d : Int)⟩,
              rest.take d,
              if c.eager = true ∧ rest.drop d = [] then some Err.eof else none) := by
        simp only [BlockReader.Read, hrem, if_false, hneg, hk, GzipReader.Read, hrest, hk0, hd,
          hlt]
      unfold BlockReader.ReadAll
      rw [hread]
      by_cases hend : c.eager = true ∧ rest.drop d = []
      · rw [if_pos hend]
        have hall : rest.length ≤ d := List.drop_eq_nil_iff.mp hend.2
        have hdL : d = L := by omega
        simp only [hdL]
      · rw [if_neg hend]
        have hcast : (L : Int) - (d : Int) = ((L - d : Nat) : Int) := by omega
        simp only [hcast]
        rw [ih (rest.drop d) idx (off + (d : Int)) (L - d)
          (by rw [List.length_drop]; omega) (by omega)]
        simp only [Option.some.injEq, Prod.mk.injEq, and_true]
        have hsplit : L = d + (L - d) := by omega
        conv_rhs => rw [hsplit]
        rw [List.take_add]

theorem Forall₂_mem_left {α β : Type} (R : α → β → Prop) :
    ∀ (l1 : List α) (l2 : List β), List.Forall₂ R l1 l2 → ∀ a ∈ l1, ∃ b ∈ l2, R a b := by
  intro l1 l2 h
  induction h with
  | nil => intro a ha; cases ha
  | cons hab _ ih =>
    intro a ha
    rcases List.mem_cons.mp ha with rfl | ha
    · exact ⟨_, List.mem_cons_self _ _, hab⟩
    · obtain ⟨b, hb, hr⟩ := ih a ha
      exact ⟨b, List.mem_cons_of_mem _ hb, hr⟩

theorem length_le_intercalate (sep : List Byte) (bs : List (List Byte))
    (hne : ∀ b ∈ bs, b ≠ []) : bs.length ≤ (List.intercalate sep bs).length := by
  induction bs with
  | nil => simp
  | cons b bs ih =>
    have hb : 0 < b.length := List.length_pos.mpr (hne b (List.mem_cons_self _ _))
    have ih' := ih (fun x hx => hne x (List.mem_cons_of_mem _ hx))
    cases bs with
    | nil =>
      simp only [List.intercalate, List.intersperse, List.flatten_cons, List.flatten_nil,
        List.append_nil, List.length_singleton]
      omega
    | cons b2 rest =>
      simp only [List.intercalate, List.intersperse, List.flatten_cons, List.length_append,
        List.length_cons] at ih' ⊢
      omega

theorem getD_length_le_flatten (fs : List (List Byte)) (i : Nat) :
    (fs.getD i []).length ≤ fs.flatten.length := by
  by_cases hi : i < fs.length
  · rw [List.getD_eq_getElem _ _ hi]
    exact (List.sublist_flatten_of_mem (List.getElem_mem hi)).length_le
  · rw [List.getD_eq_default _ _ (by omega)]
    simp

theorem AppendUvarint_ne_nil (fuel x : Nat) : AppendUvarint fuel x ≠ [] := by
  cases fuel with
  | zero => simp [AppendUvarint]
  | succ f =>
    unfold AppendUvarint
    by_cases h : x ≥ 0x80
    · rw [if_pos h]; simp
    · rw [if_neg h]; simp

theorem indexBlob_ne_nil (ft : List Int) (bt : List blockEntry) : indexBlob ft bt ≠ [] := by
  rw [indexBlob_eq]
  intro h
  have := (List.append_eq_nil.mp h).1
  exact AppendUvarint_ne_nil _ _ this

/-- The tables of an archive hold `int64` values, when the archive and the
joined blocks are shorter than 2^63 bytes. -/
theorem Closed_int64 (c : Codec) (w : Writer) (bs : List (List Byte))
    (h : w.Closed c [] bs) (hne : ∀ b ∈ bs, b ≠ [])
    (hsize : ((w.base.data.length : Nat) : Int) < 2 ^ 63)
    (husize : (((List.intercalate block_sep bs).length : Nat) : Int) < 2 ^ 63) :
    (∀ v ∈ w.frameTable, isInt64 v) ∧ (∀ e ∈ w.blockTable, e.isInt64)
    ∧ w.frameTable.length < 2 ^ 63 ∧ w.blockTable.length < 2 ^ 63 := by
  have hcount := length_le_intercalate block_sep bs hne
  have hd := h.data
  rw [List.nil_append] at hd
  have hF : (w.frames.map c.compress).flatten.length ≤ w.base.data.length := by
    rw [hd, List.length_append]; omega
  refine ⟨?_, ?_, ?_, ?_⟩
  · intro v hv
    rw [h.table] at hv
    simp only [List.mem_map] at hv
    obtain ⟨f, hf, rfl⟩ := hv
    have : (c.compress f).length ≤ (w.frames.map c.compress).flatten.length :=
      (List.sublist_flatten_of_mem (List.mem_map_of_mem _ hf)).length_le
    unfold isInt64
    omega
  · intro e he
    obtain ⟨b, -, hl⟩ := Forall₂_mem_left _ _ _ h.blocks e he
    have h1 := getD_length_le_flatten w.frames e.Frame.toNat
    rw [h.content] at h1
    have h2 := hl.inside
    have h3 := hl.frame_lt
    have h4 := hl.frame_nonneg
    have h5 := hl.offset_nonneg
    have h6 := hl.length_eq
    have h7 := h.count
    unfold blockEntry.isInt64 isInt64
    omega
  · have : w.frameTable.length = w.frames.length := by rw [h.table, List.length_map]
    have h7 := h.count
    have : (w.frameTable.length : Int) < 2 ^ 63 := by omega
    exact_mod_cast this
  · have : w.blockTable.length = bs.length := h.blocks.length_eq
    have : (w.blockTable.length : Int) < 2 ^ 63 := by omega
    exact_mod_cast this

/-- `NewReader` on an archive returns the tables of the `Writer`. -/
theorem NewReader_archive (c : Codec) (limit : Int) (bs : List (List Byte))
    (hne : ∀ b ∈ bs, b ≠ [])
    (hF : ((archive c limit bs).1.frames.map c.compress).flatten.length ≤ 23
      ∨ ¬ (empty_gzip_suffix <:+ ((archive c limit bs).1.frames.map c.compress).flatten))
    (halloc : 24 * bs.length ≤ maxAlloc)
    (hsize : (((archive c limit bs).1.base.data.length : Nat) : Int) < 2 ^ 63)
    (husize : (((List.intercalate block_sep bs).length : Nat) : Int) < 2 ^ 63) :
    NewReader (archive c limit bs).1.base.data ((archive c limit bs).1.base.data.length : Int)
      = .ok (archiveReader c limit bs) := by
  obtain ⟨-, h, -⟩ := archive_Closed c limit bs
  obtain ⟨i1, i2, -, -⟩ := Closed_int64 c _ bs h hne hsize husize
  have i4 : 24 * (archive c limit bs).1.blockTable.length ≤ maxAlloc := by
    rw [h.blocks.length_eq]
    exact halloc
  have i3 : 8 * (archive c limit bs).1.frameTable.length ≤ maxAlloc := by
    have h7 := h.count
    rw [h.table, List.length_map]
    omega
  have hd : (archive c limit bs).1.base.data
      = (seekStat.write (indexBlob (archive c limit bs).1.frameTable
          (archive c limit bs).1.blockTable)
          ⟨((archive c limit bs).1.frames.map c.compress).flatten, none⟩).1.data := by
    rw [h.data, write_accepting, List.nil_append]
    rfl
  obtain ⟨-, s1, s2⟩ := readSeekTable_written
    (indexBlob (archive c limit bs).1.frameTable (archive c limit bs).1.blockTable)
    (((archive c limit bs).1.frames.map c.compress).flatten) (indexBlob_ne_nil _ _) hF
  rw [← hd] at s1 s2
  unfold NewReader Reader.init
  rw [if_neg s1, s2]
  simp only [parseSeekTable_serialised _ _ i1 i2 i3 i4, archiveReader]

/-- `OpenBlock(i, nil)` on the `Reader` of an archive, read to the end,
gives block `i`. -/
theorem OpenBlock_archive (c : Codec) (limit : Int) (bs : List (List Byte))
    (hc : c.Lossless) (hne : ∀ b ∈ bs, b ≠ [])
    (hsize : (((archive c limit bs).1.base.data.length : Nat) : Int) < 2 ^ 63)
    (i : Nat) (hi : i < bs.length) :
    ∃ br, ((archiveReader c limit bs).OpenBlock c (i : Int) none).ret = .ok br
      ∧ ∀ k : Nat, BlockReader.ReadAll c k ((bs.getD i []).length + 1) br
          = some (bs.getD i [], none) := by
  obtain ⟨-, h, -⟩ := archive_Closed c limit bs
  have hlen : (archive c limit bs).1.blockTable.length = bs.length := h.blocks.length_eq
  have hib : i < (archive c limit bs).1.blockTable.length := by omega
  have hloc := h.blocks.get hib hi
  rw [List.get_eq_getElem, List.get_eq_getElem] at hloc
  have hb : bs.getD i [] = bs[i] := List.getD_eq_getElem _ _ hi
  rw [hb]
  generalize hbe : bs[i] = b at hloc ⊢
  have hbne : 0 < b.length := by
    apply List.length_pos.mpr
    apply hne
    rw [← hbe]
    exact List.getElem_mem hi
  generalize hee : (archive c limit bs).1.blockTable[i] = e at hloc
  obtain ⟨l1, l2, l3, l4, l5, l6⟩ := hloc
  -- the frame table
  have ht : (archive c limit bs).1.frameTable
      = frameLengths c (archive c limit bs).1.frames := h.table
  have hftl : (archive c limit bs).1.frameTable.length = (archive c limit bs).1.frames.length := by
    rw [h.table, List.length_map]
  have hd := h.data
  rw [List.nil_append] at hd
  have hfs : ((((archive c limit bs).1.frames.map c.compress).flatten.length : Nat) : Int)
      < 2 ^ 63 := by
    rw [hd, List.length_append] at hsize
    push_cast at hsize ⊢
    omega
  obtain ⟨s1, s2, s3⟩ := section_of_frame c (archive c limit bs).1.frames
    (indexTrailer (archive c limit bs).1.frameTable (archive c limit bs).1.blockTable)
    e.Frame.toNat l2 hfs
  rw [← ht, ← hd] at s3
  rw [← ht] at s1
  -- find
  have hfind : (archiveReader c limit bs).find (i : Int)
      = .ok (some (e, frameOffset ((archive c limit bs).1.frameTable.take e.Frame.toNat),
          (archive c limit bs).1.frameTable.getD e.Frame.toNat 0)) := by
    have c1 : ¬ ((i : Int) < 0 ∨ (i : Int) ≥ ((archive c limit bs).1.blockTable.length : Int)) := by
      omega
    have c2 : (archive c limit bs).1.blockTable.get? i = some e := by
      rw [List.get?_eq_getElem?, List.getElem?_eq_getElem hib, hee]
    have c3 : ¬ (e.Frame < 0 ∧ e.Frame ≥ ((archive c limit bs).1.frameTable.length : Int)) := by
      omega
    have c4 : ¬ (e.Frame < 0 ∨ e.Frame ≥ ((archive c limit bs).1.frameTable.length : Int)) := by
      omega
    simp only [Reader.find, archiveReader, c1, if_false, Int.toNat_ofNat, c2, c3, c4]
  -- the frame opens on its content
  have hopen : openSection c (archiveReader c limit bs).rat
      (frameOffset ((archive c limit bs).1.frameTable.take e.Frame.toNat))
      ((archive c limit bs).1.frameTable.getD e.Frame.toNat 0)
      = .ok ⟨(archive c limit bs).1.frames.getD e.Frame.toNat [], Err.eof⟩ := by
    have c5 : ¬ (frameOffset ((archive c limit bs).1.frameTable.take e.Frame.toNat) < 0
        ∧ 0 < (archive c limit bs).1.frameTable.getD e.Frame.toNat 0) := by
      rw [s1]; omega
    unfold openSection
    rw [if_neg c5]
    simp only [archiveReader, s3, hc _]
  have hs : e.Offset ≤ 0
      ∨ skipOk c ((archive c limit bs).1.frames.getD e.Frame.toNat []) e.Offset.toNat := by
    right; left; omega
  have hob : (archiveReader c limit bs).OpenBlock c (i : Int) none
      = ⟨.ok (openedAt ((archive c limit bs).1.frames.getD e.Frame.toNat []) Err.eof (i : Int) e),
          none⟩ := by
    unfold Reader.OpenBlock
    rw [hfind]
    simp only
    rw [openFresh_eq c _ _ e _ _ none _ Err.eof hopen hs]
    rfl
  refine ⟨_, by rw [hob], ?_⟩
  intro k
  unfold openedAt
  rw [l4]
  rw [ReadAll_spec c k _ _ _ _ b.length (by rw [List.length_drop]; omega) (by omega)]
  have : e.Length.toNat = b.length := by omega
  unfold blockEntry.slice at l6
  rw [this] at l6
  rw [l6]

theorem putUint32_ne_zero (n : Nat) (h0 : n ≠ 0) (hn : n < 2 ^ 32) :
    putUint32 n ≠ [0, 0, 0, 0] := by
  intro h
  simp only [putUint32, List.cons.injEq, and_true] at h
  obtain ⟨h1, h2, h3, h4⟩ := h
  have e1 := congrArg UInt8.toNat h1
  have e2 := congrArg UInt8.toNat h2
  have e3 := congrArg UInt8.toNat h3
  have e4 := congrArg UInt8.toNat h4
  rw [toNat_toUInt8] at e1 e2 e3 e4
  simp only [UInt8.toNat_zero] at e1 e2 e3 e4
  omega

theorem length_putUint32 (n : Nat) : (putUint32 n).length = 4 := rfl

/-- Frames of a codec that writes ISIZE do not end like an empty gzip
stream when the last one holds content of a size that is not a multiple of
2^32. -/
theorem not_suffix_of_sized (c : Codec) (hz : c.Sized) (fs : List (List Byte))
    (hlast : ∀ f ∈ fs.getLast?, f.length % 2 ^ 32 ≠ 0) :
    ¬ (empty_gzip_suffix <:+ (fs.map c.compress).flatten) := by
  rcases List.eq_nil_or_concat fs with rfl | ⟨init, f, rfl⟩
  · intro h
    simp only [List.map_nil, List.flatten_nil, List.suffix_nil] at h
    cases h
  · have hf : f.length % 2 ^ 32 ≠ 0 := hlast f (by simp)
    obtain ⟨body, hb⟩ := hz f
    intro h
    obtain ⟨t, ht⟩ := h
    have e : (init ++ [f]).map c.compress = init.map c.compress ++ [body ++ putUint32 (f.length % 2 ^ 32)] := by
      simp [hb]
    rw [List.concat_eq_append, e, List.flatten_append] at ht
    simp only [List.flatten_cons, List.flatten_nil, List.append_nil] at ht
    have hs : empty_gzip_suffix = [0x01, 0x00, 0x00, 0xff, 0xff, 0x00, 0x00, 0x00, 0x00] ++ [0, 0, 0, 0] := rfl
    rw [hs, ← List.append_assoc, ← List.append_assoc] at ht
    have := List.append_inj_right' ht (by rw [length_putUint32]; rfl)
    exact putUint32_ne_zero _ hf (Nat.mod_lt _ (by norm_num)) this.symm

theorem isizeCodec_lossless : isizeCodec.Lossless := by
  intro x
  have hl : ([0x1f, 0x8b, 0x08, 0, 0, 0, 0, 0, 0, 0xff] ++ x ++ [0, 0, 0, 0]
      ++ putUint32 (x.length % 2 ^ 32) : List Byte).length = x.length + 18 := by
    simp only [List.length_append, List.length_cons, List.length_nil, length_putUint32]
    omega
  have hn : ¬ (x.length + 18 < 18) := by omega
  have hd : ([0x1f, 0x8b, 0x08, 0, 0, 0, 0, 0, 0, 0xff] ++ x ++ [0, 0, 0, 0]
      ++ putUint32 (x.length % 2 ^ 32) : List Byte).drop 10
      = x ++ ([0, 0, 0, 0] ++ putUint32 (x.length % 2 ^ 32)) := by
    rw [List.append_assoc, List.append_assoc]
    exact List.drop_left' rfl
  simp only [isizeCodec, hl, hn, if_false, Nat.add_sub_cancel, hd, List.take_left']

theorem isizeCodec_sized : isizeCodec.Sized := by
  intro x
  exact ⟨_, rfl⟩

/-- C1: for every codec that is lossless and ends a frame with ISIZE as gzip
does, every list of non-empty blocks and every frame limit, writing the
blocks and closing succeeds, `NewReader` on the produced bytes returns a
`Reader`, and for every `i` below the number of blocks `OpenBlock(i, nil)`
succeeds and reading it to the end of the stream returns exactly
`blocks[i]`.  The sizes are those a 64-bit machine holds: the uncompressed
size of the last frame is not a multiple of 2^32 (its ISIZE is then not 0,
as for every frame below 4 GiB), the block table is within what `make`
allocates, and the archive and the joined blocks are shorter than 2^63
bytes. -/
theorem round_trip (c : Codec) (limit : Int) (blocks : List (List Byte))
    (hc : c.Lossless) (hz : c.Sized) (hne : ∀ b ∈ blocks, b ≠ [])
    (hlast : ∀ f ∈ (archive c limit blocks).1.frames.getLast?, f.length % 2 ^ 32 ≠ 0)
    (halloc : 24 * blocks.length ≤ maxAlloc)
    (hsize : (((archive c limit blocks).1.base.data.length : Nat) : Int) < 2 ^ 63)
    (husize : (((List.intercalate block_sep blocks).length : Nat) : Int) < 2 ^ 63) :
    (archive c limit blocks).2 = none
    ∧ ∃ r : Reader,
        NewReader (archive c limit blocks).1.base.data
          ((archive c limit blocks).1.base.data.length : Int) = .ok r
        ∧ r.BlockCount = (blocks.length : Int)
        ∧ ∀ i : Nat, i < blocks.length →
            ∃ br, (r.OpenBlock c (i : Int) none).ret = .ok br
              ∧ ∀ k : Nat, BlockReader.ReadAll c k ((blocks.getD i []).length + 1) br
                  = some (blocks.getD i [], none) := by
  obtain ⟨h1, h, -⟩ := archive_Closed c limit blocks
  have hF := not_suffix_of_sized c hz (archive c limit blocks).1.frames hlast
  refine ⟨h1, archiveReader c limit blocks,
    NewReader_archive c limit blocks hne (Or.inr hF) halloc hsize husize, ?_, ?_⟩
  · simp only [Reader.BlockCount, archiveReader, h.blocks.length_eq]
  · intro i hi
    exact OpenBlock_archive c limit blocks hc hne hsize i hi

set_option maxRecDepth 100000 in
theorem round_trip_witness :
    (∀ b ∈ [[97, 98, 99], [100, (101 : Byte)]], b ≠ [])
    ∧ (archive isizeCodec 5 [[97, 98, 99], [100, 101]]).2 = none
    ∧ ∃ r : Reader,
        NewReader (archive isizeCodec 5 [[97, 98, 99], [100, 101]]).1.base.data
          ((archive isizeCodec 5 [[97, 98, 99], [100, 101]]).1.base.data.length : Int) = .ok r
        ∧ r.BlockCount = (([[97, 98, 99], [100, 101]] : List (List Byte)).length : Int)
        ∧ ∀ i : Nat, i < ([[97, 98, 99], [100, 101]] : List (List Byte)).length →
            ∃ br, (r.OpenBlock isizeCodec (i : Int) none).ret = .ok br
              ∧ ∀ k : Nat, BlockReader.ReadAll isizeCodec k
                    ((([[97, 98, 99], [100, 101]] : List (List Byte)).getD i []).length + 1) br
                  = some (([[97, 98, 99], [100, 101]] : List (List Byte)).getD i [], none) :=
  ⟨by decide,
    round_trip isizeCodec 5 [[97, 98, 99], [100, 101]] isizeCodec_lossless isizeCodec_sized
      (by decide) (by decide) (by decide) (by decide) (by decide)⟩

/-! ## Index out of range -/

/-- C11: for every `Reader` and every index that is negative or at least
`FrameCount()`, `OpenFrame` returns `fs.ErrNotExist`; for every index that
is negative or at least `BlockCount()`, `OpenBlock`, with or without a
`BlockReader` to reuse, returns `fs.ErrNotExist` and leaves the supplied
`BlockReader` (stream, index, offset, remaining budget) as it was.  The
`Reader` itself is the same after every call: neither function assigns to
its tables, so neither returns a new `Reader` here. -/
theorem out_of_range_notExist (c : Codec) (r : Reader) (index : Int) (br : Option BlockReader) :
    ((index < 0 ∨ index ≥ r.FrameCount) → r.OpenFrame c index = .error Err.notExist)
    ∧ ((index < 0 ∨ index ≥ r.BlockCount) →
        r.OpenBlock c index br = ⟨.error Err.notExist, br⟩) := by
  constructor
  · intro h
    have h1 : index < 0 ∨ index ≥ (r.frameTable.length : Int) := h
    unfold Reader.OpenFrame
    rw [if_pos h1]
  · intro h
    have h1 : index < 0 ∨ index ≥ (r.blockTable.length : Int) := h
    have hf : r.find index = .ok none := by
      unfold Reader.find
      rw [if_pos h1]
    unfold Reader.OpenBlock
    rw [hf]

theorem out_of_range_notExist_witness :
    smallReader.OpenFrame toyCodec 1 = .error Err.notExist
    ∧ smallReader.OpenFrame toyCodec (-1) = .error Err.notExist
    ∧ smallReader.OpenBlock toyCodec 3 none = ⟨.error Err.notExist, none⟩
    ∧ smallReader.OpenBlock toyCodec (-1) (some (openedAt [97, 98, 99] Err.eof 0 ⟨0, 0, 3⟩))
        = ⟨.error Err.notExist, some (openedAt [97, 98, 99] Err.eof 0 ⟨0, 0, 3⟩)⟩ :=
  ⟨(out_of_range_notExist toyCodec smallReader 1 none).1 (Or.inr (by decide)),
   (out_of_range_notExist toyCodec smallReader (-1) none).1 (Or.inl (by decide)),
   (out_of_range_notExist toyCodec smallReader 3 none).2 (Or.inr (by decide)),
   (out_of_range_notExist toyCodec smallReader (-1) _).2 (Or.inl (by decide))⟩

/-! ## Calls on a closed `Writer` -/

theorem Close_closed (c : Codec) (w : Writer) (h : (Writer.Close c w).2 = none) :
    (Writer.Close c w).1.pool = false := by
  unfold Writer.Close at h ⊢
  by_cases hp : w.pool = false
  · rw [if_pos hp] at h
    cases h
  · rw [if_neg hp] at h ⊢
    cases hf : w.frame with
    | none => simp only [hf] at h ⊢
    | some g =>
      simp only [hf] at h ⊢
      cases hc : Writer.closeFrame c w g with
      | mk w1 e1 =>
        cases e1 with
        | some e => simp only [hc] at h; cases h
        | none => simp only [hc] at h ⊢

theorem run_closed (c : Codec) (w : Writer) (hp : w.pool = false) (ks : List Call) :
    Writer.run c w ks = (w, ks.map (fun _ => some Err.closed)) := by
  induction ks with
  | nil => rfl
  | cons k ks ih =>
    have hk : w.call c k = (w, some Err.closed) := by
      cases k with
      | WriteBlock r => simp [Writer.call, Writer.WriteBlock, hp]
      | Close => simp [Writer.call, Writer.Close, hp]
    simp only [Writer.run, hk, ih, List.map_cons]

/-- C12: once `Close` has returned without error, every later call of
`WriteBlock` or `Close`, in any number and order, returns `fs.ErrClosed` and
leaves the writer as it was, the sink, the frame table and the block table
included. -/
theorem closed_stays_closed (c : Codec) (w : Writer) (ks : List Call)
    (h : (Writer.Close c w).2 = none) :
    (Writer.run c (Writer.Close c w).1 ks).2 = ks.map (fun _ => some Err.closed)
    ∧ (Writer.run c (Writer.Close c w).1 ks).1 = (Writer.Close c w).1 := by
  rw [run_closed c _ (Close_closed c w h) ks]
  exact ⟨rfl, rfl⟩

theorem closed_stays_closed_witness :
    (Writer.Close toyCodec
      (Writer.writeAll toyCodec (NewWriterLimit ⟨[], none⟩ 5) [BlockSrc.ofBytes [97]]).1).2 = none
    ∧ (Writer.run toyCodec
        (Writer.Close toyCodec
          (Writer.writeAll toyCodec (NewWriterLimit ⟨[], none⟩ 5) [BlockSrc.ofBytes [97]]).1).1
        [Call.WriteBlock (BlockSrc.ofBytes [98]), Call.Close, Call.Close]).2
        = [some Err.closed, some Err.closed, some Err.closed] :=
  ⟨by decide,
    (closed_stays_closed toyCodec
      (Writer.writeAll toyCodec (NewWriterLimit ⟨[], none⟩ 5) [BlockSrc.ofBytes [97]]).1
      [Call.WriteBlock (BlockSrc.ofBytes [98]), Call.Close, Call.Close] (by decide)).1⟩

/-! ## `Close` on a frame that cannot be closed -/

theorem Sink.Write_data (s : Sink) (p : List Byte) :
    ∃ k, (s.Write p).1.data = s.data ++ p.take k := by
  unfold Sink.Write
  cases hr : s.room with
  | none => exact ⟨p.length, by simp⟩
  | some k =>
    by_cases hk : p.length ≤ k
    · exact ⟨p.length, by simp [hk]⟩
    · exact ⟨k, by simp [hk]⟩

/-- A failed `closeFrame` leaves the tables as they are and sends at most
bytes of the frame to the sink. -/
theorem closeFrame_error (c : Codec) (w : Writer) (g : GzipWriter) (e : Err)
    (he : (Writer.closeFrame c w g).2 = some e) :
    (Writer.closeFrame c w g).1.pool = w.pool
    ∧ (Writer.closeFrame c w g).1.frameTable = w.frameTable
    ∧ (Writer.closeFrame c w g).1.blockTable = w.blockTable
    ∧ ∃ k, (Writer.closeFrame c w g).1.base.data
        = w.base.data ++ (c.compress g.content).take k := by
  cases g with
  | mk content failed =>
    cases failed with
    | true => exact ⟨rfl, rfl, rfl, 0, by simp [Writer.closeFrame]⟩
    | false =>
      obtain ⟨k, hk⟩ := Sink.Write_data w.base (c.compress content)
      cases hw : w.base.Write (c.compress content) with
      | mk base rest =>
        cases rest with
        | mk n e1 =>
          rw [hw] at hk
          cases e1 with
          | none => simp [Writer.closeFrame, hw] at he
          | some e2 =>
            simp only [Writer.closeFrame, hw]
            exact ⟨rfl, rfl, rfl, k, hk⟩

/-- C13: for every open `Writer` whose open frame cannot be closed (the
sticky error of the frame, or the sink refusing bytes of the frame), `Close`
returns that error and does nothing beyond the failed `w.frame.Close()`:
the writer stays open, the frame table and the block table are as before,
and the sink has received, after what it held, only leading bytes of the
compressed frame, so no byte of a trailer. -/
theorem Close_frame_failure (c : Codec) (w : Writer) (g : GzipWriter) (e : Err)
    (hp : w.pool = true) (hf : w.frame = some g)
    (he : (Writer.closeFrame c w g).2 = some e) :
    Writer.Close c w = ((Writer.closeFrame c w g).1, some e)
    ∧ (Writer.Close c w).1.pool = true
    ∧ (Writer.Close c w).1.frameTable = w.frameTable
    ∧ (Writer.Close c w).1.blockTable = w.blockTable
    ∧ ∃ k, (Writer.Close c w).1.base.data = w.base.data ++ (c.compress g.content).take k := by
  have hcl : Writer.Close c w = ((Writer.closeFrame c w g).1, some e) := by
    unfold Writer.Close
    have hp' : ¬ (w.pool = false) := by simp [hp]
    rw [if_neg hp']
    simp only [hf]
    cases hc : Writer.closeFrame c w g with
    | mk w1 e1 =>
      rw [hc] at he
      simp only at he
      subst he
      rfl
  obtain ⟨h1, h2, h3, h4⟩ := closeFrame_error c w g e he
  rw [hcl]
  exact ⟨rfl, by rw [h1, hp], h2, h3, h4⟩

theorem Close_frame_failure_witness :
    fullSinkWriter.pool = true
    ∧ fullSinkWriter.frame = some ⟨[97], false⟩
    ∧ (Writer.closeFrame toyCodec fullSinkWriter ⟨[97], false⟩).2 = some Err.io
    ∧ (Writer.Close toyCodec fullSinkWriter).2 = some Err.io
    ∧ (Writer.Close toyCodec fullSinkWriter).1.base.data
        = [0x1f, 0x8b, 0x08, 0, 0, 0, 0, 0, 0, 0xff, 97, 1] :=
  ⟨by decide, by decide, by decide,
    by rw [(Close_frame_failure toyCodec fullSinkWriter ⟨[97], false⟩ Err.io
      (by decide) (by decide) (by decide)).1],
    by decide⟩

/-! ## Frame rollover -/

theorem writeAll_append (c : Codec) (rs : List BlockSrc) (r : BlockSrc) :
    ∀ w : Writer, (Writer.writeAll c w (rs ++ [r])).2 = none →
      (Writer.writeAll c w rs).2 = none
      ∧ Writer.writeAll c w (rs ++ [r]) = Writer.WriteBlock c (Writer.writeAll c w rs).1 r := by
  induction rs with
  | nil =>
    intro w h
    simp only [List.nil_append, Writer.writeAll] at h ⊢
    cases hwb : Writer.WriteBlock c w r with
    | mk w1 e1 =>
      rw [hwb] at h
      cases e1 with
      | some e => cases h
      | none => exact ⟨trivial, rfl⟩
  | cons r0 rs ih =>
    intro w h
    simp only [List.cons_append, Writer.writeAll] at h ⊢
    cases hwb : Writer.WriteBlock c w r0 with
    | mk w1 e1 =>
      rw [hwb] at h
      cases e1 with
      | some e => cases h
      | none => exact ih w1 h

/-- What a successful `Close` does to a writer between two calls. -/
theorem Close_ok (c : Codec) (w : Writer) (hg : w.Good) (hcl : (Writer.Close c w).2 = none) :
    (Writer.Close c w).1.blockTable = w.blockTable
    ∧ (Writer.Close c w).1.stat.limit = w.stat.limit
    ∧ (Writer.Close c w).1.frames = w.frames ++ (w.frame.map (fun g => g.content)).toList
    ∧ (Writer.Close c w).1.frameTable = w.frameTable
        ++ (w.frame.map (fun g => w.stat.frameSize + ((c.compress g.content).length : Int))).toList := by
  have hp : ¬ (w.pool = false) := by simp [hg.pool]
  cases hf : w.frame with
  | none =>
    unfold Writer.Close
    rw [if_neg hp]
    simp [hf]
  | some g =>
    obtain ⟨hg1, -, -⟩ := hg.frame g hf
    unfold Writer.Close at hcl ⊢
    rw [if_neg hp] at hcl ⊢
    simp only [hf] at hcl ⊢
    cases g with
    | mk content failed =>
      simp only at hg1
      subst hg1
      cases hw : w.base.Write (c.compress content) with
      | mk base rest =>
        cases rest with
        | mk n e1 =>
          cases e1 with
          | some e => simp [Writer.closeFrame, hw] at hcl
          | none =>
            have hok := Sink.Write_ok w.base (c.compress content) (by rw [hw])
            rw [hw] at hok
            simp only at hok
            simp [Writer.closeFrame, hw, hok.2]

theorem length_intercalate_sep (b : List Byte) (bs : List (List Byte)) :
    ((List.intercalate block_sep (b :: bs)).length : Int) + 2
      = ((b :: bs).map (fun x => (x.length : Int) + 2)).sum := by
  induction bs generalizing b with
  | nil => simp [List.intercalate, List.intersperse]
  | cons b1 bs ih =>
    have e : List.intercalate block_sep (b :: b1 :: bs)
        = b ++ block_sep ++ List.intercalate block_sep (b1 :: bs) := by
      simp [List.intercalate, List.intersperse]
    rw [e, List.map_cons, List.sum_cons, ← ih b1]
    simp only [List.length_append, length_block_sep]
    push_cast
    omega

/-- Once the blocks written, each with its separator, reach the limit, the
next successful `WriteBlock` leaves a closed frame behind. -/
theorem frames_ne_nil (c : Codec) (d0 : List Byte) (w : Writer) (b : List Byte)
    (bs : List (List Byte)) (r : BlockSrc) (h : w.Inv c d0 (b :: bs))
    (hlim : w.stat.limit ≤ ((b :: bs).map (fun x => (x.length : Int) + 2)).sum)
    (hok : (Writer.WriteBlock c w r).2 = none) :
    (Writer.WriteBlock c w r).1.frames ≠ [] := by
  cases hfr : w.frame with
  | none => exact absurd hfr (h.opened (by simp))
  | some g =>
    obtain ⟨hg1, -, hg3⟩ := h.good.frame g hfr
    by_cases hl : w.stat.inputSize + 2 ≥ w.stat.limit
    · obtain ⟨h1, h2⟩ := WriteBlock_next c w g r h.good.pool hfr hg1 hl
      obtain ⟨hw, he⟩ := h1 hok
      rw [(h2 hw).2 he]
      simp [Writer.afterNext]
    · obtain ⟨h1, h2⟩ := WriteBlock_same c w g r h.good.pool hfr hg1 hl
      rw [h1] at hok
      rw [h2 hok]
      intro hfs
      simp only [Writer.afterSame] at hfs
      have hc := h.content
      have hcur : w.cur = g.content := by simp [Writer.cur, hfr]
      rw [hfs, hcur, List.flatten_nil, List.nil_append] at hc
      have := length_intercalate_sep b bs
      rw [← hc, ← hg3] at this
      omega

/-- C14, counterexample: with limit 0 and the single block "a", written and
closed without error, no block stands before the last one, so the blocks
before it have the total size 0, which reaches the limit; the frame table
holds one entry, not more. -/
theorem frame_rollover_counterexample :
    (Writer.writeAll toyCodec (NewWriterLimit ⟨[], none⟩ 0) [BlockSrc.ofBytes [97]]).2 = none
    ∧ (Writer.Close toyCodec
        (Writer.writeAll toyCodec (NewWriterLimit ⟨[], none⟩ 0) [BlockSrc.ofBytes [97]]).1).2
        = none
    ∧ [BlockSrc.ofBytes [97]] = [] ++ [BlockSrc.ofBytes [97]]
    ∧ (0 : Int) ≤ (([] : List BlockSrc).map (fun r => (r.data.length : Int) + 2)).sum
    ∧ (Writer.Close toyCodec
        (Writer.writeAll toyCodec (NewWriterLimit ⟨[], none⟩ 0)
          [BlockSrc.ofBytes [97]]).1).1.frameTable.length = 1 := by
  decide

/-- C14, amended: for every codec, sink and limit and every run of successful
`WriteBlock` calls followed by a successful `Close`:
(1) if there is at least one block before the last one and those blocks,
each counted with the 2-byte separator after it, have a total size of at
least the limit, the frame table holds more than one entry;
(2) the frame table lists the compressed lengths of the frame contents
`frames`, every block entry names one of these frames, and its offset +
length is at most the uncompressed size of that frame;
(3) every frame but the last, that is every frame closed before a further
block, has an uncompressed size, the separator that ends it included, of at
least the limit. -/
theorem frame_rollover (c : Codec) (s : Sink) (limit : Int) (rs : List BlockSrc)
    (hok : (Writer.writeAll c (NewWriterLimit s limit) rs).2 = none)
    (hcl : (Writer.Close c (Writer.writeAll c (NewWriterLimit s limit) rs).1).2 = none) :
    (∀ (init : List BlockSrc) (last : BlockSrc), rs = init ++ [last] → init ≠ [] →
        limit ≤ (init.map (fun r => (r.data.length : Int) + 2)).sum →
        1 < (Writer.Close c (Writer.writeAll c (NewWriterLimit s limit) rs).1).1.frameTable.length)
    ∧ (Writer.Close c (Writer.writeAll c (NewWriterLimit s limit) rs).1).1.frameTable
        = (Writer.Close c (Writer.writeAll c (NewWriterLimit s limit) rs).1).1.frames.map
            (fun f => ((c.compress f).length : Int))
    ∧ (∀ e ∈ (Writer.Close c (Writer.writeAll c (NewWriterLimit s limit) rs).1).1.blockTable,
        0 ≤ e.Frame ∧ 0 ≤ e.Offset ∧ 0 ≤ e.Length
        ∧ e.Frame
          < (Writer.Close c (Writer.writeAll c (NewWriterLimit s limit) rs).1).1.frames.length
        ∧ e.Offset + e.Length
          ≤ (((Writer.Close c (Writer.writeAll c (NewWriterLimit s limit) rs).1).1.frames.getD
              e.Frame.toNat []).length : Int))
    ∧ (∀ f ∈ (Writer.Close c (Writer.writeAll c (NewWriterLimit s limit) rs).1).1.frames.dropLast,
        limit ≤ (f.length : Int)) := by
  obtain ⟨h, hl⟩ := Inv_writeAll c s.data rs _ [] (Inv_new c s limit) hok
  rw [List.nil_append] at h
  have hl' : (Writer.writeAll c (NewWriterLimit s limit) rs).1.stat.limit = limit := hl
  obtain ⟨k1, k2, k3, k4⟩ := Close_ok c _ h.good hcl
  refine ⟨?_, ?_, ?_, ?_⟩
  · intro init last hrs hne hsum
    subst hrs
    obtain ⟨a1, a2⟩ := writeAll_append c init last _ hok
    obtain ⟨hi, hil⟩ := Inv_writeAll c s.data init _ [] (Inv_new c s limit) a1
    rw [List.nil_append] at hi
    have hil' : (Writer.writeAll c (NewWriterLimit s limit) init).1.stat.limit = limit := hil
    obtain ⟨r0, rest, hinit⟩ : ∃ r0 rest, init = r0 :: rest := by
      cases init with
      | nil => exact absurd rfl hne
      | cons r0 rest => exact ⟨r0, rest, rfl⟩
    have hsum' : (Writer.writeAll c (NewWriterLimit s limit) init).1.stat.limit
        ≤ ((init.map (fun r => r.data)).map (fun x => (x.length : Int) + 2)).sum := by
      rw [hil', List.map_map]
      exact hsum
    have hok2 : (Writer.WriteBlock c (Writer.writeAll c (NewWriterLimit s limit) init).1 last).2
        = none := by rw [← a2]; exact hok
    have hfs : (Writer.writeAll c (NewWriterLimit s limit) (init ++ [last])).1.frames ≠ [] := by
      rw [a2]
      subst hinit
      exact frames_ne_nil c s.data _ _ _ last hi hsum' hok2
    have hopen := h.opened (by simp)
    rw [k4, h.table]
    cases hf : (Writer.writeAll c (NewWriterLimit s limit) (init ++ [last])).1.frame with
    | none => exact absurd hf hopen
    | some g =>
      have := List.length_pos.mpr hfs
      simp only [List.length_append, List.length_map, Option.map_some', Option.toList_some,
        List.length_singleton]
      omega
  · rw [k4, k3, h.table]
    cases hf : (Writer.writeAll c (NewWriterLimit s limit) rs).1.frame with
    | none => simp
    | some g =>
      obtain ⟨-, hg2, -⟩ := h.good.frame g hf
      simp [hg2]
  · intro e he
    rw [k1] at he
    rw [k3]
    cases hf : (Writer.writeAll c (NewWriterLimit s limit) rs).1.frame with
    | none =>
      have hbs : rs.map (fun r => r.data) = [] := by
        by_contra hne
        exact h.opened hne hf
      rw [(h.empty hbs).2.2] at he
      cases he
    | some g =>
      have hcur : (Writer.writeAll c (NewWriterLimit s limit) rs).1.cur = g.content := by
        simp [Writer.cur, hf]
      obtain ⟨b, -, hloc⟩ := Forall₂_mem_left _ _ _ h.blocks e he
      rw [hcur] at hloc
      simp only [Option.map_some', Option.toList_some]
      have h1 := hloc.frame_nonneg
      have h2 := hloc.frame_lt
      have h3 := hloc.offset_nonneg
      have h4 := hloc.length_eq
      have h5 := hloc.inside
      refine ⟨h1, h3, by omega, by omega, ?_⟩
      rw [h4]
      omega
  · intro f hf'
    rw [k3] at hf'
    cases hf : (Writer.writeAll c (NewWriterLimit s limit) rs).1.frame with
    | none =>
      have hbs : rs.map (fun r => r.data) = [] := by
        by_contra hne
        exact h.opened hne hf
      rw [(h.empty hbs).2.1, hf] at hf'
      simp at hf'
    | some g =>
      rw [hf] at hf'
      simp only [Option.map_some', Option.toList_some, List.dropLast_concat] at hf'
      rw [← hl']
      exact h.full f hf'

theorem frame_rollover_witness :
    (Writer.writeAll toyCodec (NewWriterLimit ⟨[], none⟩ 5)
      [BlockSrc.ofBytes [97, 98, 99], BlockSrc.ofBytes [100]]).2 = none
    ∧ (5 : Int) ≤ ([BlockSrc.ofBytes [97, 98, 99]].map (fun r => (r.data.length : Int) + 2)).sum
    ∧ 1 < (Writer.Close toyCodec (Writer.writeAll toyCodec (NewWriterLimit ⟨[], none⟩ 5)
        [BlockSrc.ofBytes [97, 98, 99], BlockSrc.ofBytes [100]]).1).1.frameTable.length :=
  ⟨by decide, by decide,
    (frame_rollover toyCodec ⟨[], none⟩ 5 [BlockSrc.ofBytes [97, 98, 99], BlockSrc.ofBytes [100]]
      (by decide) (by decide)).1 [BlockSrc.ofBytes [97, 98, 99]] (BlockSrc.ofBytes [100]) rfl
      (by decide) (by decide)⟩

/-! ## A segment without its prefix -/

/-- One round of the scan in which the suffix matches and the chunk is
read, but the 10 bytes at the place of the prefix differ from it: the loop
ends (`break`) with the chunk in the buffer. -/
theorem scan_prefix_break (fuel : Nat) (rat : List Byte) (off : Int) (acc : List (List Byte))
    (p q : List Byte)
    (hoff : off > empty_gzip_size_min)
    (hp : ReadAt rat (empty_gzip_suffix_len + 2) (off - ((empty_gzip_suffix_len + 2 : Nat) : Int))
      = .ok p)
    (hsfx : (p.drop 2).take empty_gzip_suffix_len = empty_gzip_suffix)
    (hc : ¬ (off - ((empty_gzip_suffix_len + 2 : Nat) : Int)
      - (getUint16 (p.getD 0 0) (p.getD 1 0) : Int) < 0))
    (hh : ¬ (off - ((empty_gzip_suffix_len + 2 : Nat) : Int)
      - (getUint16 (p.getD 0 0) (p.getD 1 0) : Int)
      - ((empty_gzip_prefix_len + 6 : Nat) : Int) < 0))
    (hq : ReadAt rat (empty_gzip_prefix_len + 6)
      (off - ((empty_gzip_suffix_len + 2 : Nat) : Int)
        - (getUint16 (p.getD 0 0) (p.getD 1 0) : Int)
        - ((empty_gzip_prefix_len + 6 : Nat) : Int)) = .ok q)
    (hpfx : q.take empty_gzip_prefix_len ≠ empty_gzip_prefix) :
    Reader.scan (fuel + 1) rat off acc
      = .ok (acc ++ [SectionReader rat
          (off - ((empty_gzip_suffix_len + 2 : Nat) : Int)
            - (getUint16 (p.getD 0 0) (p.getD 1 0) : Int))
          (getUint16 (p.getD 0 0) (p.getD 1 0) : Int)]) := by
  rw [Reader.scan]
  simp only [hoff, if_true, hp, hsfx, ne_eq, not_true_eq_false, if_false, hc, hh, hq, hpfx,
    not_false_eq_true]

/-- C15, counterexample: on `strayPrefixFile` the scan finds the suffix at
offset 18, reads the chunk 00 00 at offset 16, and finds 16 zero bytes where
the prefix and the extra-field length should stand; `NewReader` returns a
`Reader`, with empty tables, and no error. -/
theorem prefix_mismatch_counterexample :
    ReadAt strayPrefixFile 15 (33 - 15) = .ok ([0x02, 0x00] ++ empty_gzip_suffix)
    ∧ SectionReader strayPrefixFile (33 - 15 - 2) 2 = [0x00, 0x00]
    ∧ ReadAt strayPrefixFile 16 (33 - 15 - 2 - 16) = .ok (List.replicate 16 0)
    ∧ (List.replicate 16 (0 : Byte)).take 10 ≠ empty_gzip_prefix
    ∧ NewReader strayPrefixFile 33 = .ok ⟨strayPrefixFile, [], []⟩ := by
  decide

/-- C15, amended: for every byte source and every round of the backward
scan (the scan arrives at the top of the loop at offset `off` with the reads
`acc` in the buffer) in which the 13-byte suffix matches and the chunk is
read, but the 10 bytes where the prefix of that segment must stand differ
from the prefix pattern, the scan ends there without error with the chunk
just read appended to the buffer, and `NewReader` returns a `Reader` with
the tables the buffer parses to whenever it parses. -/
theorem prefix_mismatch_stops (rat : List Byte) (size : Int) (fuel : Nat) (off : Int)
    (acc : List (List Byte)) (p q : List Byte)
    (hsize : ¬ (size < empty_gzip_size_min))
    (hreach : Reader.scan size.toNat rat size [] = Reader.scan (fuel + 1) rat off acc)
    (hoff : off > empty_gzip_size_min)
    (hp : ReadAt rat (empty_gzip_suffix_len + 2) (off - ((empty_gzip_suffix_len + 2 : Nat) : Int))
      = .ok p)
    (hsfx : (p.drop 2).take empty_gzip_suffix_len = empty_gzip_suffix)
    (hc : ¬ (off - ((empty_gzip_suffix_len + 2 : Nat) : Int)
      - (getUint16 (p.getD 0 0) (p.getD 1 0) : Int) < 0))
    (hh : ¬ (off - ((empty_gzip_suffix_len + 2 : Nat) : Int)
      - (getUint16 (p.getD 0 0) (p.getD 1 0) : Int)
      - ((empty_gzip_prefix_len + 6 : Nat) : Int) < 0))
    (hq : ReadAt rat (empty_gzip_prefix_len + 6)
      (off - ((empty_gzip_suffix_len + 2 : Nat) : Int)
        - (getUint16 (p.getD 0 0) (p.getD 1 0) : Int)
        - ((empty_gzip_prefix_len + 6 : Nat) : Int)) = .ok q)
    (hpfx : q.take empty_gzip_prefix_len ≠ empty_gzip_prefix) :
    Reader.readSeekTable rat size
      = .ok (acc ++ [SectionReader rat
          (off - ((empty_gzip_suffix_len + 2 : Nat) : Int)
            - (getUint16 (p.getD 0 0) (p.getD 1 0) : Int))
          (getUint16 (p.getD 0 0) (p.getD 1 0) : Int)]).flatten
    ∧ ∀ frameTable blockTable,
        parseSeekTable (acc ++ [SectionReader rat
          (off - ((empty_gzip_suffix_len + 2 : Nat) : Int)
            - (getUint16 (p.getD 0 0) (p.getD 1 0) : Int))
          (getUint16 (p.getD 0 0) (p.getD 1 0) : Int)]).flatten = .ok (frameTable, blockTable) →
        NewReader rat size = .ok ⟨rat, frameTable, blockTable⟩ := by
  have hs := scan_prefix_break fuel rat off acc p q hoff hp hsfx hc hh hq hpfx
  have hr : Reader.readSeekTable rat size
      = .ok (acc ++ [SectionReader rat
          (off - ((empty_gzip_suffix_len + 2 : Nat) : Int)
            - (getUint16 (p.getD 0 0) (p.getD 1 0) : Int))
          (getUint16 (p.getD 0 0) (p.getD 1 0) : Int)]).flatten := by
    unfold Reader.readSeekTable
    rw [hreach, hs]
  refine ⟨hr, ?_⟩
  intro ft bt hparse
  unfold NewReader Reader.init
  rw [if_neg hsize, hr]
  simp only [hparse]

theorem prefix_mismatch_stops_witness :
    Reader.readSeekTable strayPrefixFile 33 = .ok [0x00, 0x00]
    ∧ NewReader strayPrefixFile 33 = .ok ⟨strayPrefixFile, [], []⟩ :=
  have h := prefix_mismatch_stops strayPrefixFile 33 32 33 [] ([0x02, 0x00] ++ empty_gzip_suffix)
    (List.replicate 16 0) (by decide) rfl (by decide) (by decide) (by decide) (by decide)
    (by decide) (by decide) (by decide)
  ⟨h.1.trans (by decide), h.2 [] [] (by decide)⟩

/-! ## The extra-field length check -/

/-- A source that is one segment around the chunk `ch`: the scan recovers
`ch`, and `NewReader` returns the tables `ch` parses to. -/
theorem NewReader_segment (ch : List Byte) (h : ch.length < 2 ^ 16) (ft : List Int)
    (bt : List blockEntry) (hp : parseSeekTable ch = .ok (ft, bt)) :
    NewReader (segment ch) ((ch.length + 31 : Nat) : Int) = .ok ⟨segment ch, ft, bt⟩ := by
  have hs : Reader.scan (ch.length + 31) (segment ch) ((ch.length + 31 : Nat) : Int) []
      = .ok [ch] := by
    have h1 := scan_segment_any (ch.length + 30) [] ch [] [] h
    have h2 := scan_stop (ch.length + 30) [] (segment ch ++ []) ([] ++ [ch]) (Or.inl (by simp))
    simp only [List.nil_append, List.append_nil, List.length_nil, zero_add, length_segment,
      Nat.cast_zero] at h1 h2
    rw [h1]
    exact h2
  have hsz : ¬ (((ch.length + 31 : Nat) : Int) < empty_gzip_size_min) := by
    simp only [empty_gzip_size_min, empty_gzip_suffix_len, empty_gzip_suffix,
      empty_gzip_prefix_len, empty_gzip_prefix, List.length_cons, List.length_nil]
    push_cast
    omega
  unfold NewReader Reader.init
  rw [if_neg hsz]
  unfold Reader.readSeekTable
  rw [Int.toNat_ofNat, hs]
  simp only [List.flatten_cons, List.flatten_nil, List.append_nil, hp]

theorem length_wrappedChunk : wrappedChunk.length = 65530 := by
  unfold wrappedChunk
  rw [List.length_append, List.length_replicate]
  rfl

/-- The segment around a chunk of 65530 bytes: its extra-field length is
65536 reduced to 16 bits. -/
theorem segment_65530 (c : List Byte) (hc : c.length = 65530) :
    segment c = empty_gzip_prefix ++ [0x00, 0x00] ++ empty_gzip_extra_sub ++ [0xfa, 0xff] ++ c
      ++ [0xfa, 0xff] ++ empty_gzip_suffix := by
  have e1 : putUint16 ((65530 % 2 ^ 16 + 6) % 2 ^ 16) = [0x00, 0x00] := by decide
  have e2 : putUint16 (65530 % 2 ^ 16) = [0xfa, 0xff] := by decide
  simp only [segment, hc, e1, e2]

theorem wrappedLengthFile_eq : wrappedLengthFile = segment wrappedChunk := by
  unfold wrappedLengthFile
  exact (segment_65530 wrappedChunk length_wrappedChunk).symm

theorem parseSeekTable_zero (t : List Byte) : parseSeekTable (0 :: 0 :: t) = .ok ([], []) := by
  rfl

/-- C16: the source `wrappedLengthFile` holds one segment whose prefix and
suffix match, whose extra-field length decodes to 0 and whose chunk length
decodes to 65530, so that 0 differs from 65530 + 6 = 65536; `NewReader`
accepts it and returns a `Reader` with empty tables, because the comparison
`extra_len != sub_len+6` is made in `uint16`, where 65530 + 6 is 0. -/
theorem wrapped_length_accepted :
    getUint16 0x00 0x00 = 0 ∧ getUint16 0xfa 0xff = 65530
    ∧ NewReader wrappedLengthFile 65561 = .ok ⟨wrappedLengthFile, [], []⟩ := by
  refine ⟨by decide, by decide, ?_⟩
  have h := NewReader_segment wrappedChunk (by rw [length_wrappedChunk]; norm_num) [] []
    (parseSeekTable_zero _)
  rw [length_wrappedChunk, ← wrappedLengthFile_eq] at h
  exact h

/-! ## A truncated index -/

set_option maxRecDepth 100000 in
/-- C17: the IndexBlob of `hugeCountFile` declares 2^62 frames and ends
there, before the first frame length.  `Reader.init` allocates the frame
table before it reads a frame length, and `make([]int64, 1<<62)` panics:
`NewReader` aborts instead of returning `errSeekable`. -/
theorem huge_count_aborts :
    Reader.readSeekTable hugeCountFile 41
      = .ok [0x80, 0x80, 0x80, 0x80, 0x80, 0x80, 0x80, 0x80, 0x80, 0x01]
    ∧ ReadVarint [0x80, 0x80, 0x80, 0x80, 0x80, 0x80, 0x80, 0x80, 0x80, 0x01] = .ok (2 ^ 62, [])
    ∧ makePanics 8 (2 ^ 62) = true
    ∧ NewReader hugeCountFile 41 = .error Err.abort := by
  decide

/-! ## A negative count -/

/-- C18: on a source whose IndexBlob is 01, the frame count decodes to -1
and `make([]int64, count)` panics: `NewReader` aborts instead of returning
an error.  The same happens for the block count -1 (IndexBlob 00 01). -/
theorem negative_count_aborts :
    Reader.readSeekTable negativeFrameCountFile 32 = .ok [0x01]
    ∧ ReadVarint [0x01] = .ok (-1, [])
    ∧ NewReader negativeFrameCountFile 32 = .error Err.abort
    ∧ Reader.readSeekTable negativeBlockCountFile 33 = .ok [0x00, 0x01]
    ∧ NewReader negativeBlockCountFile 33 = .error Err.abort := by
  decide

/-! ## A block entry outside the frame table -/

set_option maxRecDepth 100000 in
/-- C19: `NewReader` accepts `strayFrameFile`, whose block table names the
frames 0 and -1 while the frame table is empty.  For both blocks `find`
passes the check `block.Frame < 0 && block.Frame >= len(r.frameTable)`,
which is never true, and indexes the frame table out of range: `OpenBlock`
panics instead of returning `fs.ErrNotExist`. -/
theorem stray_frame_aborts :
    NewReader strayFrameFile 39 = .ok strayFrameReader
    ∧ strayFrameReader.BlockCount = 2 ∧ strayFrameReader.FrameCount = 0
    ∧ strayFrameReader.find 0 = .error Err.abort
    ∧ (strayFrameReader.OpenBlock toyCodec 0 none).ret = .error Err.abort
    ∧ strayFrameReader.find 1 = .error Err.abort
    ∧ (strayFrameReader.OpenBlock toyCodec 1 none).ret = .error Err.abort := by
  decide

/-! ## Frame indices after any sequence of calls -/

/-- What any call of `WriteBlock` on an open writer does to the tables: the
frame table stays or grows by one entry, the block table stays or grows by
one entry that names the frame about to be written, and a frame is open
afterwards. -/
theorem WriteBlock_tables (c : Codec) (w : Writer) (r : BlockSrc) (hp : w.pool = true) :
    (Writer.WriteBlock c w r).1.pool = true
    ∧ (Writer.WriteBlock c w r).1.frame ≠ none
    ∧ ((Writer.WriteBlock c w r).1.frameTable = w.frameTable
        ∨ ∃ x, (Writer.WriteBlock c w r).1.frameTable = w.frameTable ++ [x])
    ∧ (((Writer.WriteBlock c w r).1.blockTable = w.blockTable
          ∧ ((Writer.WriteBlock c w r).2 = none → False))
        ∨ ∃ o n, (Writer.WriteBlock c w r).1.blockTable
            = w.blockTable ++ [⟨(Writer.WriteBlock c w r).1.frameTable.length, o, n⟩]) := by
  cases w with
  | mk base pool stat frame frameTable blockTable frames =>
    simp only at hp
    subst hp
    cases frame with
    | none =>
      cases hc : Copy ⟨[], false⟩ r with
      | mk g rest =>
        cases rest with
        | mk n e =>
          cases e with
          | none => simp [Writer.WriteBlock, hc]
          | some e => simp [Writer.WriteBlock, hc]
    | some g =>
      generalize hg1 : (g.Write block_sep).1 = g1
      by_cases hl : stat.inputSize + (block_sep.length : Int) ≥ stat.limit
      · cases g1 with
        | mk content failed =>
          cases failed with
          | true => simp [Writer.WriteBlock, hg1, hl, Writer.closeFrame]
          | false =>
            cases hw : base.Write (c.compress content) with
            | mk base1 rest =>
              cases rest with
              | mk n e1 =>
                cases e1 with
                | some e => simp [Writer.WriteBlock, hg1, hl, Writer.closeFrame, hw]
                | none =>
                  cases hc : Copy ⟨[], false⟩ r with
                  | mk g2 rest2 =>
                    cases rest2 with
                    | mk n2 e2 =>
                      cases e2 with
                      | none => simp [Writer.WriteBlock, hg1, hl, Writer.closeFrame, hw, hc]
                      | some e => simp [Writer.WriteBlock, hg1, hl, Writer.closeFrame, hw, hc]
      · cases hc : Copy g1 r with
        | mk g2 rest2 =>
          cases rest2 with
          | mk n2 e2 =>
            cases e2 with
            | none => simp [Writer.WriteBlock, hg1, hl, hc]
            | some e => simp [Writer.WriteBlock, hg1, hl, hc]

theorem Indexed_new (s : Sink) (limit : Int) : (NewWriterLimit s limit).Indexed where
  pool := rfl
  fresh := fun _ => rfl
  bound := by intro e h; cases h
  sorted := List.chain'_nil

theorem Stepped_new (s : Sink) (limit : Int) : (NewWriterLimit s limit).Stepped where
  last := by intro e h; cases h
  steps := List.chain'_nil

theorem Indexed_WriteBlock (c : Codec) (w : Writer) (r : BlockSrc) (h : w.Indexed) :
    (Writer.WriteBlock c w r).1.Indexed := by
  obtain ⟨h1, h2, h3, h4⟩ := WriteBlock_tables c w r h.pool
  have hlen : (w.frameTable.length : Int) ≤ ((Writer.WriteBlock c w r).1.frameTable.length : Int) := by
    rcases h3 with h3 | ⟨x, h3⟩
    · rw [h3]
    · rw [h3, List.length_append, List.length_singleton]
      push_cast
      omega
  refine ⟨h1, fun hf => absurd hf h2, ?_, ?_⟩
  · rcases h4 with ⟨h4, -⟩ | ⟨o, n, h4⟩
    · rw [h4]
      intro e he
      have := h.bound e he
      exact ⟨this.1, by omega⟩
    · rw [h4]
      intro e he
      rcases List.mem_append.mp he with he | he
      · have := h.bound e he
        exact ⟨this.1, by omega⟩
      · simp only [List.mem_singleton] at he
        subst he
        simp
  · rcases h4 with ⟨h4, -⟩ | ⟨o, n, h4⟩
    · rw [h4]
      exact h.sorted
    · rw [h4, List.chain'_append]
      refine ⟨h.sorted, List.chain'_singleton _, ?_⟩
      intro x hx y hy
      simp only [List.head?_cons, Option.mem_def, Option.some.injEq] at hy
      subst hy
      have := h.bound x (List.mem_of_mem_getLast? hx)
      simp only
      omega

theorem Stepped_WriteBlock (c : Codec) (w : Writer) (r : BlockSrc) (h : w.Indexed)
    (hs : w.Stepped) (hok : (Writer.WriteBlock c w r).2 = none) :
    (Writer.WriteBlock c w r).1.Stepped := by
  obtain ⟨-, -, h3, h4⟩ := WriteBlock_tables c w r h.pool
  have hlen : ((Writer.WriteBlock c w r).1.frameTable.length : Int)
      ≤ (w.frameTable.length : Int) + 1 := by
    rcases h3 with h3 | ⟨x, h3⟩
    · rw [h3]
      omega
    · rw [h3, List.length_append, List.length_singleton]
      push_cast
      omega
  rcases h4 with ⟨-, h4⟩ | ⟨o, n, h4⟩
  · exact absurd hok h4
  · constructor
    · intro e he
      rw [h4, List.getLast?_concat] at he
      simp only [Option.mem_def, Option.some.injEq] at he
      subst he
      rfl
    · rw [h4, List.chain'_append]
      refine ⟨hs.steps, List.chain'_singleton _, ?_⟩
      intro x hx y hy
      simp only [List.head?_cons, Option.mem_def, Option.some.injEq] at hy
      subst hy
      have := hs.last x hx
      simp only
      omega

theorem Indexed_run (c : Codec) (rs : List BlockSrc) :
    ∀ w : Writer, w.Indexed → (Writer.run c w (rs.map Call.WriteBlock)).1.Indexed := by
  induction rs with
  | nil => intro w h; exact h
  | cons r rs ih =>
    intro w h
    simp only [List.map_cons, Writer.run, Writer.call]
    exact ih _ (Indexed_WriteBlock c w r h)

theorem Stepped_run (c : Codec) (rs : List BlockSrc) :
    ∀ w : Writer, w.Indexed → w.Stepped →
      (∀ e ∈ (Writer.run c w (rs.map Call.WriteBlock)).2, e = none) →
      (Writer.run c w (rs.map Call.WriteBlock)).1.Stepped := by
  induction rs with
  | nil => intro w _ hs _; exact hs
  | cons r rs ih =>
    intro w h hs hall
    simp only [List.map_cons, Writer.run, Writer.call] at hall ⊢
    have hok : (Writer.WriteBlock c w r).2 = none := hall _ (List.mem_cons_self _ _)
    exact ih _ (Indexed_WriteBlock c w r h) (Stepped_WriteBlock c w r h hs hok)
      (fun e he => hall e (List.mem_cons_of_mem _ he))

/-- What a successful `Close` does to the tables of any open writer. -/
theorem Close_tables (c : Codec) (w : Writer) (hcl : (Writer.Close c w).2 = none) :
    (Writer.Close c w).1.blockTable = w.blockTable
    ∧ ((w.frame = none ∧ (Writer.Close c w).1.frameTable = w.frameTable)
        ∨ (w.frame ≠ none ∧ ∃ x, (Writer.Close c w).1.frameTable = w.frameTable ++ [x])) := by
  cases w with
  | mk base pool stat frame frameTable blockTable frames =>
    cases pool with
    | false => simp [Writer.Close] at hcl
    | true =>
      cases frame with
      | none => simp [Writer.Close]
      | some g =>
        cases g with
        | mk content failed =>
          cases failed with
          | true => simp [Writer.Close, Writer.closeFrame] at hcl
          | false =>
            cases hw : base.Write (c.compress content) with
            | mk base1 rest =>
              cases rest with
              | mk n e1 =>
                cases e1 with
                | some e => simp [Writer.Close, Writer.closeFrame, hw] at hcl
                | none => simp [Writer.Close, Writer.closeFrame, hw]

theorem find_in_range (r : Reader)
    (h : ∀ e ∈ r.blockTable, 0 ≤ e.Frame ∧ e.Frame < (r.frameTable.length : Int)) (index : Int) :
    r.find index ≠ .error Err.abort := by
  unfold Reader.find
  by_cases hi : index < 0 ∨ index ≥ (r.blockTable.length : Int)
  · rw [if_pos hi]
    intro h; cases h
  · rw [if_neg hi]
    cases hg : r.blockTable.get? index.toNat with
    | none => intro h; cases h
    | some block =>
      have hb := h block (List.mem_iff_get?.mpr ⟨_, hg⟩)
      have h1 : ¬ (block.Frame < 0 ∧ block.Frame ≥ (r.frameTable.length : Int)) := by omega
      have h2 : ¬ (block.Frame < 0 ∨ block.Frame ≥ (r.frameTable.length : Int)) := by omega
      simp only [h1, h2, if_false]
      intro h; cases h

set_option maxRecDepth 100000 in
/-- C20, counterexample: with limit 1, the block "a", a call of `WriteBlock`
whose source fails, and the block "b", then a `Close` that succeeds.  The
failed call closes frame 0 and opens frame 1; the next call closes frame 1,
which holds only the separator, and records "b" in frame 2: the frame index
rises by 2 from one block to the next. -/
theorem frame_indices_counterexample :
    (Writer.run toyCodec (NewWriterLimit ⟨[], none⟩ 1) failedCallRun).2
        = [none, some Err.io, none]
    ∧ (Writer.Close toyCodec (Writer.run toyCodec (NewWriterLimit ⟨[], none⟩ 1) failedCallRun).1).2
        = none
    ∧ (Writer.Close toyCodec
        (Writer.run toyCodec (NewWriterLimit ⟨[], none⟩ 1) failedCallRun).1).1.blockTable
        = [⟨0, 0, 1⟩, ⟨2, 0, 1⟩]
    ∧ (Writer.Close toyCodec
        (Writer.run toyCodec (NewWriterLimit ⟨[], none⟩ 1) failedCallRun).1).1.frames
        = [[97, 10, 10], [10, 10], [98]]
    ∧ ((Writer.Close toyCodec
          (Writer.run toyCodec (NewWriterLimit ⟨[], none⟩ 1) failedCallRun).1).1.blockTable.getD 1
            ⟨0, 0, 0⟩).Frame
        = ((Writer.Close toyCodec
          (Writer.run toyCodec (NewWriterLimit ⟨[], none⟩ 1) failedCallRun).1).1.blockTable.getD 0
            ⟨0, 0, 0⟩).Frame + 2 := by
  decide

/-- C20, amended: for every codec, sink and limit and every sequence of
`WriteBlock` calls, failed or not, followed by a `Close` that succeeds,
every block entry names a frame in [0, number of frame-table entries), the
frame indices do not decrease from one block to the next, and they rise by
at most 1 when no call of the sequence failed; so `Reader.find` on these
tables never indexes the frame table out of range. -/
theorem frame_indices (c : Codec) (s : Sink) (limit : Int) (rs : List BlockSrc)
    (hcl : (Writer.Close c
      (Writer.run c (NewWriterLimit s limit) (rs.map Call.WriteBlock)).1).2 = none) :
    (∀ e ∈ (Writer.Close c
        (Writer.run c (NewWriterLimit s limit) (rs.map Call.WriteBlock)).1).1.blockTable,
      0 ≤ e.Frame
      ∧ e.Frame < ((Writer.Close c
          (Writer.run c (NewWriterLimit s limit) (rs.map Call.WriteBlock)).1).1.frameTable.length
            : Int))
    ∧ List.Chain' (fun e1 e2 : blockEntry => e1.Frame ≤ e2.Frame)
        (Writer.Close c
          (Writer.run c (NewWriterLimit s limit) (rs.map Call.WriteBlock)).1).1.blockTable
    ∧ ((∀ e ∈ (Writer.run c (NewWriterLimit s limit) (rs.map Call.WriteBlock)).2, e = none) →
        List.Chain' (fun e1 e2 : blockEntry => e2.Frame ≤ e1.Frame + 1)
          (Writer.Close c
            (Writer.run c (NewWriterLimit s limit) (rs.map Call.WriteBlock)).1).1.blockTable)
    ∧ ∀ (rat : List Byte) (index : Int),
        Reader.find ⟨rat,
          (Writer.Close c
            (Writer.run c (NewWriterLimit s limit) (rs.map Call.WriteBlock)).1).1.frameTable,
          (Writer.Close c
            (Writer.run c (NewWriterLimit s limit) (rs.map Call.WriteBlock)).1).1.blockTable⟩
          index ≠ .error Err.abort := by
  have hi := Indexed_run c rs _ (Indexed_new s limit)
  obtain ⟨k1, k2⟩ := Close_tables c _ hcl
  have hb : ∀ e ∈ (Writer.Close c
        (Writer.run c (NewWriterLimit s limit) (rs.map Call.WriteBlock)).1).1.blockTable,
      0 ≤ e.Frame
      ∧ e.Frame < ((Writer.Close c
          (Writer.run c (NewWriterLimit s limit) (rs.map Call.WriteBlock)).1).1.frameTable.length
            : Int) := by
    intro e he
    rw [k1] at he
    rcases k2 with ⟨hf, -⟩ | ⟨-, x, hx⟩
    · rw [hi.fresh hf] at he
      cases he
    · have := hi.bound e he
      rw [hx, List.length_append, List.length_singleton]
      push_cast
      omega
  refine ⟨hb, ?_, ?_, ?_⟩
  · rw [k1]
    exact hi.sorted
  · intro hall
    rw [k1]
    exact (Stepped_run c rs _ (Indexed_new s limit) (Stepped_new s limit) hall).steps
  · intro rat index
    exact find_in_range _ hb index

set_option maxRecDepth 100000 in
theorem frame_indices_witness :
    (Writer.Close toyCodec
      (Writer.run toyCodec (NewWriterLimit ⟨[], none⟩ 1)
        ([BlockSrc.ofBytes [97], ⟨[], some Err.io⟩, BlockSrc.ofBytes [98]].map
          Call.WriteBlock)).1).1.frameTable.length = 3
    ∧ ∀ e ∈ (Writer.Close toyCodec
        (Writer.run toyCodec (NewWriterLimit ⟨[], none⟩ 1)
          ([BlockSrc.ofBytes [97], ⟨[], some Err.io⟩, BlockSrc.ofBytes [98]].map
            Call.WriteBlock)).1).1.blockTable,
      0 ≤ e.Frame
      ∧ e.Frame < ((Writer.Close toyCodec
          (Writer.run toyCodec (NewWriterLimit ⟨[], none⟩ 1)
            ([BlockSrc.ofBytes [97], ⟨[], some Err.io⟩, BlockSrc.ofBytes [98]].map
              Call.WriteBlock)).1).1.frameTable.length : Int) :=
  ⟨by decide,
    (frame_indices toyCodec ⟨[], none⟩ 1
      [BlockSrc.ofBytes [97], ⟨[], some Err.io⟩, BlockSrc.ofBytes [98]] (by decide)).1⟩

end Gzipx
